import Mathlib

/-!
lpm: process records, CPU percentage, process tree, filters, sorting, process control,
session view.

A shallow embedding of `process.cpp`, `process_tree.cpp`, `process_filter.cpp`,
`process_control.cpp`, the session state of `process_tui.cpp` and `showTopProcesses` of
`main.cpp`.

* A `std::string` is a `List Char` (one `Char` per byte).
* `size_t` and `unsigned long` are naturals taken modulo `2 ^ 64`; `int` and `long`
  are integers kept inside their ranges by the extraction operators.
* A `std::istringstream` is the unread text together with its fail flag. The
  formatted extraction operators follow the C++11 library rules in the classic
  locale with the default `dec` base.
* A `double` value is the rational number it stands for. Each conversion to `double`
  and each `double` operation gives the exact result rounded to the nearest value with
  a 53-bit significand, ties to even (IEEE 754 binary64 in the default rounding mode,
  every operation evaluated in `double` precision).
* A C++ call either returns or lets a `std::out_of_range` escape; both are kept
  as explicit outcomes.
* `std::sort` on process vectors is any function with the contract of the C++ standard
  (`StdSort`); insertion sort is the instance used to evaluate examples.
* The `int` members of the session (indices, offsets, screen size) are integers; the
  sizes involved are far below `2 ^ 31`.
* A function that calls the operating system or waits for a key returns, next to its
  result, the list of these effects in the order they happen; the answers of the
  operating system and the keys read are arguments.
-/

namespace Lpm

/-! ## Strings and machine integers -/

/-- A `std::string`. -/
abbrev Str := List Char

/-- The modulus of `size_t` and `unsigned long`. -/
def wordMod : Nat := 2 ^ 64

/-- Largest `unsigned long`. -/
def ULONG_MAX : Nat := 2 ^ 64 - 1

/-- Largest `long`. -/
def LONG_MAX : Int := 2 ^ 63 - 1

/-- Smallest `long`. -/
def LONG_MIN : Int := -(2 ^ 63)

/-- Largest `int`. -/
def INT_MAX : Int := 2 ^ 31 - 1

/-- Smallest `int`. -/
def INT_MIN : Int := -(2 ^ 31)

/-- Unsigned 64-bit addition. -/
def uadd (a b : Nat) : Nat := (a + b) % wordMod

/-- Unsigned 64-bit subtraction (wraps below zero). -/
def usub (a b : Nat) : Nat := (a % wordMod + wordMod - b % wordMod) % wordMod

/-- `std::string::find(char)`: index of the first occurrence, `none` for `npos`. -/
def strFind (c : Char) : Str → Option Nat
  | [] => none
  | d :: ds => if d = c then some 0 else (strFind c ds).map (· + 1)

/-- `std::string::rfind(char)`: index of the last occurrence, `none` for `npos`. -/
def strRfind (c : Char) : Str → Option Nat
  | [] => none
  | d :: ds =>
    match strRfind c ds with
    | some i => some (i + 1)
    | none => if d = c then some 0 else none

/-- `std::string::substr(pos, n)`: `none` stands for the `std::out_of_range`
thrown when `pos > size()`. -/
def substr (s : Str) (pos n : Nat) : Option Str :=
  if pos > s.length then none else some ((s.drop pos).take n)

/-- `std::string::substr(pos)`, the count defaulting to `npos`: the rest of the string. -/
def substrFrom (s : Str) (pos : Nat) : Option Str :=
  if pos > s.length then none else some (s.drop pos)

/-- `std::isspace` in the classic locale. -/
def isSpace (c : Char) : Bool :=
  c = ' ' || c = '\t' || c = '\n' || c = '\x0b' || c = '\x0c' || c = '\r'

/-- `std::isdigit`. -/
def isDigit (c : Char) : Bool := decide ('0' ≤ c) && decide (c ≤ '9')

/-- Value of a run of decimal digits. -/
def decVal (ds : List Char) : Nat :=
  ds.foldl (fun a c => 10 * a + (c.toNat - 48)) 0

/-- `std::to_string` of a non-negative number. -/
def toStringNat (n : Nat) : Str := Nat.toDigits 10 n

/-! ## Input string streams -/

/-- A `std::istringstream`: the unread characters and the fail flag. -/
structure IStream where
  buf : Str
  fail : Bool
deriving DecidableEq, Repr

/-- A fresh stream over a string. -/
def IStream.ofStr (s : Str) : IStream := { buf := s, fail := false }

/-- The stream after an extraction hit the end of input or a bad token. -/
def IStream.failed (rest : Str) : IStream := { buf := rest, fail := true }

/-- Leading white space skipped by the stream sentry. -/
def skipWs (s : Str) : Str := s.dropWhile isSpace

/-- `operator>>(std::istream&, std::string&)`: a stream that already failed, or
that holds nothing but white space, leaves the string as it was. -/
def extractString (st : IStream) (v : Str) : IStream × Str :=
  if st.fail then (st, v)
  else
    match skipWs st.buf with
    | [] => (IStream.failed [], v)
    | c :: cs =>
      ({ buf := (c :: cs).dropWhile (fun x => !isSpace x), fail := false },
        (c :: cs).takeWhile (fun x => !isSpace x))

/-- The sign, the digit run and the unread rest of a numeric token. -/
def scanNum (s : Str) : Bool × List Char × Str :=
  match s with
  | '-' :: t => (true, t.takeWhile isDigit, t.dropWhile isDigit)
  | '+' :: t => (false, t.takeWhile isDigit, t.dropWhile isDigit)
  | _ => (false, s.takeWhile isDigit, s.dropWhile isDigit)

/-- `operator>>` into an `unsigned long`. A token without digits stores 0 and
fails; a magnitude above `ULONG_MAX` stores `ULONG_MAX` and fails; a leading
minus sign negates modulo `2 ^ 64`. -/
def extractULong (st : IStream) (v : Nat) : IStream × Nat :=
  if st.fail then (st, v)
  else
    match skipWs st.buf with
    | [] => (IStream.failed [], v)
    | c :: cs =>
      match scanNum (c :: cs) with
      | (neg, ds, rest) =>
        if ds = [] then (IStream.failed rest, 0)
        else if decVal ds > ULONG_MAX then (IStream.failed rest, ULONG_MAX)
        else ({ buf := rest, fail := false },
          if neg then (wordMod - decVal ds) % wordMod else decVal ds)

/-- `operator>>` into a signed integer with range `[lo, hi]`: a token without
digits stores 0 and fails; a value outside the range stores the nearer bound and
fails. -/
def extractSigned (lo hi : Int) (st : IStream) (v : Int) : IStream × Int :=
  if st.fail then (st, v)
  else
    match skipWs st.buf with
    | [] => (IStream.failed [], v)
    | c :: cs =>
      match scanNum (c :: cs) with
      | (neg, ds, rest) =>
        if ds = [] then (IStream.failed rest, 0)
        else
          let x : Int := if neg then -(decVal ds : Int) else (decVal ds : Int)
          if x < lo then (IStream.failed rest, lo)
          else if hi < x then (IStream.failed rest, hi)
          else ({ buf := rest, fail := false }, x)

/-- `operator>>` into a `long`. -/
def extractLong (st : IStream) (v : Int) : IStream × Int :=
  extractSigned LONG_MIN LONG_MAX st v

/-- `operator>>` into an `int`. -/
def extractInt (st : IStream) (v : Int) : IStream × Int :=
  extractSigned INT_MIN INT_MAX st v

/-- Extraction into a local that is never read again: only the stream matters. -/
def skipULong (st : IStream) : IStream := (extractULong st 0).1

/-- Extraction into a `long` local that is never read again. -/
def skipLong (st : IStream) : IStream := (extractLong st 0).1

/-! ## `Process` -/

/-- The fields of `class Process` (process.hpp). -/
structure Process where
  pid : Int
  ppid : Int
  name : Str
  state : Str
  user : Str
  vmSize : Int
  vmRSS : Int
  utime : Nat
  stime : Nat
  cpuPercent : ℚ
  numThreads : Int
  starttime : Int
deriving DecidableEq

/-- `Process::Process()`. -/
def Process.new : Process :=
  { pid := 0, ppid := 0, name := [], state := [], user := [],
    vmSize := 0, vmRSS := 0, utime := 0, stime := 0,
    cpuPercent := 0, numThreads := 0, starttime := 0 }

/-- What `readFromProc` can see of the `/proc` file system and of the password
database: the first line of `/proc/<pid>/stat` (`none` when the file does not
open or holds no line), the lines of `/proc/<pid>/status` (`none` when the file
does not open), and `getpwuid`. -/
structure ProcFs where
  statLine : Int → Option Str
  statusLines : Int → Option (List Str)
  getpwuid : Int → Option Str

/-- How a call ended. -/
inductive Outcome where
  | returned (ok : Bool)
  | outOfRange
deriving DecidableEq, Repr

/-- The object after the call and how the call ended. -/
structure ReadResult where
  proc : Process
  outcome : Outcome
deriving DecidableEq

/-- The positional fields read from the text after the name (process.cpp 46-69). -/
def readStatFields (rest : Str) (self : Process) : Process :=
  let iss := IStream.ofStr rest
  let r := extractString iss self.state
  let state := r.2
  let r := extractInt r.1 self.ppid
  let ppid := r.2
  let iss := (List.range 9).foldl (fun s _ => skipULong s) r.1
  let r := extractULong iss self.utime
  let utime := r.2
  let r := extractULong r.1 self.stime
  let stime := r.2
  let iss := (List.range 4).foldl (fun s _ => skipLong s) r.1
  let r := extractInt iss self.numThreads
  let numThreads := r.2
  let iss := skipLong r.1
  let r := extractLong iss self.starttime
  let starttime := r.2
  { self with state := state, ppid := ppid, utime := utime, stime := stime,
              numThreads := numThreads, starttime := starttime }

/-- The three values the status loop keeps (process.cpp 76-89). -/
structure StatusAcc where
  vmSize : Int
  vmRSS : Int
  uid : Int
deriving DecidableEq, Repr

/-- The key `VmSize:`. -/
def keyVmSize : Str := ['V', 'm', 'S', 'i', 'z', 'e', ':']

/-- The key `VmRSS:`. -/
def keyVmRSS : Str := ['V', 'm', 'R', 'S', 'S', ':']

/-- The key `Uid:`. -/
def keyUid : Str := ['U', 'i', 'd', ':']

/-- The test `line.find(key) == 0`: the line starts with the key. -/
def startsWith (key l : Str) : Bool := key.isPrefixOf l

/-- One iteration of the status loop. -/
def statusStep (acc : StatusAcc) (l : Str) : StatusAcc :=
  if startsWith keyVmSize l then
    { acc with vmSize := (extractLong (IStream.ofStr (l.drop 7)) acc.vmSize).2 }
  else if startsWith keyVmRSS l then
    { acc with vmRSS := (extractLong (IStream.ofStr (l.drop 6)) acc.vmRSS).2 }
  else if startsWith keyUid l then
    { acc with uid := (extractInt (IStream.ofStr (l.drop 4)) acc.uid).2 }
  else acc

/-- The status part of `readFromProc` (process.cpp 71-100). -/
def readStatus (fs : ProcFs) (self : Process) : Process :=
  match fs.statusLines self.pid with
  | none => self
  | some ls =>
    let acc := ls.foldl statusStep { vmSize := self.vmSize, vmRSS := self.vmRSS, uid := -1 }
    let self := { self with vmSize := acc.vmSize, vmRSS := acc.vmRSS }
    if 0 ≤ acc.uid then
      match fs.getpwuid acc.uid with
      | some nm => { self with user := nm }
      | none => { self with user := toStringNat acc.uid.toNat }
    else self

/-- `Process::readFromProc` (process.cpp 20-103). -/
def readFromProc (fs : ProcFs) (processId : Int) (self : Process) : ReadResult :=
  let self := { self with pid := processId }
  match fs.statLine processId with
  | none => { proc := self, outcome := .returned false }
  | some line =>
    match strFind '(' line, strRfind ')' line with
    | some start, some endIdx =>
      match substr line (start + 1) (usub (usub endIdx start) 1) with
      | none => { proc := self, outcome := .outOfRange }
      | some nm =>
        let self := { self with name := nm }
        match substrFrom line (endIdx + 2) with
        | none => { proc := self, outcome := .outOfRange }
        | some rest =>
          { proc := readStatus fs (readStatFields rest self), outcome := .returned true }
    | _, _ => { proc := self, outcome := .returned false }

/-! ## `ProcessManager::getAllProcesses` -/

/-- An entry of the `/proc` directory as the directory iterator yields it. -/
structure DirEntry where
  isDirectory : Bool
  filename : Str
deriving DecidableEq, Repr

/-- `std::stoi` in base 10: `none` stands for the `std::invalid_argument` (no
digits) or `std::out_of_range` (value outside `int`) it throws. -/
def stoi (s : Str) : Option Int :=
  match scanNum (skipWs s) with
  | (neg, ds, _) =>
    if ds = [] then none
    else
      let x : Int := if neg then -(decVal ds : Int) else (decVal ds : Int)
      if x < INT_MIN ∨ INT_MAX < x then none else some x

/-- The loop of `getAllProcesses` (process.cpp 128-154) over the entries still to
visit, `processes` being the vector filled so far. An exception leaves the loop:
the `catch` around the whole loop swallows it and the vector is returned as it is. -/
def getAllProcessesLoop (fs : ProcFs) : List DirEntry → List Process → List Process
  | [], processes => processes
  | entry :: entries, processes =>
    if !entry.isDirectory then getAllProcessesLoop fs entries processes
    else if !entry.filename.all isDigit then getAllProcessesLoop fs entries processes
    else
      match stoi entry.filename with
      | none => processes
      | some pid =>
        let r := readFromProc fs pid Process.new
        match r.outcome with
        | .returned true => getAllProcessesLoop fs entries (processes ++ [r.proc])
        | .returned false => getAllProcessesLoop fs entries processes
        | .outOfRange => processes

/-- `ProcessManager::getAllProcesses` (process.cpp 123-160), the directory
listing of `/proc` given as a list. -/
def getAllProcesses (fs : ProcFs) (entries : List DirEntry) : List Process :=
  getAllProcessesLoop fs entries []

/-! ## Reading a stat line by fields -/

/-- The white-space separated fields of a text, in order. -/
def fields : Str → List Str
  | [] => []
  | c :: cs =>
    if isSpace c then fields cs
    else
      match cs with
      | [] => [[c]]
      | d :: _ =>
        if isSpace d then [c] :: fields cs
        else
          match fields cs with
          | t :: ts => (c :: t) :: ts
          | [] => [[c]]

/-- A file system in which every process has the given stat line, no status file
and no password entry. -/
def statOnlyFs (line : Str) : ProcFs :=
  { statLine := fun _ => some line, statusLines := fun _ => none, getpwuid := fun _ => none }

/-- A file system in which process 1 has a stat line that stops right after the
name and every other process has a complete one. -/
def truncatedStatFs : ProcFs :=
  { statLine := fun pid =>
      if pid = 1 then some "1 (a)".toList
      else some "2 (b) S 1 2 2 0 -1 0 0 0 0 0 3 4 0 0 20 0 1 0 9".toList,
    statusLines := fun _ => none,
    getpwuid := fun _ => none }

/-- Whether a token starts with a minus sign. -/
def tokNeg (t : Str) : Bool :=
  match t with
  | '-' :: _ => true
  | _ => false

/-- The token without its sign, if it has one. -/
def tokDigits (t : Str) : Str :=
  match t with
  | '-' :: ds => ds
  | '+' :: ds => ds
  | ds => ds

/-- A numeric token: an optional sign followed by one or more decimal digits and
nothing else. -/
def isNumTok (t : Str) : Bool := !(tokDigits t).isEmpty && (tokDigits t).all isDigit

/-- The integer a numeric token denotes. -/
def tokVal (t : Str) : Int :=
  if tokNeg t then -(decVal (tokDigits t) : Int) else (decVal (tokDigits t) : Int)

/-- A numeric token whose value is an `int`. -/
def fitsInt (t : Str) : Bool :=
  isNumTok t && decide (INT_MIN ≤ tokVal t) && decide (tokVal t ≤ INT_MAX)

/-- A numeric token whose value is a `long`. -/
def fitsLong (t : Str) : Bool :=
  isNumTok t && decide (LONG_MIN ≤ tokVal t) && decide (tokVal t ≤ LONG_MAX)

/-- A numeric token whose magnitude is an `unsigned long`. -/
def fitsULong (t : Str) : Bool := isNumTok t && decide (decVal (tokDigits t) ≤ ULONG_MAX)

/-- The `unsigned long` a numeric token denotes: its value modulo `2 ^ 64`. -/
def tokULong (t : Str) : Nat := (tokVal t % (wordMod : Int)).toNat

/-- The stream has not failed and the fields still unread are `f`. -/
def StreamAt (st : IStream) (f : List Str) : Prop := st.fail = false ∧ fields st.buf = f

/-! ## Reading a status block by keys -/

/-- The line consists of the key, optional white space, the decimal number `n` and
a remainder that does not go on with a digit (such as ` kB`). -/
def HoldsNumber (key l : Str) (n : Nat) : Prop :=
  ∃ ws ds rest : Str, l = key ++ (ws ++ (ds ++ rest)) ∧ (∀ c ∈ ws, isSpace c = true) ∧
    ds ≠ [] ∧ (∀ c ∈ ds, isDigit c = true) ∧
    (∀ c, rest.head? = some c → isDigit c = false) ∧ decVal ds = n

/-- The line `l` is the last line of the block that starts with the key. -/
def IsLastWith (key : Str) (ls : List Str) (l : Str) : Prop :=
  ∃ before after : List Str, ls = before ++ l :: after ∧ startsWith key l = true ∧
    ∀ x ∈ after, startsWith key x = false

/-- A line that starts with one of the three keys the status loop looks for. -/
def isKeyLine (l : Str) : Bool :=
  startsWith keyVmSize l || startsWith keyVmRSS l || startsWith keyUid l

/-- The owner shown for a numeric id: the password entry, else the id in decimal. -/
def ownerName (fs : ProcFs) (uid : Nat) : Str :=
  match fs.getpwuid uid with
  | some nm => nm
  | none => toStringNat uid

/-- A process with a short stat line and a status block in which `VmSize:` occurs
twice; no password entry exists. -/
def sampleStatusFs : ProcFs :=
  { statLine := fun _ => some "2 (b) S 1".toList,
    statusLines := fun _ => some ["Name: b".toList, "VmSize: 100 kB".toList,
      "Uid: 12 12 12 12".toList, "VmSize:   7 kB".toList, "VmRSS: 50 kB".toList],
    getpwuid := fun _ => none }

/-! ## `double` arithmetic

A `double` value is the rational number it stands for. Every operation gives the exact
result rounded to the nearest value with a 53-bit significand, ties to the even
significand (IEEE 754 binary64, the default rounding mode). The exponent range of the
format is not part of the model: the values `calculateCPU` works with are 0 or lie
between `2 ^ (-58)` and `2 ^ 72`, far inside it. -/

/-- The number of binary digits of `n` after the first one, for `n` not above `fuel`. -/
def log2Fuel : Nat → Nat → Nat
  | 0, _ => 0
  | fuel + 1, n => if n < 2 then 0 else log2Fuel fuel (n / 2) + 1

/-- The position of the highest binary digit of `n`: `2 ^ ilog2 n ≤ n < 2 ^ (ilog2 n + 1)`
for `n` above 0. -/
def ilog2 (n : Nat) : Nat := log2Fuel n n

/-- The power `2 ^ e` for an integer exponent. -/
def pow2 (e : Int) : ℚ :=
  if 0 ≤ e then ((2 ^ e.toNat : Nat) : ℚ) else 1 / ((2 ^ (-e).toNat : Nat) : ℚ)

/-- The binary exponent of a positive number: the `e` with `2 ^ e ≤ q < 2 ^ (e + 1)`. -/
def binade (q : ℚ) : Int :=
  let e0 : Int := (ilog2 q.num.natAbs : Int) - (ilog2 q.den : Int)
  if pow2 e0 ≤ q then e0 else e0 - 1

/-- The nearest integer, the even one of the two when both are equally near. -/
def roundHalfEven (n : ℚ) : Int :=
  if n - (⌊n⌋ : ℚ) < 1 / 2 then ⌊n⌋
  else if 1 / 2 < n - (⌊n⌋ : ℚ) then ⌊n⌋ + 1
  else if ⌊n⌋ % 2 = 0 then ⌊n⌋ else ⌊n⌋ + 1

/-- The nearest `double` of a positive number: the number is scaled so that its integer
part has 53 binary digits, rounded to an integer and scaled back. -/
def roundPos (q : ℚ) : ℚ :=
  (roundHalfEven (q / pow2 (binade q - 52)) : ℚ) * pow2 (binade q - 52)

/-- The nearest `double` of a number. -/
def roundDouble (q : ℚ) : ℚ :=
  if 0 < q then roundPos q else if q < 0 then -roundPos (-q) else 0

/-- The conversion of an `unsigned long` to `double`. -/
def doubleOfULong (n : Nat) : ℚ := roundDouble (n : ℚ)

/-- The product of two `double` values. -/
def dmul (a b : ℚ) : ℚ := roundDouble (a * b)

/-- The quotient of two `double` values, the divisor not 0. -/
def ddiv (a b : ℚ) : ℚ := roundDouble (a / b)

/-! ## `Process::calculateCPU` -/

/-- `Process::calculateCPU` (process.cpp 106-115). The three arguments are
`unsigned long` values. In `(100.0 * processTimeDiff) / totalTimeDiff` the difference
is converted to `double` and multiplied by `100.0`, then `totalTimeDiff` is converted
and the product divided by it; each of the four steps rounds. -/
def calculateCPU (self : Process) (prevUtime prevStime totalTimeDiff : Nat) : Process :=
  if totalTimeDiff = 0 then { self with cpuPercent := 0 }
  else
    let processTimeDiff := usub (uadd self.utime self.stime) (uadd prevUtime prevStime)
    { self with
      cpuPercent := ddiv (dmul 100 (doubleOfULong processTimeDiff))
        (doubleOfULong totalTimeDiff) }

/-! ## `ProcessTree`

The nodes of a tree live on the heap and are reached through `nodeMap`, so a
node pointer is the key under which `nodeMap` holds the node. (When a pid occurs
twice in the input, `nodeMap[pid] = node` drops the older pointer, and the older
node is reachable from nowhere.) `nodeMap` is a `std::map`: its entries are kept in
ascending key order, and that is the order in which the loops visit them. -/

/-- The fields of `struct ProcessTreeNode` (process_tree.hpp). -/
structure ProcessTreeNode where
  process : Process
  children : List Int
  depth : Int
deriving DecidableEq

/-- A `std::map<int, ProcessTreeNode*>`: the entries in ascending key order. -/
abbrev NodeMap := List (Int × ProcessTreeNode)

/-- `nodeMap.find(pid)`: `none` for `nodeMap.end()`. -/
def NodeMap.find : NodeMap → Int → Option ProcessTreeNode
  | [], _ => none
  | (k, node) :: rest, pid => if k = pid then some node else NodeMap.find rest pid

/-- `nodeMap[pid] = node`: a new entry at its place in key order, or a new value
for the entry with this key. -/
def NodeMap.assign : NodeMap → Int → ProcessTreeNode → NodeMap
  | [], pid, node => [(pid, node)]
  | (k, n) :: rest, pid, node =>
    if pid < k then (pid, node) :: (k, n) :: rest
    else if pid = k then (pid, node) :: rest
    else (k, n) :: NodeMap.assign rest pid node

/-- A write through the pointer held under the key `pid`. -/
def NodeMap.modify (m : NodeMap) (pid : Int) (f : ProcessTreeNode → ProcessTreeNode) :
    NodeMap :=
  m.map (fun e => if e.1 = pid then (e.1, f e.2) else e)

/-- The keys of the map, ascending. -/
def NodeMap.keys (m : NodeMap) : List Int := m.map Prod.fst

/-- The state of a `ProcessTree` object. -/
structure ProcessTree where
  nodeMap : NodeMap
  roots : List Int
deriving DecidableEq

/-- A node as the first loop of `buildTree` makes it: `new ProcessTreeNode()`
followed by `node->process = proc`. -/
def newNode (proc : Process) : ProcessTreeNode :=
  { process := proc, children := [], depth := 0 }

/-- The first loop of `buildTree` run on a map that already holds `m`. -/
def createNodesFrom (m : NodeMap) (processes : List Process) : NodeMap :=
  processes.foldl (fun m proc => NodeMap.assign m proc.pid (newNode proc)) m

/-- The first pass of `buildTree` (process_tree.cpp 37-41). -/
def createNodes (processes : List Process) : NodeMap :=
  createNodesFrom [] processes

/-- The body of the second loop of `buildTree` (process_tree.cpp 45-56) for one
entry of the map; the state is the map and the vector of roots. -/
def linkStep (st : NodeMap × List Int) (pair : Int × ProcessTreeNode) :
    NodeMap × List Int :=
  let ppid := pair.2.process.ppid
  match NodeMap.find st.1 ppid with
  | some _ =>
    (NodeMap.modify st.1 ppid (fun parent => { parent with children := parent.children ++ [pair.1] }),
      st.2)
  | none => (st.1, st.2 ++ [pair.1])

/-- The second pass of `buildTree` (process_tree.cpp 44-57). The loop only
appends to `children` vectors, so the keys and the `process` fields it reads are
those of the map it started from. -/
def linkNodes (m : NodeMap) : NodeMap × List Int :=
  m.foldl linkStep (m, [])

/-- `ProcessTree::buildTreeRecursive` (process_tree.cpp 75-82) on the node held
under `pid`. The first argument bounds the depth of the recursion: `none` means the
bound was too small. -/
def buildTreeRecursive : Nat → NodeMap → Int → Int → Option NodeMap
  | 0, _, _, _ => none
  | fuel + 1, m, pid, depth =>
    match NodeMap.find m pid with
    | none => some m
    | some node =>
      node.children.foldlM (fun acc child => buildTreeRecursive fuel acc child (depth + 1))
        (NodeMap.modify m pid (fun n => { n with depth := depth }))

/-- The `std::sort` of a `children` vector by pid. The children of a node are
pairwise different keys and a node holds the process of its key, so the sorted
order does not depend on the sorting algorithm. -/
def sortChildren (children : List Int) : List Int :=
  children.insertionSort (fun a b => a ≤ b)

/-- `ProcessTree::buildTree` (process_tree.cpp 33-72), on a cleared tree. The
first argument bounds the depth of the recursion that sets the depths. -/
def buildTree (fuel : Nat) (processes : List Process) : Option ProcessTree :=
  let linked := linkNodes (createNodes processes)
  match linked.2.foldlM (fun acc root => buildTreeRecursive fuel acc root 0) linked.1 with
  | none => none
  | some m =>
    some { nodeMap := m.map (fun e => (e.1, { e.2 with children := sortChildren e.2.children })),
           roots := linked.2 }

/-- `ProcessTree::findProcess` (process_tree.cpp 164-170). -/
def findProcess (t : ProcessTree) (pid : Int) : Option ProcessTreeNode :=
  NodeMap.find t.nodeMap pid

/-- `ProcessTree::getDescendantsRecursive` (process_tree.cpp 185-193); a child
pointer is followed through the map. The first argument bounds the depth of the
recursion. -/
def getDescendantsRecursive : Nat → NodeMap → ProcessTreeNode → List Int → Option (List Int)
  | 0, _, _, _ => none
  | fuel + 1, m, node, descendants =>
    node.children.foldlM
      (fun acc c =>
        match NodeMap.find m c with
        | none => some acc
        | some child => getDescendantsRecursive fuel m child (acc ++ [child.process.pid]))
      descendants

/-- `ProcessTree::getDescendants` (process_tree.cpp 173-182). -/
def getDescendants (fuel : Nat) (t : ProcessTree) (pid : Int) : Option (List Int) :=
  match findProcess t pid with
  | none => some []
  | some node => getDescendantsRecursive fuel t.nodeMap node []

/-- The children a node gets in the second pass: the keys, ascending, of the nodes whose
parent id is the node's key. -/
def linkedChildren (m : NodeMap) (k : Int) : List Int :=
  (m.filter (fun x => decide (x.2.process.ppid = k))).map Prod.fst

/-- The roots found by the second pass: the keys, ascending, of the nodes whose parent id
is not a key. -/
def linkedRoots (m : NodeMap) : List Int :=
  (m.filter (fun x => (NodeMap.find m x.2.process.ppid).isNone)).map Prod.fst

/-- What the depth pass leaves alone: the keys, the processes and the children. -/
def shape (m : NodeMap) : List (Int × Process × List Int) :=
  m.map (fun e => (e.1, e.2.process, e.2.children))

/-- The node reached from `v` by following parent ids `i` times, `v` and every node
on the way being in the map. -/
def ancestor (m : NodeMap) : Nat → Int → Option Int
  | 0, v => if (NodeMap.find m v).isSome then some v else none
  | i + 1, v =>
    match NodeMap.find m v with
    | some n => ancestor m i n.process.ppid
    | none => none

/-- Every child is in the map and names its parent as its parent id. -/
def LinkInv (m : NodeMap) : Prop :=
  ∀ k n, NodeMap.find m k = some n → ∀ c ∈ n.children,
    ∃ cn, NodeMap.find m c = some cn ∧ cn.process.ppid = k

/-- A node of the map whose parent id is not a key. -/
def IsRoot (m : NodeMap) (r : Int) : Prop :=
  ∃ rn, NodeMap.find m r = some rn ∧ NodeMap.find m rn.process.ppid = none

/-- The node `v` lies `d` parent links below a root. -/
def AtDepth (m : NodeMap) (v : Int) (d : Nat) : Prop :=
  ∃ r, IsRoot m r ∧ ancestor m d v = some r

/-- The map after the second pass, as a function of the map after the first. -/
def linkedMap (m : NodeMap) : NodeMap :=
  m.map (fun e => (e.1, { e.2 with children := e.2.children ++ linkedChildren m e.1 }))

/-- The last loop of `buildTree` on one entry: the children sorted by pid. -/
def sortEntry (e : Int × ProcessTreeNode) : Int × ProcessTreeNode :=
  (e.1, { e.2 with children := sortChildren e.2.children })

/-- The sum of the children counts over all nodes of the tree. -/
def childCount (t : ProcessTree) : Nat :=
  (t.nodeMap.map (fun e => e.2.children.length)).sum

/-- A process with the given pid and parent id, every other field as constructed. -/
def procOf (pid ppid : Int) : Process := { Process.new with pid := pid, ppid := ppid }

/-! ## Descendants, as the specification words them -/

/-- The process with pid `c` has parent id `p`, and `p` is the pid of a process of the
snapshot. -/
def IsParentLink (ps : List Process) (c p : Int) : Prop :=
  ∃ x ∈ ps, x.pid = c ∧ x.ppid = p ∧ p ∈ ps.map Process.pid

/-- Acyclic parent links: no process is its own ancestor. -/
def Acyclic (ps : List Process) : Prop :=
  ∀ v, ¬ Relation.TransGen (IsParentLink ps) v v

/-- The pids of the processes whose parent id is `pid`, in ascending order. -/
def childPids (ps : List Process) (pid : Int) : List Int :=
  ((ps.filter (fun x => decide (x.ppid = pid))).map Process.pid).insertionSort (fun a b => a ≤ b)

/-- Pre-order walk below `pid`, children in ascending pid order, to the given depth. -/
def preorder : Nat → List Process → Int → List Int
  | 0, _, _ => []
  | f + 1, ps, pid => (childPids ps pid).flatMap (fun c => c :: preorder f ps c)

/-- The pre-order list of the transitive children of `pid`; empty when `pid` is not the
pid of a process of the snapshot. In a snapshot without cycles no process lies deeper than
the number of processes. -/
def descendantsSpec (ps : List Process) (pid : Int) : List Int :=
  if pid ∈ ps.map Process.pid then preorder (ps.length + 1) ps pid else []

/-- The map holds exactly the processes of the list, each node with the children the
specification names. -/
structure TreeOf (ps : List Process) (m : NodeMap) : Prop where
  find_some : ∀ v node, NodeMap.find m v = some node →
    node.children = childPids ps v ∧ ∃ p ∈ ps, p.pid = v ∧ node.process = p
  find_mem : ∀ p ∈ ps, ∃ node, NodeMap.find m p.pid = some node ∧ node.process = p
  length_eq : m.length = ps.length

/-- The tree of a single process that is its own parent, as `buildTree` returns it. -/
def selfParentTree : ProcessTree :=
  { nodeMap := [(3, { process := procOf 3 3, children := [3], depth := 0 })], roots := [] }

/-- The tree of two processes that name each other as parent, as `buildTree` returns it. -/
def twoCycleTree : ProcessTree :=
  { nodeMap := [(2, { process := procOf 2 3, children := [3], depth := 0 }),
                (3, { process := procOf 3 2, children := [2], depth := 0 })],
    roots := [] }

/-! ## Tree lines -/

/-- `operator<<` of an `int` or a `long` on an output stream. -/
def toStringInt (i : Int) : Str :=
  if i < 0 then '-' :: toStringNat i.natAbs else toStringNat i.toNat

/-- What `getNodeLines` (process_tree.cpp 140-152) writes after the connector: pid, name,
thread count when asked for and above one, state, resident memory when positive. -/
def nodeText (p : Process) (showThreads : Bool) : Str :=
  toStringInt p.pid ++ " ".toList ++ p.name
    ++ (if showThreads && decide (p.numThreads > 1) then
          " [".toList ++ toStringInt p.numThreads ++ " threads]".toList
        else [])
    ++ " (".toList ++ p.state ++ ")".toList
    ++ (if p.vmRSS > 0 then " ".toList ++ toStringInt p.vmRSS ++ "kB".toList else [])

/-- `ProcessTree::getNodeLines` (process_tree.cpp 134-161); a child pointer is followed
through the map, and the index test `i == children.size() - 1` is made inside the loop,
where the size is at least one. The first argument bounds the depth of the recursion. -/
def getNodeLines :
    Nat → NodeMap → ProcessTreeNode → Str → Bool → Bool → List Str → Option (List Str)
  | 0, _, _, _, _, _, _ => none
  | fuel + 1, m, node, pre, isLast, showThreads, lines =>
    node.children.enum.foldlM
      (fun acc ic =>
        match NodeMap.find m ic.2 with
        | none => some acc
        | some child =>
          getNodeLines fuel m child
            (pre ++ (if isLast then "    ".toList else "│   ".toList))
            (decide (ic.1 = node.children.length - 1)) showThreads acc)
      (lines ++ [pre ++ (if isLast then "└── ".toList else "├── ".toList)
        ++ nodeText node.process showThreads])

/-- `ProcessTree::getTreeLines` (process_tree.cpp 123-131). -/
def getTreeLines (fuel : Nat) (t : ProcessTree) (showThreads : Bool) : Option (List Str) :=
  t.roots.enum.foldlM
    (fun acc ir =>
      match NodeMap.find t.nodeMap ir.2 with
      | none => some acc
      | some root =>
        getNodeLines fuel t.nodeMap root [] (decide (ir.1 = t.roots.length - 1))
          showThreads acc)
    []

/-- The line is the line of the process with this pid: some indentation and connector,
then the text of the process. -/
def LineOf (ps : List Process) (showThreads : Bool) (line : Str) (pid : Int) : Prop :=
  ∃ p ∈ ps, p.pid = pid ∧ ∃ pre : Str, line = pre ++ nodeText p showThreads

/-- The pid of a process whose parent id is not the pid of a process of the snapshot. -/
def IsRootPid (ps : List Process) (r : Int) : Prop :=
  ∃ p ∈ ps, p.pid = r ∧ p.ppid ∉ ps.map Process.pid

/-- The pid is a root or has a root among its ancestors. -/
def BelowRoot (ps : List Process) (x : Int) : Prop :=
  ∃ r, IsRootPid ps r ∧ (x = r ∨ Relation.TransGen (IsParentLink ps) x r)

/-- The depth-first order of the forest below the given roots, children ascending. -/
def displayOrder (ps : List Process) (roots : List Int) : List Int :=
  roots.flatMap (fun r => r :: preorder (ps.length + 1) ps r)

/-- The tree of a root beside two processes that name each other as parent, as `buildTree`
returns it. -/
def rootAndCycleTree : ProcessTree :=
  { nodeMap := [(1, { process := procOf 1 0, children := [], depth := 0 }),
                (2, { process := procOf 2 3, children := [3], depth := 0 }),
                (3, { process := procOf 3 2, children := [2], depth := 0 })],
    roots := [1] }

/-! ## Filters -/

/-- `std::tolower` on one byte in the "C" locale, the only locale the program runs in:
the letters `A` to `Z` go to `a` to `z`, every other byte stays. -/
def tolower (c : Char) : Char :=
  if 'A' ≤ c ∧ c ≤ 'Z' then Char.ofNat (c.toNat + 32) else c

/-- `ProcessFilter::toLower` (process_filter.cpp 6-11). -/
def toLower (str : Str) : Str := str.map tolower

/-- `std::string::find(const std::string&)`: index of the first occurrence of the pattern,
`none` for `npos`. The empty pattern is found at index 0 of every string. -/
def strFindStr (pat : Str) : Str → Option Nat
  | [] => if pat = [] then some 0 else none
  | c :: cs =>
    if pat.isPrefixOf (c :: cs) then some 0 else (strFindStr pat cs).map (· + 1)

/-- `ProcessFilter::filterByName` (process_filter.cpp 14-27). -/
def filterByName (processes : List Process) (namePattern : Str) : List Process :=
  let lowerPattern := toLower namePattern
  processes.foldl
    (fun result proc =>
      let lowerName := toLower proc.name
      if (strFindStr lowerPattern lowerName).isSome then result ++ [proc] else result)
    []

/-- `ProcessFilter::search` (process_filter.cpp 133-150). -/
def search (processes : List Process) (query : Str) : List Process :=
  let lowerQuery := toLower query
  processes.foldl
    (fun result proc =>
      let lowerName := toLower proc.name
      let lowerUser := toLower proc.user
      if (strFindStr lowerQuery lowerName).isSome || (strFindStr lowerQuery lowerUser).isSome
      then result ++ [proc] else result)
    []

/-- The text contains the pattern as a substring when case is ignored: the lower-cased
pattern is a run of consecutive bytes of the lower-cased text. -/
def ContainsIgnoreCase (text pat : Str) : Prop := toLower pat <:+: toLower text

instance (text pat : Str) : Decidable (ContainsIgnoreCase text pat) :=
  inferInstanceAs (Decidable (toLower pat <:+: toLower text))

/-- A process with the given pid, name and owner, every other field as constructed. -/
def procNamed (pid : Int) (name user : Str) : Process :=
  { Process.new with pid := pid, name := name, user := user }

/-! ## Sorting -/

/-- `ProcessSorter::SortField` (process_filter.hpp). -/
inductive SortField where
  | BY_PID
  | BY_NAME
  | BY_USER
  | BY_CPU
  | BY_MEMORY
  | BY_STATE
  | BY_PPID
deriving DecidableEq, Repr

/-- `operator<` of `std::string`: lexicographic comparison by byte, a proper prefix being
smaller. -/
def strLess : Str → Str → Bool
  | _, [] => false
  | [], _ :: _ => true
  | a :: as, b :: bs =>
    if a.toNat < b.toNat then true
    else if b.toNat < a.toNat then false
    else strLess as bs

/-- `ProcessSorter::comparePID` (process_filter.cpp 154-156). -/
def comparePID (a b : Process) (ascending : Bool) : Bool :=
  if ascending then decide (a.pid < b.pid) else decide (a.pid > b.pid)

/-- `ProcessSorter::compareName` (process_filter.cpp 158-160); `a.name > b.name` is
`b.name < a.name`. -/
def compareName (a b : Process) (ascending : Bool) : Bool :=
  if ascending then strLess a.name b.name else strLess b.name a.name

/-- `ProcessSorter::compareUser` (process_filter.cpp 162-164). -/
def compareUser (a b : Process) (ascending : Bool) : Bool :=
  if ascending then strLess a.user b.user else strLess b.user a.user

/-- `ProcessSorter::compareCPU` (process_filter.cpp 166-168). -/
def compareCPU (a b : Process) (ascending : Bool) : Bool :=
  if ascending then decide (a.cpuPercent < b.cpuPercent)
  else decide (a.cpuPercent > b.cpuPercent)

/-- `ProcessSorter::compareMemory` (process_filter.cpp 170-172). -/
def compareMemory (a b : Process) (ascending : Bool) : Bool :=
  if ascending then decide (a.vmRSS < b.vmRSS) else decide (a.vmRSS > b.vmRSS)

/-- `ProcessSorter::compareState` (process_filter.cpp 174-176). -/
def compareState (a b : Process) (ascending : Bool) : Bool :=
  if ascending then strLess a.state b.state else strLess b.state a.state

/-- `ProcessSorter::comparePPID` (process_filter.cpp 178-180). -/
def comparePPID (a b : Process) (ascending : Bool) : Bool :=
  if ascending then decide (a.ppid < b.ppid) else decide (a.ppid > b.ppid)

/-- What `std::sort` asks of its comparator: a strict weak ordering, in the form
"asymmetric and negatively transitive". -/
structure StrictWeak {α : Type} (lt : α → α → Bool) : Prop where
  asymm : ∀ a b, lt a b = true → lt b a = false
  negTrans : ∀ a b c, lt a b = false → lt b c = false → lt a c = false

/-- An implementation of `std::sort` on process vectors with what the C++ standard
promises of it: for a comparator that is a strict weak ordering the result is a
rearrangement of the input in which no element is smaller than one before it. The order
of elements that compare equal is left open, as in the standard. -/
structure StdSort where
  sort : (Process → Process → Bool) → List Process → List Process
  perm : ∀ lt ps, StrictWeak lt → (sort lt ps).Perm ps
  sorted : ∀ lt ps, StrictWeak lt → (sort lt ps).Pairwise (fun a b => lt b a = false)

/-- Insertion sort is an implementation of `std::sort`. -/
def insertionStdSort : StdSort where
  sort := fun lt ps => ps.insertionSort (fun a b => lt b a = false)
  perm := fun lt ps _ => List.perm_insertionSort (fun a b => lt b a = false) ps
  sorted := fun lt ps h =>
    @List.sorted_insertionSort Process (fun a b => lt b a = false) _
      ⟨fun a b => by
        cases hab : lt a b with
        | false => exact Or.inr rfl
        | true => exact Or.inl (h.asymm a b hab)⟩
      ⟨fun a b c hab hbc => h.negTrans c b a hbc hab⟩ ps

/-- `ProcessSorter::sort` (process_filter.cpp 183-228); the vector sorted in place is the
result. -/
def ProcessSorter.sort (S : StdSort) (processes : List Process) (field : SortField)
    (ascending : Bool) : List Process :=
  match field with
  | .BY_PID => S.sort (fun a b => comparePID a b ascending) processes
  | .BY_NAME => S.sort (fun a b => compareName a b ascending) processes
  | .BY_USER => S.sort (fun a b => compareUser a b ascending) processes
  | .BY_CPU => S.sort (fun a b => compareCPU a b ascending) processes
  | .BY_MEMORY => S.sort (fun a b => compareMemory a b ascending) processes
  | .BY_STATE => S.sort (fun a b => compareState a b ascending) processes
  | .BY_PPID => S.sort (fun a b => comparePPID a b ascending) processes

/-- `ProcessSorter::topByCPU` (process_filter.cpp 231-241). -/
def topByCPU (S : StdSort) (processes : List Process) (count : Nat) : List Process :=
  let sorted := ProcessSorter.sort S processes .BY_CPU false
  if sorted.length > count then sorted.take count else sorted

/-- `ProcessSorter::topByMemory` (process_filter.cpp 244-254). -/
def topByMemory (S : StdSort) (processes : List Process) (count : Nat) : List Process :=
  let sorted := ProcessSorter.sort S processes .BY_MEMORY false
  if sorted.length > count then sorted.take count else sorted

/-- Byte strings in lexicographic order, equal strings included. -/
def StrLe (a b : Str) : Prop :=
  a = b ∨ List.Lex (fun x y : Char => x.toNat < y.toNat) a b

/-- The key of the first process is at most the key of the second, for the key of the
sort field: numbers by value, texts lexicographically by byte. -/
def KeyLe (field : SortField) (a b : Process) : Prop :=
  match field with
  | .BY_PID => a.pid ≤ b.pid
  | .BY_NAME => StrLe a.name b.name
  | .BY_USER => StrLe a.user b.user
  | .BY_CPU => a.cpuPercent ≤ b.cpuPercent
  | .BY_MEMORY => a.vmRSS ≤ b.vmRSS
  | .BY_STATE => StrLe a.state b.state
  | .BY_PPID => a.ppid ≤ b.ppid

/-- Two neighbours of a sorted list are in order: non-decreasing keys when ascending,
non-increasing keys when descending. -/
def InOrder (field : SortField) (ascending : Bool) (a b : Process) : Prop :=
  if ascending then KeyLe field a b else KeyLe field b a

/-- A process with the given pid and resident memory, every other field as constructed. -/
def procMem (pid vmRSS : Int) : Process := { Process.new with pid := pid, vmRSS := vmRSS }

/-- The comparator of every sort field, as `ProcessSorter::sort` passes it to `std::sort`. -/
def comparator (field : SortField) (ascending : Bool) : Process → Process → Bool :=
  match field with
  | .BY_PID => fun a b => comparePID a b ascending
  | .BY_NAME => fun a b => compareName a b ascending
  | .BY_USER => fun a b => compareUser a b ascending
  | .BY_CPU => fun a b => compareCPU a b ascending
  | .BY_MEMORY => fun a b => compareMemory a b ascending
  | .BY_STATE => fun a b => compareState a b ascending
  | .BY_PPID => fun a b => comparePPID a b ascending

/-! ## The interactive session -/

/-- The code of a character key, as `getch` returns it. -/
def key (c : Char) : Int := c.toNat

/-- `KEY_DOWN` of curses.h. -/
def KEY_DOWN : Int := 258

/-- `KEY_UP` of curses.h. -/
def KEY_UP : Int := 259

/-- `KEY_NPAGE` of curses.h (page down). -/
def KEY_NPAGE : Int := 338

/-- `KEY_PPAGE` of curses.h (page up). -/
def KEY_PPAGE : Int := 339

/-- The data members of `ProcessTUI` (process_tui.hpp 24-41), the stateless `manager`
apart. The `int` members are integers: they stay within the number of processes and the
screen height, far from the bounds of `int`. -/
structure ProcessTUI where
  processes : List Process
  filteredProcesses : List Process
  selectedIndex : Int
  scrollOffset : Int
  screenHeight : Int
  screenWidth : Int
  sortField : SortField
  sortAscending : Bool
  searchQuery : Str
  statusMessage : Str
  showTree : Bool
  refreshInterval : ℚ
  lastRefresh : Int
deriving DecidableEq

/-- `ProcessTUI::ProcessTUI()` (process_tui.cpp 9-14). -/
def ProcessTUI.new : ProcessTUI :=
  { processes := [], filteredProcesses := [], selectedIndex := 0, scrollOffset := 0,
    screenHeight := 0, screenWidth := 0, sortField := .BY_PID, sortAscending := true,
    searchQuery := [], statusMessage := [], showTree := false, refreshInterval := 2,
    lastRefresh := 0 }

/-- `ProcessTUI::setStatus` (process_tui.cpp 411-413). -/
def setStatus (st : ProcessTUI) (message : Str) : ProcessTUI :=
  { st with statusMessage := message }

/-- `ProcessTUI::updateFilter` (process_tui.cpp 400-408). -/
def updateFilter (S : StdSort) (st : ProcessTUI) : ProcessTUI :=
  let filtered :=
    if st.searchQuery.isEmpty then st.processes else search st.processes st.searchQuery
  { st with filteredProcesses := ProcessSorter.sort S filtered st.sortField st.sortAscending }

/-- `ProcessTUI::refreshProcesses` (process_tui.cpp 301-309); the file system and the
listing of `/proc` are what `manager.getAllProcesses()` reads. -/
def refreshProcesses (S : StdSort) (fs : ProcFs) (entries : List DirEntry)
    (st : ProcessTUI) : ProcessTUI :=
  let st1 := updateFilter S { st with processes := getAllProcesses fs entries }
  if st1.selectedIndex ≥ (st1.filteredProcesses.length : Int) then
    { st1 with selectedIndex := max 0 ((st1.filteredProcesses.length : Int) - 1) }
  else st1

/-- The part of `ProcessTUI::init` (process_tui.cpp 20-45) that touches the session state:
the screen size is read, the process list is refreshed, the status is set. -/
def init (S : StdSort) (fs : ProcFs) (entries : List DirEntry) (height width : Int)
    (st : ProcessTUI) : ProcessTUI :=
  setStatus
    (refreshProcesses S fs entries { st with screenHeight := height, screenWidth := width })
    "LPM Started - Press 'h' for help".toList

/-- `ProcessTUI::handleNavigation` (process_tui.cpp 187-223). -/
def handleNavigation (st : ProcessTUI) (ch : Int) : ProcessTUI :=
  let listHeight := st.screenHeight - 5
  let size : Int := st.filteredProcesses.length
  if ch = KEY_UP ∨ ch = key 'k' then
    if st.selectedIndex > 0 then
      let sel := st.selectedIndex - 1
      if sel < st.scrollOffset then { st with selectedIndex := sel, scrollOffset := sel }
      else { st with selectedIndex := sel }
    else st
  else if ch = KEY_DOWN ∨ ch = key 'j' then
    if st.selectedIndex < size - 1 then
      let sel := st.selectedIndex + 1
      if sel ≥ st.scrollOffset + listHeight then
        { st with selectedIndex := sel, scrollOffset := sel - listHeight + 1 }
      else { st with selectedIndex := sel }
    else st
  else if ch = KEY_PPAGE then
    { st with selectedIndex := max 0 (st.selectedIndex - listHeight),
              scrollOffset := max 0 (st.scrollOffset - listHeight) }
  else if ch = KEY_NPAGE then
    { st with selectedIndex := min (size - 1) (st.selectedIndex + listHeight),
              scrollOffset := min (size - listHeight) (st.scrollOffset + listHeight) }
  else st

/-- `ProcessTUI::handleSorting` (process_tui.cpp 267-298). -/
def handleSorting (S : StdSort) (st : ProcessTUI) (ch : Int) : ProcessTUI :=
  let r : ProcessTUI × Bool :=
    if ch = key 'P' then ({ st with sortField := .BY_PID }, true)
    else if ch = key 'N' then ({ st with sortField := .BY_NAME }, true)
    else if ch = key 'M' then ({ st with sortField := .BY_MEMORY }, true)
    else if ch = key 'C' then ({ st with sortField := .BY_CPU }, true)
    else if ch = key 'U' then ({ st with sortField := .BY_USER }, true)
    else (st, false)
  if r.2 then
    let st1 := { r.1 with sortAscending := !r.1.sortAscending }
    setStatus
      { st1 with filteredProcesses :=
          ProcessSorter.sort S st1.filteredProcesses st1.sortField st1.sortAscending }
      "Sorted by field".toList
  else r.1

/-- The row indices `ProcessTUI::drawProcessList` (process_tui.cpp 117-150) reads from
`filteredProcesses`, in the order of the loop. -/
def drawnIndices (st : ProcessTUI) : List Int :=
  let listHeight := st.screenHeight - 5
  let displayCount := min ((st.filteredProcesses.length : Int) - st.scrollOffset) listHeight
  (List.range displayCount.toNat).map (fun i : Nat => st.scrollOffset + (i : Int))

/-- The view is consistent: the scroll offset is not negative, the selected row is a row
of the projection and lies inside the window of `screenHeight - 5` rows that starts at
the scroll offset. -/
def ViewInv (st : ProcessTUI) : Prop :=
  0 ≤ st.scrollOffset ∧ st.scrollOffset ≤ st.selectedIndex ∧
  st.selectedIndex < st.scrollOffset + (st.screenHeight - 5) ∧
  st.selectedIndex < (st.filteredProcesses.length : Int)

/-- The sort field a sort key stands for. -/
def sortKeyField (ch : Int) : Option SortField :=
  if ch = key 'P' then some .BY_PID
  else if ch = key 'N' then some .BY_NAME
  else if ch = key 'M' then some .BY_MEMORY
  else if ch = key 'C' then some .BY_CPU
  else if ch = key 'U' then some .BY_USER
  else none

/-- The pid of the selected row, when the selected index is a row of the projection. -/
def selectedPid (st : ProcessTUI) : Option Int :=
  if 0 ≤ st.selectedIndex then
    (st.filteredProcesses.get? st.selectedIndex.toNat).map Process.pid
  else none

/-- A file system in which process 100 has the stat line of a process 100, process 200
that of a process 200 and every other process that of a process 300; no status files. -/
def threePidFs : ProcFs :=
  { statLine := fun pid =>
      if pid = 100 then some "100 (a) S 1 2 2 0 -1 0 0 0 0 0 3 4 0 0 20 0 1 0 9".toList
      else if pid = 200 then some "200 (b) S 1 2 2 0 -1 0 0 0 0 0 3 4 0 0 20 0 1 0 9".toList
      else some "300 (c) S 1 2 2 0 -1 0 0 0 0 0 3 4 0 0 20 0 1 0 9".toList,
    statusLines := fun _ => none,
    getpwuid := fun _ => none }

/-- The directory entry of a process in `/proc`. -/
def procDir (name : Str) : DirEntry := { isDirectory := true, filename := name }

/-- A session on a screen of 24 lines that started with the processes 100, 200 and 300 and
moved the selection down once: the selected row is row 1. -/
def sessionOnSecondRow : ProcessTUI :=
  handleNavigation
    (init insertionStdSort threePidFs
      [procDir "100".toList, procDir "200".toList, procDir "300".toList] 24 80
      ProcessTUI.new)
    KEY_DOWN

/-- A session on a screen of 7 lines (a window of 2 rows) that started with the processes
100, 200 and 300 and moved the selection down twice: row 2 is selected and the window
starts at row 1. -/
def sessionScrolled : ProcessTUI :=
  handleNavigation
    (handleNavigation
      (init insertionStdSort threePidFs
        [procDir "100".toList, procDir "200".toList, procDir "300".toList] 7 80
        ProcessTUI.new)
      KEY_DOWN)
    KEY_DOWN

/-! ## Process control -/

/-- What a call does to the world outside the program, in the order it happens: a call of
`kill(2)` or of `setpriority(2)` with the arguments given; `prompt`, the screen drawn with
the status message given, followed by a blocking `getch`; `help`, the help screen followed
by a blocking `getch`. -/
inductive Effect where
  | kill (pid signal : Int)
  | setpriority (which who prio : Int)
  | prompt (status : Str)
  | help
deriving DecidableEq, Repr

/-- The operating system as the control functions see it: the return values of `kill(2)`
and `setpriority(2)` for the arguments given. -/
structure Os where
  kill : Int → Int → Int
  setpriority : Int → Int → Int → Int

/-- `SIGINT` of signal.h. -/
def SIGINT : Int := 2

/-- `SIGKILL` of signal.h. -/
def SIGKILL : Int := 9

/-- `SIGTERM` of signal.h. -/
def SIGTERM : Int := 15

/-- `SIGCONT` of signal.h. -/
def SIGCONT : Int := 18

/-- `SIGSTOP` of signal.h. -/
def SIGSTOP : Int := 19

/-- `PRIO_PROCESS` of sys/resource.h. -/
def PRIO_PROCESS : Int := 0

/-- `ProcessController::sendSignal` (process_control.cpp 8-13): the result and the calls
made to the operating system. -/
def ProcessController.sendSignal (os : Os) (pid signal : Int) : Bool × List Effect :=
  if pid ≤ 0 then (false, [])
  else (decide (os.kill pid signal = 0), [Effect.kill pid signal])

/-- `ProcessController::terminate` (process_control.cpp 16-18). -/
def ProcessController.terminate (os : Os) (pid : Int) : Bool × List Effect :=
  ProcessController.sendSignal os pid SIGTERM

/-- `ProcessController::kill` (process_control.cpp 21-23). -/
def ProcessController.kill (os : Os) (pid : Int) : Bool × List Effect :=
  ProcessController.sendSignal os pid SIGKILL

/-- `ProcessController::stop` (process_control.cpp 26-28). -/
def ProcessController.stop (os : Os) (pid : Int) : Bool × List Effect :=
  ProcessController.sendSignal os pid SIGSTOP

/-- `ProcessController::resume` (process_control.cpp 31-33). -/
def ProcessController.resume (os : Os) (pid : Int) : Bool × List Effect :=
  ProcessController.sendSignal os pid SIGCONT

/-- `ProcessController::interrupt` (process_control.cpp 36-38). -/
def ProcessController.interrupt (os : Os) (pid : Int) : Bool × List Effect :=
  ProcessController.sendSignal os pid SIGINT

/-- `ProcessController::setPriority` (process_control.cpp 41-46). -/
def ProcessController.setPriority (os : Os) (pid niceness : Int) : Bool × List Effect :=
  if pid ≤ 0 ∨ niceness < -20 ∨ niceness > 19 then (false, [])
  else (decide (os.setpriority PRIO_PROCESS pid niceness = 0),
    [Effect.setpriority PRIO_PROCESS pid niceness])

/-- `ProcessManager::killProcess` (process.cpp 170-176). -/
def ProcessManager.killProcess (os : Os) (pid signal : Int) : Bool × List Effect :=
  if pid ≤ 0 then (false, [])
  else (decide (os.kill pid signal = 0), [Effect.kill pid signal])

/-- An operating system that accepts every call. -/
def acceptingOs : Os := { kill := fun _ _ => 0, setpriority := fun _ _ _ => 0 }

/-- An operating system that rejects every call. -/
def rejectingOs : Os := { kill := fun _ _ => -1, setpriority := fun _ _ _ => -1 }

/-! ## Actions of the interactive session -/

/-- `KEY_ENTER` of curses.h. -/
def KEY_ENTER : Int := 343

/-- `KEY_F(n)` of curses.h. -/
def KEY_F (n : Int) : Int := 264 + n

/-- The message `killSelectedProcess` shows while it waits for the answer. -/
def killQuestion (pid : Int) : Str :=
  "Kill process ".toList ++ toStringInt pid ++ "? (y/n)".toList

/-- The first half of `ProcessTUI::killSelectedProcess` (process_tui.cpp 312-318): with a
selected index inside the projection, the pid of the selected row and the state that is
drawn while the answer is awaited; `none` when the index is outside. Inside the range the
row exists, so the default of `getD` is never used. -/
def killPrompt (st : ProcessTUI) : Option (Int × ProcessTUI) :=
  if 0 ≤ st.selectedIndex ∧ st.selectedIndex < (st.filteredProcesses.length : Int) then
    let pid := (st.filteredProcesses.getD st.selectedIndex.toNat Process.new).pid
    some (pid, setStatus st (killQuestion pid))
  else none

/-- The second half of `ProcessTUI::killSelectedProcess` (process_tui.cpp 320-334): what
happens to the state drawn with the question once the key `ch` is read. -/
def killAnswer (S : StdSort) (os : Os) (fs : ProcFs) (entries : List DirEntry)
    (pid : Int) (st : ProcessTUI) (ch : Int) : ProcessTUI × List Effect :=
  if ch = key 'y' ∨ ch = key 'Y' then
    let r := ProcessController.terminate os pid
    if r.1 then
      (refreshProcesses S fs entries
        (setStatus st ("Process ".toList ++ toStringInt pid ++ " terminated".toList)), r.2)
    else
      (setStatus st ("Failed to kill process ".toList ++ toStringInt pid), r.2)
  else (setStatus st "Cancelled".toList, [])

/-- `ProcessTUI::killSelectedProcess` (process_tui.cpp 312-335). `answer` is the key the
blocking `getch` returns; the file system and the listing of `/proc` are those a refresh
after the signal reads. -/
def killSelectedProcess (S : StdSort) (os : Os) (fs : ProcFs) (entries : List DirEntry)
    (answer : Int) (st : ProcessTUI) : ProcessTUI × List Effect :=
  match killPrompt st with
  | none => (st, [])
  | some (pid, st1) =>
    let r := killAnswer S os fs entries pid st1 answer
    (r.1, Effect.prompt st1.statusMessage :: r.2)

/-- `ProcessTUI::changeSelectedPriority` (process_tui.cpp 338-345). -/
def changeSelectedPriority (st : ProcessTUI) : ProcessTUI :=
  if 0 ≤ st.selectedIndex ∧ st.selectedIndex < (st.filteredProcesses.length : Int) then
    setStatus (setStatus st "Enter new nice value (-20 to 19): ".toList)
      "Priority change not implemented in this demo".toList
  else st

/-- `ProcessTUI::showProcessDetails` (process_tui.cpp 348-351). -/
def showProcessDetails (st : ProcessTUI) : ProcessTUI :=
  setStatus st "Details view not implemented".toList

/-- `ProcessTUI::promptSearch` (process_tui.cpp 354-356). -/
def promptSearch (st : ProcessTUI) : ProcessTUI :=
  setStatus st "Search not fully implemented".toList

/-- `ProcessTUI::toggleTreeView` (process_tui.cpp 359-362). -/
def toggleTreeView (st : ProcessTUI) : ProcessTUI :=
  let st1 := { st with showTree := !st.showTree }
  setStatus st1
    (if st1.showTree then "Tree view enabled".toList else "List view enabled".toList)

/-- `ProcessTUI::handleActions` (process_tui.cpp 226-264). `answer` is the key a blocking
`getch` returns when the action waits for one (kill question, help screen). -/
def handleActions (S : StdSort) (os : Os) (fs : ProcFs) (entries : List DirEntry)
    (answer : Int) (st : ProcessTUI) (ch : Int) : ProcessTUI × List Effect :=
  if ch = key 'r' ∨ ch = key 'R' then
    (setStatus (refreshProcesses S fs entries st) "Processes refreshed".toList, [])
  else if ch = key 'k' ∨ ch = key 'K' then
    killSelectedProcess S os fs entries answer st
  else if ch = key 'n' ∨ ch = key 'N' then (changeSelectedPriority st, [])
  else if ch = key '/' then (promptSearch st, [])
  else if ch = key 't' ∨ ch = key 'T' then (toggleTreeView st, [])
  else if ch = key 'h' ∨ ch = key 'H' ∨ ch = KEY_F 1 then (st, [Effect.help])
  else if ch = key '\n' ∨ ch = KEY_ENTER then (showProcessDetails st, [])
  else (st, [])

/-- `ProcessTUI::handleInput` (process_tui.cpp 180-184). -/
def handleInput (S : StdSort) (os : Os) (fs : ProcFs) (entries : List DirEntry)
    (answer : Int) (st : ProcessTUI) (ch : Int) : ProcessTUI × List Effect :=
  let st1 := handleNavigation st ch
  let r := handleActions S os fs entries answer st1 ch
  (handleSorting S r.1 ch, r.2)

/-! ## The `--top` command -/

/-- Conversion of an `int` argument to the `size_t` parameter of `topByMemory`: the value
modulo `2 ^ 64`. -/
def sizeOfInt (n : Int) : Nat := (n % (wordMod : Int)).toNat

/-- The line of `printUsage` (main.cpp 91) for `--top`, after the program name. -/
def usageTop : Str := " --top [N]              Show top N processes by CPU\n".toList

/-- `showTopProcesses` (main.cpp 198-224): the heading it prints and the processes of the
rows it prints below the column titles, in order. -/
def showTopProcesses (S : StdSort) (fs : ProcFs) (entries : List DirEntry) (count : Int) :
    Str × List Process :=
  let processes := getAllProcesses fs entries
  let topProcs := topByMemory S processes (sizeOfInt count)
  ("Top ".toList ++ toStringInt count ++ " processes by memory usage:\n\n".toList, topProcs)

/-- A file system with two processes: process 1 with 50 kB and process 2 with 500 kB of
resident memory. -/
def twoMemFs : ProcFs :=
  { statLine := fun pid =>
      if pid = 1 then some "1 (a) S 0 2 2 0 -1 0 0 0 0 0 3 4 0 0 20 0 1 0 9".toList
      else some "2 (b) S 0 2 2 0 -1 0 0 0 0 0 3 4 0 0 20 0 1 0 9".toList,
    statusLines := fun pid =>
      if pid = 1 then some ["VmRSS: 50 kB".toList] else some ["VmRSS: 500 kB".toList],
    getpwuid := fun _ => none }

/-- The processes the first pass of `buildTree` keeps: for every pid the last process of
the list with that pid, in ascending pid order. -/
def survivors (ps : List Process) : List Process :=
  (createNodes ps).map (fun e => e.2.process)

/-- A status block whose last `VmRSS:` line holds no number. -/
def emptyLastRssFs : ProcFs :=
  { statLine := fun _ => some "2 (b) S 1".toList,
    statusLines := fun _ => some ["VmRSS: 100 kB".toList, "VmRSS:".toList],
    getpwuid := fun _ => none }

/-- A status block whose owner id lies above the range of `int`. -/
def largeUidFs : ProcFs :=
  { statLine := fun _ => some "2 (b) S 1".toList,
    statusLines := fun _ => some ["Uid: 3000000000 3000000000 3000000000 3000000000".toList],
    getpwuid := fun _ => none }

/-! # Theorems -/

/-! ## String search lemmas -/

theorem strFind_eq_none {c : Char} {l : Str} : strFind c l = none ↔ c ∉ l := by
  induction l with
  | nil => simp [strFind]
  | cons d ds ih =>
    by_cases h : d = c
    · simp [strFind, h]
    · have h2 : ¬ c = d := fun e => h e.symm
      simp [strFind, h, h2, ih]

theorem strRfind_eq_none {c : Char} {l : Str} : strRfind c l = none ↔ c ∉ l := by
  induction l with
  | nil => simp [strRfind]
  | cons d ds ih =>
    cases hr : strRfind c ds with
    | some i =>
      have : c ∈ ds := by
        by_contra hc
        rw [ih.mpr hc] at hr
        cases hr
      simp [strRfind, hr, this]
    | none =>
      have hc : c ∉ ds := ih.mp hr
      by_cases h : d = c
      · simp [strRfind, hr, h]
      · have h2 : ¬ c = d := fun e => h e.symm
        simp [strRfind, hr, h, h2, hc]

theorem strFind_append_cons {c : Char} (pre t : Str) (h : c ∉ pre) :
    strFind c (pre ++ c :: t) = some pre.length := by
  induction pre with
  | nil => simp [strFind]
  | cons d ds ih =>
    have hd : ¬ d = c := fun e => h (by simp [e])
    have hds : c ∉ ds := fun e => h (by simp [e])
    simp [strFind, hd, ih hds]

theorem strRfind_append_cons {c : Char} (l post : Str) (h : c ∉ post) :
    strRfind c (l ++ c :: post) = some l.length := by
  induction l with
  | nil => simp [strRfind, strRfind_eq_none.mpr h]
  | cons d ds ih => simp [strRfind, ih]

theorem usub_of_le {a b : Nat} (hb : b ≤ a) (ha : a < wordMod) : usub a b = a - b := by
  unfold usub
  have hb2 : b < wordMod := lt_of_le_of_lt hb ha
  rw [Nat.mod_eq_of_lt ha, Nat.mod_eq_of_lt hb2]
  have : a + wordMod - b = (a - b) + wordMod := by omega
  rw [this, Nat.add_mod_right, Nat.mod_eq_of_lt (by omega)]

/-! ## The stat line -/

theorem substr_name (pre nm post : Str) (hlen : (pre ++ '(' :: (nm ++ ')' :: post)).length < wordMod) :
    substr (pre ++ '(' :: (nm ++ ')' :: post)) (pre.length + 1)
      (usub (usub (pre.length + 1 + nm.length) pre.length) 1) = some nm := by
  have h1 : usub (pre.length + 1 + nm.length) pre.length = 1 + nm.length := by
    rw [usub_of_le (by omega) (by simp at hlen; omega)]; omega
  have h2 : usub (1 + nm.length) 1 = nm.length := by
    rw [usub_of_le (by omega) (by simp at hlen; omega)]; omega
  rw [h1, h2]
  unfold substr
  have hd : List.drop (pre.length + 1) (pre ++ '(' :: (nm ++ ')' :: post)) = nm ++ ')' :: post := by
    rw [show pre ++ '(' :: (nm ++ ')' :: post) = (pre ++ ['(']) ++ (nm ++ ')' :: post) by simp]
    rw [List.drop_append_eq_append_drop]
    simp
  rw [hd]
  simp

theorem substrFrom_rest (pre nm : Str) (c : Char) (post : Str) :
    substrFrom (pre ++ '(' :: (nm ++ ')' :: c :: post)) (pre.length + 1 + nm.length + 2) = some post := by
  unfold substrFrom
  have hd : List.drop (pre.length + 1 + nm.length + 2) (pre ++ '(' :: (nm ++ ')' :: c :: post)) = post := by
    rw [show pre ++ '(' :: (nm ++ ')' :: c :: post) = (pre ++ '(' :: nm ++ [')', c]) ++ post by simp]
    rw [List.drop_append_eq_append_drop]
    have : (pre ++ '(' :: nm ++ [')', c]).length = pre.length + 1 + nm.length + 2 := by
      simp; omega
    rw [← this]
    simp
  rw [hd]
  simp
  omega

theorem readStatFields_frame (rest : Str) (self : Process) :
    (readStatFields rest self).name = self.name ∧ (readStatFields rest self).pid = self.pid ∧
    (readStatFields rest self).cpuPercent = self.cpuPercent ∧
    (readStatFields rest self).user = self.user ∧
    (readStatFields rest self).vmSize = self.vmSize ∧
    (readStatFields rest self).vmRSS = self.vmRSS :=
  ⟨rfl, rfl, rfl, rfl, rfl, rfl⟩

theorem readStatus_frame (fs : ProcFs) (self : Process) :
    (readStatus fs self).name = self.name ∧ (readStatus fs self).pid = self.pid ∧
    (readStatus fs self).cpuPercent = self.cpuPercent ∧
    (readStatus fs self).state = self.state ∧ (readStatus fs self).ppid = self.ppid ∧
    (readStatus fs self).utime = self.utime ∧ (readStatus fs self).stime = self.stime ∧
    (readStatus fs self).numThreads = self.numThreads ∧
    (readStatus fs self).starttime = self.starttime := by
  unfold readStatus
  split
  · simp
  · dsimp only
    split
    · split <;> simp
    · simp

theorem readFromProc_of_shape (fs : ProcFs) (processId : Int) (self : Process)
    (pre nm : Str) (c : Char) (post : Str)
    (hline : fs.statLine processId = some (pre ++ '(' :: (nm ++ ')' :: c :: post)))
    (hlen : (pre ++ '(' :: (nm ++ ')' :: c :: post)).length < wordMod)
    (hpre : '(' ∉ pre) (hpost : ')' ∉ c :: post) :
    readFromProc fs processId self =
      { proc := readStatus fs
          (readStatFields post { self with pid := processId, name := nm }),
        outcome := .returned true } := by
  have hf : strFind '(' (pre ++ '(' :: (nm ++ ')' :: c :: post)) = some pre.length :=
    strFind_append_cons pre _ hpre
  have hr : strRfind ')' (pre ++ '(' :: (nm ++ ')' :: c :: post))
      = some (pre.length + 1 + nm.length) := by
    have := strRfind_append_cons (pre ++ '(' :: nm) (c :: post) hpost
    simp at this
    simp [this]
    omega
  have hs := substr_name pre nm (c :: post) hlen
  have hs2 := substrFrom_rest pre nm c post
  unfold readFromProc
  simp only [hline, hf, hr, hs, hs2]

/-- C1. The name stored by `readFromProc` is the text strictly between the first `(` and the
last `)` of the stat line, also when that text holds parentheses itself; the call then
returns true whenever something follows the last `)`. A stat line without `(` or without
`)` makes the call return false. -/
theorem readFromProc_name (fs : ProcFs) (processId : Int) (self : Process) (line : Str)
    (hline : fs.statLine processId = some line) (hlen : line.length < wordMod) :
    (∀ pre nm post : Str, line = pre ++ '(' :: (nm ++ ')' :: post) → '(' ∉ pre → ')' ∉ post →
        (readFromProc fs processId self).proc.name = nm ∧
        (post ≠ [] → (readFromProc fs processId self).outcome = .returned true)) ∧
    (('(' ∉ line ∨ ')' ∉ line) →
        (readFromProc fs processId self).outcome = .returned false) := by
  constructor
  · intro pre nm post hl hpre hpost
    subst hl
    have hf : strFind '(' (pre ++ '(' :: (nm ++ ')' :: post)) = some pre.length :=
      strFind_append_cons pre _ hpre
    have hr : strRfind ')' (pre ++ '(' :: (nm ++ ')' :: post)) = some (pre.length + 1 + nm.length) := by
      have := strRfind_append_cons (pre ++ '(' :: nm) post hpost
      simp at this
      simp [this]
      omega
    have hs := substr_name pre nm post hlen
    constructor
    · unfold readFromProc
      simp only [hline, hf, hr, hs]
      cases substrFrom (pre ++ '(' :: (nm ++ ')' :: post)) (pre.length + 1 + nm.length + 2) with
      | none => rfl
      | some rest =>
        show (readStatus fs (readStatFields rest _)).name = nm
        rw [(readStatus_frame fs _).1, (readStatFields_frame rest _).1]
    · intro hne
      cases post with
      | nil => exact absurd rfl hne
      | cons c post =>
        rw [readFromProc_of_shape fs processId self pre nm c post hline hlen hpre hpost]
  · intro h
    unfold readFromProc
    simp only [hline]
    rcases h with h | h
    · rw [strFind_eq_none.mpr h]
    · rw [strRfind_eq_none.mpr h]
      cases strFind '(' line <;> rfl

/-- A stat line whose name holds both kinds of parenthesis. -/
theorem readFromProc_name_witness :
    (readFromProc (statOnlyFs "7 (a)(b) S".toList) 7 Process.new).proc.name = "a)(b".toList ∧
    (readFromProc (statOnlyFs "7 (a)(b) S".toList) 7 Process.new).outcome = .returned true :=
  have h := (readFromProc_name (statOnlyFs "7 (a)(b) S".toList) 7 Process.new
      "7 (a)(b) S".toList rfl (by decide)).1
    "7 ".toList "a)(b".toList " S".toList (by decide) (by decide) (by decide)
  ⟨h.1, h.2 (by decide)⟩

theorem strFind_lt {c : Char} {l : Str} {i : Nat} (h : strFind c l = some i) : i < l.length := by
  induction l generalizing i with
  | nil => simp [strFind] at h
  | cons d ds ih =>
    by_cases hd : d = c
    · simp [strFind, hd] at h
      subst h
      simp
    · simp [strFind, hd] at h
      obtain ⟨j, hj, rfl⟩ := h
      have := ih hj
      simp
      omega

theorem strFind_isSome_of_mem {c : Char} {l : Str} (h : c ∈ l) : ∃ i, strFind c l = some i := by
  cases hf : strFind c l with
  | none => exact absurd h (strFind_eq_none.mp hf)
  | some i => exact ⟨i, rfl⟩

theorem strRfind_isSome_of_mem {c : Char} {l : Str} (h : c ∈ l) : ∃ i, strRfind c l = some i := by
  cases hf : strRfind c l with
  | none => exact absurd h (strRfind_eq_none.mp hf)
  | some i => exact ⟨i, rfl⟩

/-- A line with both delimiters never makes `readFromProc` return false. -/
theorem readFromProc_outcome_of_delims (fs : ProcFs) (processId : Int) (self : Process)
    (line : Str) (hline : fs.statLine processId = some line) (s e : Nat)
    (hs : strFind '(' line = some s) (he : strRfind ')' line = some e) :
    (readFromProc fs processId self).outcome
      = if e + 2 ≤ line.length then .returned true else .outOfRange := by
  have hlt := strFind_lt hs
  unfold readFromProc
  simp only [hline, hs, he]
  have h1 : substr line (s + 1) (usub (usub e s) 1)
      = some ((line.drop (s + 1)).take (usub (usub e s) 1)) := by
    unfold substr
    rw [if_neg (by omega)]
  rw [h1]
  dsimp only
  unfold substrFrom
  by_cases h2 : e + 2 ≤ line.length
  · rw [if_neg (by omega), if_pos h2]
  · rw [if_pos (by omega), if_neg h2]

/-- The loop of `getAllProcesses` only appends: what is in the vector when an entry is
reached is still there, in front, when the loop ends. -/
theorem getAllProcessesLoop_keeps (fs : ProcFs) (entries : List DirEntry) :
    ∀ acc : List Process, acc <+: getAllProcessesLoop fs entries acc := by
  induction entries with
  | nil => intro acc; exact List.prefix_refl _
  | cons entry rest ih =>
    intro acc
    unfold getAllProcessesLoop
    split
    · exact ih acc
    · split
      · exact ih acc
      · split
        · exact List.prefix_refl _
        · dsimp only
          split
          · exact (List.prefix_append acc _).trans (ih _)
          · exact ih acc
          · exact List.prefix_refl _

/-- The loop of `getAllProcesses` at the entry of a process for which `readFromProc`
returns true: the process is appended and the loop goes on. -/
theorem getAllProcessesLoop_accept (fs : ProcFs) (entry : DirEntry) (rest : List DirEntry)
    (acc : List Process) (pid : Int) (hdir : entry.isDirectory = true)
    (hdig : entry.filename.all isDigit = true) (hpid : stoi entry.filename = some pid)
    (hret : (readFromProc fs pid Process.new).outcome = .returned true) :
    getAllProcessesLoop fs (entry :: rest) acc
      = getAllProcessesLoop fs rest (acc ++ [(readFromProc fs pid Process.new).proc]) := by
  rw [getAllProcessesLoop]
  simp only [hdir, hdig, hpid, hret, Bool.not_true, Bool.false_eq_true, if_false]

/-- C2, as the code has it. `readFromProc` returns false only for a stat line that
lacks `(` or `)` (or when no line can be read). A line that holds a `(` and at least one
character after its last `)` returns true whatever follows the name: a short field list
or a token that is not a number is accepted all the same. When the loop of
`getAllProcesses` reaches the entry of such a process, the process is appended to the
vector, the loop goes on with the next entry, and the process is in the snapshot the loop
returns. -/
theorem readFromProc_accepts_any_fields (fs : ProcFs) (processId : Int) (self : Process) :
    ((readFromProc fs processId self).outcome = .returned false ↔
      ∀ line, fs.statLine processId = some line → ('(' ∉ line ∨ ')' ∉ line)) ∧
    (∀ (l : Str) (c : Char) (post : Str),
      fs.statLine processId = some (l ++ ')' :: c :: post) →
      '(' ∈ l ++ ')' :: c :: post → ')' ∉ c :: post →
      (readFromProc fs processId self).outcome = .returned true) ∧
    (∀ (l : Str) (c : Char) (post : Str) (entry : DirEntry) (rest : List DirEntry)
        (acc : List Process),
      fs.statLine processId = some (l ++ ')' :: c :: post) →
      '(' ∈ l ++ ')' :: c :: post → ')' ∉ c :: post →
      entry.isDirectory = true → entry.filename.all isDigit = true →
      stoi entry.filename = some processId →
      getAllProcessesLoop fs (entry :: rest) acc
        = getAllProcessesLoop fs rest (acc ++ [(readFromProc fs processId Process.new).proc]) ∧
      (readFromProc fs processId Process.new).proc
        ∈ getAllProcessesLoop fs (entry :: rest) acc ∧
      getAllProcesses fs [entry] = [(readFromProc fs processId Process.new).proc]) := by
  have htrue : ∀ (self2 : Process) (l : Str) (c : Char) (post : Str),
      fs.statLine processId = some (l ++ ')' :: c :: post) →
      '(' ∈ l ++ ')' :: c :: post → ')' ∉ c :: post →
      (readFromProc fs processId self2).outcome = .returned true := by
    intro self2 l c post hline hopen hpost
    obtain ⟨s, hs⟩ := strFind_isSome_of_mem hopen
    have he := strRfind_append_cons l (c :: post) hpost
    rw [readFromProc_outcome_of_delims fs processId self2 _ hline s l.length hs he]
    rw [if_pos (by simp)]
  refine ⟨?_, htrue self, ?_⟩
  · constructor
    · intro h line hline
      by_contra hc
      push_neg at hc
      obtain ⟨s, hs⟩ := strFind_isSome_of_mem hc.1
      obtain ⟨e, he⟩ := strRfind_isSome_of_mem hc.2
      rw [readFromProc_outcome_of_delims fs processId self line hline s e hs he] at h
      split at h <;> cases h
    · intro h
      cases hline : fs.statLine processId with
      | none => simp [readFromProc, hline]
      | some line =>
        unfold readFromProc
        simp only [hline]
        rcases h line hline with h | h
        · rw [strFind_eq_none.mpr h]
        · rw [strRfind_eq_none.mpr h]
          cases strFind '(' line <;> rfl
  · intro l c post entry rest acc hline hopen hpost hdir hdig hpid
    have hret := htrue Process.new l c post hline hopen hpost
    have hstep := getAllProcessesLoop_accept fs entry rest acc processId hdir hdig hpid hret
    refine ⟨hstep, ?_, ?_⟩
    · rw [hstep]
      exact (getAllProcessesLoop_keeps fs rest _).subset (by simp)
    · unfold getAllProcesses
      rw [getAllProcessesLoop_accept fs entry [] [] processId hdir hdig hpid hret]
      rfl

/-- A stat line whose field list is the single token `S`: the call returns true and the
snapshot of a `/proc` that lists this process holds it. -/
theorem readFromProc_accepts_any_fields_witness :
    (readFromProc (statOnlyFs "5 (a) S".toList) 5 Process.new).outcome = .returned true ∧
    getAllProcesses (statOnlyFs "5 (a) S".toList) [{ isDirectory := true, filename := "5".toList }]
      = [(readFromProc (statOnlyFs "5 (a) S".toList) 5 Process.new).proc] :=
  ⟨(readFromProc_accepts_any_fields (statOnlyFs "5 (a) S".toList) 5 Process.new).2.1
      "5 (a".toList ' ' "S".toList (by decide) (by decide) (by decide),
    ((readFromProc_accepts_any_fields (statOnlyFs "5 (a) S".toList) 5 Process.new).2.2
      "5 (a".toList ' ' "S".toList { isDirectory := true, filename := "5".toList } [] []
      (by decide) (by decide) (by decide) (by decide) (by decide) (by decide)).2.2⟩

/-- A stat line with two fields after the name, the second not a number: the call
returns true and the process enters the snapshot. -/
theorem readFromProc_short_line_accepted :
    (fields "S x".toList).length < 20 ∧
    (readFromProc (statOnlyFs "5 (a) S x".toList) 5 Process.new).outcome = .returned true ∧
    (getAllProcesses (statOnlyFs "5 (a) S x".toList)
      [{ isDirectory := true, filename := "5".toList }]).length = 1 := by
  refine ⟨by decide, by decide, by decide⟩

/-! ## Collecting the snapshot -/

/-- C3, at a failing input. The entries `1` and `2` are enumerated in this order;
the stat line of process 1 ends right after the `)` of its name. The record of
process 2 is complete: read on its own it is collected. Enumerated after process 1 it
is lost, because the `std::out_of_range` thrown by `substr` for process 1 leaves the
loop and the snapshot comes back empty. -/
theorem getAllProcesses_aborts_on_truncated_stat :
    (readFromProc truncatedStatFs 1 Process.new).outcome = .outOfRange ∧
    (readFromProc truncatedStatFs 2 Process.new).outcome = .returned true ∧
    getAllProcesses truncatedStatFs [{ isDirectory := true, filename := "2".toList }]
      = [(readFromProc truncatedStatFs 2 Process.new).proc] ∧
    getAllProcesses truncatedStatFs
      [{ isDirectory := true, filename := "1".toList },
       { isDirectory := true, filename := "2".toList }] = [] := by
  refine ⟨by decide, by decide, by decide, by decide⟩

/-! ## Fields and extraction -/

theorem fields_cons_cons (c d : Char) (ds : Str) (hc : isSpace c = false)
    (hd : isSpace d = false) :
    fields (c :: d :: ds) =
      match fields (d :: ds) with
      | t :: ts => (c :: t) :: ts
      | [] => [[c]] := by
  rw [fields]
  simp only [hc, hd, Bool.false_eq_true, if_false]

theorem fields_ne_nil_of_not_space (d : Char) (ds : Str) (hd : isSpace d = false) :
    fields (d :: ds) ≠ [] := by
  cases ds with
  | nil => simp [fields, hd]
  | cons e es =>
    by_cases he : isSpace e = true
    · simp [fields, hd, he]
    · have he2 : isSpace e = false := by simpa using he
      rw [fields_cons_cons d e es hd he2]
      cases fields (e :: es) <;> simp

/-- The first field of a text: the text after its leading white space starts with the
field, which holds no white space and is followed by white space or by nothing. -/
theorem fields_cons_decomp {s : Str} {f : Str} {fs : List Str} (h : fields s = f :: fs) :
    ∃ r, skipWs s = f ++ r ∧ f ≠ [] ∧ (∀ c ∈ f, isSpace c = false) ∧
      (∀ c, r.head? = some c → isSpace c = true) ∧ fields r = fs := by
  induction s generalizing f fs with
  | nil => simp [fields] at h
  | cons c cs ih =>
    by_cases hc : isSpace c = true
    · have h2 : fields (c :: cs) = fields cs := by simp [fields, hc]
      rw [h2] at h
      obtain ⟨r, hr⟩ := ih h
      refine ⟨r, ?_, hr.2⟩
      simp [skipWs, hc]
      exact hr.1
    · have hc2 : isSpace c = false := by simpa using hc
      have hsk : skipWs (c :: cs) = c :: cs := by simp [skipWs, hc2]
      rw [hsk]
      cases cs with
      | nil =>
        simp [fields, hc2] at h
        obtain ⟨rfl, rfl⟩ := h
        exact ⟨[], by simp, by simp, by simpa using hc2, by simp, by simp [fields]⟩
      | cons d ds =>
        by_cases hd : isSpace d = true
        · simp [fields, hc2, hd] at h
          obtain ⟨rfl, rfl⟩ := h
          exact ⟨d :: ds, by simp, by simp, by simpa using hc2, by simpa using hd,
            by simp [fields, hd]⟩
        · have hd2 : isSpace d = false := by simpa using hd
          have hne := fields_ne_nil_of_not_space d ds hd2
          cases hfd : fields (d :: ds) with
          | nil => exact absurd hfd hne
          | cons t ts =>
            have hfull : fields (c :: d :: ds) = (c :: t) :: ts := by
              rw [fields_cons_cons c d ds hc2 hd2, hfd]
            rw [hfull] at h
            injection h with h1 h2
            subst h1; subst h2
            obtain ⟨r, hr1, hr2, hr3, hr4, hr5⟩ := ih hfd
            have hsk2 : skipWs (d :: ds) = d :: ds := by simp [skipWs, hd2]
            rw [hsk2] at hr1
            refine ⟨r, by simp [hr1], by simp, ?_, hr4, hr5⟩
            intro x hx
            simp at hx
            rcases hx with rfl | hx
            · exact hc2
            · exact hr3 x hx

theorem takeWhile_append_stop {p : Char → Bool} (f r : Str) (hf : ∀ c ∈ f, p c = true)
    (hr : ∀ c, r.head? = some c → p c = false) : (f ++ r).takeWhile p = f := by
  induction f with
  | nil =>
    cases r with
    | nil => rfl
    | cons c cs => simp [List.takeWhile, hr c (by simp)]
  | cons a as ih =>
    have ha : p a = true := hf a (by simp)
    simp [List.takeWhile, ha]
    exact ih (fun c hc => hf c (by simp [hc]))

theorem dropWhile_append_stop {p : Char → Bool} (f r : Str) (hf : ∀ c ∈ f, p c = true)
    (hr : ∀ c, r.head? = some c → p c = false) : (f ++ r).dropWhile p = r := by
  induction f with
  | nil =>
    cases r with
    | nil => rfl
    | cons c cs => simp [List.dropWhile, hr c (by simp)]
  | cons a as ih =>
    have ha : p a = true := hf a (by simp)
    simp [List.dropWhile, ha]
    exact ih (fun c hc => hf c (by simp [hc]))

theorem extractString_field {st : IStream} {f : Str} {fs : List Str} (h : StreamAt st (f :: fs))
    (v : Str) : (extractString st v).2 = f ∧ StreamAt (extractString st v).1 fs := by
  obtain ⟨hfail, hfields⟩ := h
  obtain ⟨r, hsk, hne, hns, hr, hfr⟩ := fields_cons_decomp hfields
  have htake : (f ++ r).takeWhile (fun x => !isSpace x) = f :=
    takeWhile_append_stop f r (fun c hc => by simp [hns c hc]) (fun c hc => by simp [hr c hc])
  have hdrop : (f ++ r).dropWhile (fun x => !isSpace x) = r :=
    dropWhile_append_stop f r (fun c hc => by simp [hns c hc]) (fun c hc => by simp [hr c hc])
  unfold extractString
  rw [hfail, hsk]
  cases hfr2 : f ++ r with
  | nil => simp at hfr2; exact absurd hfr2.1 hne
  | cons c cs =>
    simp only [Bool.false_eq_true, if_false]
    rw [← hfr2, htake, hdrop]
    exact ⟨rfl, rfl, hfr⟩

theorem isDigit_of_isSpace {c : Char} (h : isSpace c = true) : isDigit c = false := by
  simp [isSpace] at h
  rcases h with ((((rfl | rfl) | rfl) | rfl) | rfl) | rfl <;> decide

theorem tokULong_eq (neg : Bool) (m : Nat) (hm : m ≤ ULONG_MAX) :
    ((if neg then -(m : Int) else (m : Int)) % (wordMod : Int)).toNat
      = if neg then (wordMod - m) % wordMod else m := by
  simp only [wordMod, ULONG_MAX] at *
  norm_num at *
  cases neg <;> simp <;> omega

theorem tokDigits_other (c : Char) (t : Str) (h1 : c ≠ '-') (h2 : c ≠ '+') :
    tokDigits (c :: t) = c :: t := by
  unfold tokDigits
  split
  · rename_i heq; injection heq with ha; exact absurd ha h1
  · rename_i heq; injection heq with ha; exact absurd ha h2
  · rfl

theorem tokNeg_other (c : Char) (t : Str) (h1 : c ≠ '-') : tokNeg (c :: t) = false := by
  unfold tokNeg
  split
  · rename_i heq; injection heq with ha; exact absurd ha h1
  · rfl

theorem scanNum_other (c : Char) (t : Str) (h1 : c ≠ '-') (h2 : c ≠ '+') :
    scanNum (c :: t) = (false, (c :: t).takeWhile isDigit, (c :: t).dropWhile isDigit) := by
  unfold scanNum
  split
  · rename_i heq; injection heq with ha; exact absurd ha h1
  · rename_i heq; injection heq with ha; exact absurd ha h2
  · rfl

theorem scanNum_tok (f r : Str) (hf : isNumTok f = true)
    (hr : ∀ c, r.head? = some c → isSpace c = true) :
    scanNum (f ++ r) = (tokNeg f, tokDigits f, r) ∧ tokDigits f ≠ [] := by
  have hstop : ∀ c, r.head? = some c → isDigit c = false :=
    fun c hc => isDigit_of_isSpace (hr c hc)
  simp only [isNumTok, Bool.and_eq_true, Bool.not_eq_true', List.isEmpty_eq_false,
    List.all_eq_true] at hf
  obtain ⟨hne, hall⟩ := hf
  have key : ∀ ds : Str, (∀ c ∈ ds, isDigit c = true) →
      (ds ++ r).takeWhile isDigit = ds ∧ (ds ++ r).dropWhile isDigit = r :=
    fun ds hds => ⟨takeWhile_append_stop ds r hds hstop, dropWhile_append_stop ds r hds hstop⟩
  refine ⟨?_, by simpa using hne⟩
  cases f with
  | nil => simp [tokDigits] at hne
  | cons c t =>
    by_cases h1 : c = '-'
    · subst h1
      have hd : tokDigits ('-' :: t) = t := rfl
      rw [hd] at hall ⊢
      obtain ⟨k1, k2⟩ := key t hall
      show scanNum ('-' :: (t ++ r)) = _
      simp [scanNum, tokNeg, k1, k2]
    · by_cases h2 : c = '+'
      · subst h2
        have hd : tokDigits ('+' :: t) = t := rfl
        rw [hd] at hall ⊢
        obtain ⟨k1, k2⟩ := key t hall
        show scanNum ('+' :: (t ++ r)) = _
        simp [scanNum, tokNeg, k1, k2]
      · rw [tokDigits_other c t h1 h2] at hall ⊢
        obtain ⟨k1, k2⟩ := key (c :: t) hall
        rw [tokNeg_other c t h1]
        show scanNum (c :: (t ++ r)) = _
        rw [scanNum_other c (t ++ r) h1 h2]
        rw [show c :: (t ++ r) = (c :: t) ++ r by rfl, k1, k2]

theorem extractSigned_field {st : IStream} {f : Str} {fs : List Str} (h : StreamAt st (f :: fs))
    (lo hi : Int) (hnum : isNumTok f = true) (hlo : lo ≤ tokVal f) (hhi : tokVal f ≤ hi)
    (v : Int) :
    (extractSigned lo hi st v).2 = tokVal f ∧ StreamAt (extractSigned lo hi st v).1 fs := by
  obtain ⟨hfail, hfields⟩ := h
  obtain ⟨r, hsk, hne, hns, hr, hfr⟩ := fields_cons_decomp hfields
  obtain ⟨hscan, hdig⟩ := scanNum_tok f r hnum hr
  unfold extractSigned
  rw [hfail, hsk]
  cases hfr2 : f ++ r with
  | nil => simp at hfr2; exact absurd hfr2.1 hne
  | cons c cs =>
    simp only [Bool.false_eq_true, if_false]
    rw [← hfr2, hscan]
    simp only [hdig, if_false]
    unfold tokVal at hlo hhi ⊢
    rw [if_neg (not_lt.mpr hlo), if_neg (not_lt.mpr hhi)]
    exact ⟨rfl, rfl, hfr⟩

theorem extractULong_field {st : IStream} {f : Str} {fs : List Str} (h : StreamAt st (f :: fs))
    (hfit : fitsULong f = true) (v : Nat) :
    (extractULong st v).2 = tokULong f ∧ StreamAt (extractULong st v).1 fs := by
  obtain ⟨hfail, hfields⟩ := h
  simp only [fitsULong, Bool.and_eq_true, decide_eq_true_eq] at hfit
  obtain ⟨hnum, hmax⟩ := hfit
  obtain ⟨r, hsk, hne, hns, hr, hfr⟩ := fields_cons_decomp hfields
  obtain ⟨hscan, hdig⟩ := scanNum_tok f r hnum hr
  unfold extractULong
  rw [hfail, hsk]
  cases hfr2 : f ++ r with
  | nil => simp at hfr2; exact absurd hfr2.1 hne
  | cons c cs =>
    simp only [Bool.false_eq_true, if_false]
    rw [← hfr2, hscan]
    simp only [hdig, if_false]
    rw [if_neg (not_lt.mpr hmax)]
    refine ⟨?_, rfl, hfr⟩
    unfold tokULong tokVal
    rw [tokULong_eq _ _ hmax]

theorem extractInt_field {st : IStream} {f : Str} {fs : List Str} (h : StreamAt st (f :: fs))
    (hfit : fitsInt f = true) (v : Int) :
    (extractInt st v).2 = tokVal f ∧ StreamAt (extractInt st v).1 fs := by
  simp only [fitsInt, Bool.and_eq_true, decide_eq_true_eq] at hfit
  exact extractSigned_field h INT_MIN INT_MAX hfit.1.1 hfit.1.2 hfit.2 v

theorem extractLong_field {st : IStream} {f : Str} {fs : List Str} (h : StreamAt st (f :: fs))
    (hfit : fitsLong f = true) (v : Int) :
    (extractLong st v).2 = tokVal f ∧ StreamAt (extractLong st v).1 fs := by
  simp only [fitsLong, Bool.and_eq_true, decide_eq_true_eq] at hfit
  exact extractSigned_field h LONG_MIN LONG_MAX hfit.1.1 hfit.1.2 hfit.2 v

theorem skipULong_field {st : IStream} {f : Str} {fs : List Str} (h : StreamAt st (f :: fs))
    (hfit : fitsULong f = true) : StreamAt (skipULong st) fs :=
  (extractULong_field h hfit 0).2

theorem skipLong_field {st : IStream} {f : Str} {fs : List Str} (h : StreamAt st (f :: fs))
    (hfit : fitsLong f = true) : StreamAt (skipLong st) fs :=
  (extractLong_field h hfit 0).2

/-- The positional reads on a text with twenty numeric fields or more. -/
theorem readStatFields_of_fields (post : Str) (self : Process)
    (fState fPpid i3 i4 i5 i6 i7 i8 i9 i10 i11 fUtime fStime i14 i15 i16 i17 fThreads i19
      fStart : Str) (more : List Str)
    (hf : fields post = fState :: fPpid :: i3 :: i4 :: i5 :: i6 :: i7 :: i8 :: i9 :: i10 :: i11
      :: fUtime :: fStime :: i14 :: i15 :: i16 :: i17 :: fThreads :: i19 :: fStart :: more)
    (hPpid : fitsInt fPpid = true)
    (hSkip9 : ∀ t ∈ [i3, i4, i5, i6, i7, i8, i9, i10, i11], fitsULong t = true)
    (hUtime : fitsULong fUtime = true) (hStime : fitsULong fStime = true)
    (hSkip4 : ∀ t ∈ [i14, i15, i16, i17], fitsLong t = true)
    (hThreads : fitsInt fThreads = true) (hSkip1 : fitsLong i19 = true)
    (hStart : fitsLong fStart = true) :
    readStatFields post self =
      { self with state := fState, ppid := tokVal fPpid, utime := tokULong fUtime,
                  stime := tokULong fStime, numThreads := tokVal fThreads,
                  starttime := tokVal fStart } := by
  have h0 : StreamAt (IStream.ofStr post) _ := ⟨rfl, hf⟩
  obtain ⟨e1, h1⟩ := extractString_field h0 self.state
  obtain ⟨e2, h2⟩ := extractInt_field h1 hPpid self.ppid
  have h3 := skipULong_field h2 (hSkip9 i3 (by simp))
  have h4 := skipULong_field h3 (hSkip9 i4 (by simp))
  have h5 := skipULong_field h4 (hSkip9 i5 (by simp))
  have h6 := skipULong_field h5 (hSkip9 i6 (by simp))
  have h7 := skipULong_field h6 (hSkip9 i7 (by simp))
  have h8 := skipULong_field h7 (hSkip9 i8 (by simp))
  have h9 := skipULong_field h8 (hSkip9 i9 (by simp))
  have h10 := skipULong_field h9 (hSkip9 i10 (by simp))
  have h11 := skipULong_field h10 (hSkip9 i11 (by simp))
  obtain ⟨e12, h12⟩ := extractULong_field h11 hUtime self.utime
  obtain ⟨e13, h13⟩ := extractULong_field h12 hStime self.stime
  have h14 := skipLong_field h13 (hSkip4 i14 (by simp))
  have h15 := skipLong_field h14 (hSkip4 i15 (by simp))
  have h16 := skipLong_field h15 (hSkip4 i16 (by simp))
  have h17 := skipLong_field h16 (hSkip4 i17 (by simp))
  obtain ⟨e18, h18⟩ := extractInt_field h17 hThreads self.numThreads
  have h19 := skipLong_field h18 hSkip1
  obtain ⟨e20, _⟩ := extractLong_field h19 hStart self.starttime
  have hr9 : ∀ st : IStream, (List.range 9).foldl (fun s _ => skipULong s) st
      = skipULong (skipULong (skipULong (skipULong (skipULong (skipULong (skipULong
          (skipULong (skipULong st)))))))) := fun _ => rfl
  have hr4 : ∀ st : IStream, (List.range 4).foldl (fun s _ => skipLong s) st
      = skipLong (skipLong (skipLong (skipLong st))) := fun _ => rfl
  unfold readStatFields
  simp only [hr9, hr4]
  rw [e1, e2, e12, e13, e18, e20]

/-- C4, as the code has it. On a stat line made of a name in parentheses, a space and
twenty or more white-space separated fields, the fields from the second to the twentieth
being numbers that fit the type they are read into (`int` for fields 2 and 18,
`unsigned long` for fields 3 to 13, `long` for fields 14 to 17, 19 and 20), `readFromProc`
returns true and stores field 1 as the state, field 2 as the parent id, fields 12 and 13 as
the user and kernel ticks, field 18 as the thread count and field 20 as the start tick.
The values of fields 3-11, 14-17 and 19 are read and dropped: the resulting object is a
function of the name and of the six fields kept. -/
theorem readFromProc_field_positions (fs : ProcFs) (processId : Int) (self : Process)
    (pre nm post : Str)
    (fState fPpid i3 i4 i5 i6 i7 i8 i9 i10 i11 fUtime fStime i14 i15 i16 i17 fThreads i19
      fStart : Str) (more : List Str)
    (hline : fs.statLine processId = some (pre ++ '(' :: (nm ++ ')' :: ' ' :: post)))
    (hlen : (pre ++ '(' :: (nm ++ ')' :: ' ' :: post)).length < wordMod)
    (hpre : '(' ∉ pre) (hpost : ')' ∉ post)
    (hf : fields post = fState :: fPpid :: i3 :: i4 :: i5 :: i6 :: i7 :: i8 :: i9 :: i10 :: i11
      :: fUtime :: fStime :: i14 :: i15 :: i16 :: i17 :: fThreads :: i19 :: fStart :: more)
    (hPpid : fitsInt fPpid = true)
    (hSkip9 : ∀ t ∈ [i3, i4, i5, i6, i7, i8, i9, i10, i11], fitsULong t = true)
    (hUtime : fitsULong fUtime = true) (hStime : fitsULong fStime = true)
    (hSkip4 : ∀ t ∈ [i14, i15, i16, i17], fitsLong t = true)
    (hThreads : fitsInt fThreads = true) (hSkip1 : fitsLong i19 = true)
    (hStart : fitsLong fStart = true) :
    (readFromProc fs processId self).outcome = .returned true ∧
    (readFromProc fs processId self).proc =
      readStatus fs
        { self with pid := processId, name := nm, state := fState, ppid := tokVal fPpid,
                    utime := tokULong fUtime, stime := tokULong fStime,
                    numThreads := tokVal fThreads, starttime := tokVal fStart } ∧
    (readFromProc fs processId self).proc.state = fState ∧
    (readFromProc fs processId self).proc.ppid = tokVal fPpid ∧
    (readFromProc fs processId self).proc.utime = tokULong fUtime ∧
    (readFromProc fs processId self).proc.stime = tokULong fStime ∧
    (readFromProc fs processId self).proc.numThreads = tokVal fThreads ∧
    (readFromProc fs processId self).proc.starttime = tokVal fStart := by
  have hshape := readFromProc_of_shape fs processId self pre nm ' ' post hline hlen hpre
    (by simpa using hpost)
  have hfld := readStatFields_of_fields post { self with pid := processId, name := nm }
    fState fPpid i3 i4 i5 i6 i7 i8 i9 i10 i11 fUtime fStime i14 i15 i16 i17 fThreads i19
    fStart more hf hPpid hSkip9 hUtime hStime hSkip4 hThreads hSkip1 hStart
  rw [hshape, hfld]
  have hfr := readStatus_frame fs
    { self with pid := processId, name := nm, state := fState, ppid := tokVal fPpid,
                utime := tokULong fUtime, stime := tokULong fStime,
                numThreads := tokVal fThreads, starttime := tokVal fStart }
  exact ⟨rfl, rfl, hfr.2.2.2.1, hfr.2.2.2.2.1, hfr.2.2.2.2.2.1, hfr.2.2.2.2.2.2.1,
    hfr.2.2.2.2.2.2.2.1, hfr.2.2.2.2.2.2.2.2⟩

/-- A complete stat line with a negative terminal group among the dropped fields. -/
theorem readFromProc_field_positions_witness :
    (readFromProc (statOnlyFs "2 (b) S 1 2 2 0 -1 0 0 0 0 0 3 4 0 0 20 0 5 0 9".toList) 2
        Process.new).proc.state = "S".toList ∧
    (readFromProc (statOnlyFs "2 (b) S 1 2 2 0 -1 0 0 0 0 0 3 4 0 0 20 0 5 0 9".toList) 2
        Process.new).proc.ppid = 1 ∧
    (readFromProc (statOnlyFs "2 (b) S 1 2 2 0 -1 0 0 0 0 0 3 4 0 0 20 0 5 0 9".toList) 2
        Process.new).proc.utime = 3 ∧
    (readFromProc (statOnlyFs "2 (b) S 1 2 2 0 -1 0 0 0 0 0 3 4 0 0 20 0 5 0 9".toList) 2
        Process.new).proc.stime = 4 ∧
    (readFromProc (statOnlyFs "2 (b) S 1 2 2 0 -1 0 0 0 0 0 3 4 0 0 20 0 5 0 9".toList) 2
        Process.new).proc.numThreads = 5 ∧
    (readFromProc (statOnlyFs "2 (b) S 1 2 2 0 -1 0 0 0 0 0 3 4 0 0 20 0 5 0 9".toList) 2
        Process.new).proc.starttime = 9 :=
  (readFromProc_field_positions
    (statOnlyFs "2 (b) S 1 2 2 0 -1 0 0 0 0 0 3 4 0 0 20 0 5 0 9".toList) 2 Process.new
    "2 ".toList "b".toList "S 1 2 2 0 -1 0 0 0 0 0 3 4 0 0 20 0 5 0 9".toList
    "S".toList "1".toList "2".toList "2".toList "0".toList "-1".toList "0".toList "0".toList
    "0".toList "0".toList "0".toList "3".toList "4".toList "0".toList "0".toList "20".toList
    "0".toList "5".toList "0".toList "9".toList []
    (by decide) (by decide) (by decide) (by decide) (by decide) (by decide) (by decide)
    (by decide) (by decide) (by decide) (by decide) (by decide) (by decide)).2.2

/-- A stat line with a name in parentheses, a space and twenty fields, the third of which
(the process group, one of the fields the claim calls ignored) is not a number. The
extraction of that field fails and every later extraction is skipped: the user ticks, the
kernel ticks, the thread count and the start tick stay 0, although fields 12, 13, 18 and 20
are 3, 4, 5 and 9. With a number as third field they are stored. -/
theorem readFromProc_dropped_field_matters :
    (fields "S 1 x 2 0 -1 0 0 0 0 0 3 4 0 0 20 0 5 0 9".toList).length = 20 ∧
    (fields "S 1 x 2 0 -1 0 0 0 0 0 3 4 0 0 20 0 5 0 9".toList).get? 11 = some "3".toList ∧
    (readFromProc (statOnlyFs "2 (b) S 1 x 2 0 -1 0 0 0 0 0 3 4 0 0 20 0 5 0 9".toList) 2
        Process.new).outcome = .returned true ∧
    (readFromProc (statOnlyFs "2 (b) S 1 x 2 0 -1 0 0 0 0 0 3 4 0 0 20 0 5 0 9".toList) 2
        Process.new).proc.ppid = 1 ∧
    (readFromProc (statOnlyFs "2 (b) S 1 x 2 0 -1 0 0 0 0 0 3 4 0 0 20 0 5 0 9".toList) 2
        Process.new).proc.utime = 0 ∧
    (readFromProc (statOnlyFs "2 (b) S 1 x 2 0 -1 0 0 0 0 0 3 4 0 0 20 0 5 0 9".toList) 2
        Process.new).proc.stime = 0 ∧
    (readFromProc (statOnlyFs "2 (b) S 1 x 2 0 -1 0 0 0 0 0 3 4 0 0 20 0 5 0 9".toList) 2
        Process.new).proc.numThreads = 0 ∧
    (readFromProc (statOnlyFs "2 (b) S 1 x 2 0 -1 0 0 0 0 0 3 4 0 0 20 0 5 0 9".toList) 2
        Process.new).proc.starttime = 0 ∧
    (readFromProc (statOnlyFs "2 (b) S 1 2 2 0 -1 0 0 0 0 0 3 4 0 0 20 0 5 0 9".toList) 2
        Process.new).proc.utime = 3 := by
  decide

/-! ## The status block -/

theorem isSpace_of_isDigit {c : Char} (h : isDigit c = true) : isSpace c = false := by
  cases hs : isSpace c with
  | false => rfl
  | true => rw [isDigit_of_isSpace hs] at h; cases h

/-- Extraction of an unsigned decimal number that follows optional white space. -/
theorem extractSigned_number (lo hi : Int) (ws ds rest : Str) (v : Int)
    (hws : ∀ c ∈ ws, isSpace c = true) (hne : ds ≠ []) (hds : ∀ c ∈ ds, isDigit c = true)
    (hrest : ∀ c, rest.head? = some c → isDigit c = false)
    (hlo : lo ≤ 0) (hhi : (decVal ds : Int) ≤ hi) :
    (extractSigned lo hi (IStream.ofStr (ws ++ (ds ++ rest))) v).2 = (decVal ds : Int) := by
  cases ds with
  | nil => exact absurd rfl hne
  | cons d ds =>
    have hd : isDigit d = true := hds d (by simp)
    have hd1 : d ≠ '-' := by rintro rfl; revert hd; decide
    have hd2 : d ≠ '+' := by rintro rfl; revert hd; decide
    have hsk : skipWs (ws ++ (d :: ds ++ rest)) = d :: (ds ++ rest) := by
      unfold skipWs
      exact dropWhile_append_stop ws _ hws
        (fun c hc => by simp at hc; subst hc; exact isSpace_of_isDigit hd)
    have hscan : scanNum (d :: (ds ++ rest)) = (false, d :: ds, rest) := by
      rw [scanNum_other d _ hd1 hd2]
      rw [show d :: (ds ++ rest) = (d :: ds) ++ rest by rfl,
        takeWhile_append_stop (d :: ds) rest hds hrest,
        dropWhile_append_stop (d :: ds) rest hds hrest]
    unfold extractSigned
    simp only [IStream.ofStr, Bool.false_eq_true, if_false, hsk, hscan]
    have h0 : (0 : Int) ≤ (decVal (d :: ds) : Int) := Int.ofNat_nonneg _
    simp only [List.cons_ne_nil, if_false]
    rw [if_neg (by omega), if_neg (by omega)]

theorem startsWith_keys_disjoint (l : Str) :
    (startsWith keyVmRSS l = true → startsWith keyVmSize l = false) ∧
    (startsWith keyUid l = true →
      startsWith keyVmSize l = false ∧ startsWith keyVmRSS l = false) := by
  rcases l with _ | ⟨a, _ | ⟨b, _ | ⟨c, l⟩⟩⟩ <;>
    simp [startsWith, keyVmRSS, keyVmSize, keyUid, List.isPrefixOf]
  constructor
  · rintro rfl rfl rfl _ _ _ h
    exact absurd h (by decide)
  · rintro rfl rfl rfl _
    constructor <;> (intro h; exact absurd h (by decide))

theorem statusStep_vmSize_of_key (acc : StatusAcc) (l : Str) (n : Nat)
    (hn : HoldsNumber keyVmSize l n) (hfit : (n : Int) ≤ LONG_MAX) :
    (statusStep acc l).vmSize = n := by
  obtain ⟨ws, ds, rest, rfl, hws, hne, hds, hrest, rfl⟩ := hn
  have hk : startsWith keyVmSize (keyVmSize ++ (ws ++ (ds ++ rest))) = true := by
    simp [startsWith]
  have hdrop : (keyVmSize ++ (ws ++ (ds ++ rest))).drop 7 = ws ++ (ds ++ rest) := by
    simp [keyVmSize]
  unfold statusStep
  rw [if_pos hk, hdrop]
  exact extractSigned_number LONG_MIN LONG_MAX ws ds rest acc.vmSize hws hne hds hrest
    (by decide) hfit

theorem statusStep_vmRSS_of_key (acc : StatusAcc) (l : Str) (n : Nat)
    (hn : HoldsNumber keyVmRSS l n) (hfit : (n : Int) ≤ LONG_MAX) :
    (statusStep acc l).vmRSS = n := by
  obtain ⟨ws, ds, rest, rfl, hws, hne, hds, hrest, rfl⟩ := hn
  have hk : startsWith keyVmRSS (keyVmRSS ++ (ws ++ (ds ++ rest))) = true := by
    simp [startsWith]
  have hk0 := (startsWith_keys_disjoint _).1 hk
  have hdrop : (keyVmRSS ++ (ws ++ (ds ++ rest))).drop 6 = ws ++ (ds ++ rest) := by
    simp [keyVmRSS]
  unfold statusStep
  rw [if_neg (by simp [hk0]), if_pos hk, hdrop]
  exact extractSigned_number LONG_MIN LONG_MAX ws ds rest acc.vmRSS hws hne hds hrest
    (by decide) hfit

theorem statusStep_uid_of_key (acc : StatusAcc) (l : Str) (n : Nat)
    (hn : HoldsNumber keyUid l n) (hfit : (n : Int) ≤ INT_MAX) :
    (statusStep acc l).uid = n := by
  obtain ⟨ws, ds, rest, rfl, hws, hne, hds, hrest, rfl⟩ := hn
  have hk : startsWith keyUid (keyUid ++ (ws ++ (ds ++ rest))) = true := by
    simp [startsWith]
  have hk0 := (startsWith_keys_disjoint _).2 hk
  have hdrop : (keyUid ++ (ws ++ (ds ++ rest))).drop 4 = ws ++ (ds ++ rest) := by
    simp [keyUid]
  unfold statusStep
  rw [if_neg (by simp [hk0.1]), if_neg (by simp [hk0.2]), if_pos hk, hdrop]
  exact extractSigned_number INT_MIN INT_MAX ws ds rest acc.uid hws hne hds hrest
    (by decide) hfit

/-- A line that does not start with a key leaves the value of that key alone. -/
theorem statusStep_frame (acc : StatusAcc) (l : Str) :
    (startsWith keyVmSize l = false → (statusStep acc l).vmSize = acc.vmSize) ∧
    (startsWith keyVmRSS l = false → (statusStep acc l).vmRSS = acc.vmRSS) ∧
    (startsWith keyUid l = false → (statusStep acc l).uid = acc.uid) := by
  unfold statusStep
  refine ⟨fun h => ?_, fun h => ?_, fun h => ?_⟩
  · rw [if_neg (by simp [h])]
    split
    · rfl
    · split <;> rfl
  · split
    · rfl
    · rw [if_neg (by simp [h])]
      split <;> rfl
  · split
    · rfl
    · split
      · rfl
      · rw [if_neg (by simp [h])]

theorem foldl_statusStep_frame (ls : List Str) (acc : StatusAcc) :
    ((∀ x ∈ ls, startsWith keyVmSize x = false) →
      (ls.foldl statusStep acc).vmSize = acc.vmSize) ∧
    ((∀ x ∈ ls, startsWith keyVmRSS x = false) →
      (ls.foldl statusStep acc).vmRSS = acc.vmRSS) ∧
    ((∀ x ∈ ls, startsWith keyUid x = false) →
      (ls.foldl statusStep acc).uid = acc.uid) := by
  induction ls generalizing acc with
  | nil => simp
  | cons l ls ih =>
    have hs := statusStep_frame acc l
    have hi := ih (statusStep acc l)
    refine ⟨fun h => ?_, fun h => ?_, fun h => ?_⟩
    · rw [List.foldl_cons, hi.1 (fun x hx => h x (by simp [hx])), hs.1 (h l (by simp))]
    · rw [List.foldl_cons, hi.2.1 (fun x hx => h x (by simp [hx])), hs.2.1 (h l (by simp))]
    · rw [List.foldl_cons, hi.2.2 (fun x hx => h x (by simp [hx])), hs.2.2 (h l (by simp))]

/-- A line without any of the three keys changes nothing. -/
theorem statusStep_of_not_key (acc : StatusAcc) (l : Str) (h : isKeyLine l = false) :
    statusStep acc l = acc := by
  simp only [isKeyLine, Bool.or_eq_false_iff] at h
  unfold statusStep
  rw [if_neg (by simp [h.1.1]), if_neg (by simp [h.1.2]), if_neg (by simp [h.2])]

theorem foldl_statusStep_filter (ls : List Str) (acc : StatusAcc) :
    (ls.filter isKeyLine).foldl statusStep acc = ls.foldl statusStep acc := by
  induction ls generalizing acc with
  | nil => rfl
  | cons l ls ih =>
    cases h : isKeyLine l with
    | true => simp [List.filter, h, ih]
    | false => simp [List.filter, h, ih, statusStep_of_not_key acc l h]


/-- A call that returns true has run the status part on an object with the right pid. -/
theorem readFromProc_returned_true (fs : ProcFs) (processId : Int) (self : Process)
    (h : (readFromProc fs processId self).outcome = .returned true) :
    ∃ p0 : Process, p0.pid = processId ∧ (readFromProc fs processId self).proc = readStatus fs p0 := by
  unfold readFromProc at h ⊢
  dsimp only at h ⊢
  split at h
  · cases h
  · split at h
    · split at h
      · cases h
      · split at h
        · cases h
        · rename_i rest _
          exact ⟨_, (readStatFields_frame rest _).2.1, rfl⟩
    · cases h

theorem readFromProc_congr (fs fs2 : ProcFs) (processId : Int) (self : Process)
    (hstat : fs2.statLine processId = fs.statLine processId)
    (hstatus : ∀ p : Process, p.pid = processId → readStatus fs2 p = readStatus fs p) :
    readFromProc fs2 processId self = readFromProc fs processId self := by
  unfold readFromProc
  dsimp only
  rw [hstat]
  split
  · rfl
  · split
    · split
      · rfl
      · split
        · rfl
        · rename_i rest _
          rw [hstatus _ (readStatFields_frame rest _).2.1]
    · rfl

theorem readStatus_values (fs : ProcFs) (p : Process) (ls : List Str)
    (hstatus : fs.statusLines p.pid = some ls) :
    (readStatus fs p).vmSize
        = (ls.foldl statusStep { vmSize := p.vmSize, vmRSS := p.vmRSS, uid := -1 }).vmSize ∧
    (readStatus fs p).vmRSS
        = (ls.foldl statusStep { vmSize := p.vmSize, vmRSS := p.vmRSS, uid := -1 }).vmRSS ∧
    (∀ n : Nat, (ls.foldl statusStep { vmSize := p.vmSize, vmRSS := p.vmRSS, uid := -1 }).uid = n →
      (readStatus fs p).user = ownerName fs n) := by
  unfold readStatus
  rw [hstatus]
  dsimp only
  refine ⟨?_, ?_, ?_⟩
  · split
    · split <;> rfl
    · rfl
  · split
    · split <;> rfl
    · rfl
  · intro n hn
    rw [hn]
    rw [if_pos (Int.ofNat_nonneg n)]
    unfold ownerName
    cases fs.getpwuid n <;> simp

theorem foldl_statusStep_last (ls : List Str) (acc : StatusAcc) (l : Str) (n : Nat) :
    (IsLastWith keyVmSize ls l → HoldsNumber keyVmSize l n → (n : Int) ≤ LONG_MAX →
      (ls.foldl statusStep acc).vmSize = n) ∧
    (IsLastWith keyVmRSS ls l → HoldsNumber keyVmRSS l n → (n : Int) ≤ LONG_MAX →
      (ls.foldl statusStep acc).vmRSS = n) ∧
    (IsLastWith keyUid ls l → HoldsNumber keyUid l n → (n : Int) ≤ INT_MAX →
      (ls.foldl statusStep acc).uid = n) := by
  refine ⟨?_, ?_, ?_⟩
  · rintro ⟨before, after, rfl, _, hafter⟩ hn hfit
    rw [List.foldl_append, List.foldl_cons, (foldl_statusStep_frame after _).1 hafter]
    exact statusStep_vmSize_of_key _ l n hn hfit
  · rintro ⟨before, after, rfl, _, hafter⟩ hn hfit
    rw [List.foldl_append, List.foldl_cons, (foldl_statusStep_frame after _).2.1 hafter]
    exact statusStep_vmRSS_of_key _ l n hn hfit
  · rintro ⟨before, after, rfl, _, hafter⟩ hn hfit
    rw [List.foldl_append, List.foldl_cons, (foldl_statusStep_frame after _).2.2 hafter]
    exact statusStep_uid_of_key _ l n hn hfit

/-- C5, as the code has it. When `readFromProc` returns true on a process whose status
block is `ls`: for each of the keys `VmSize:`, `VmRSS:` and `Uid:`, when the last line that
starts with the key holds a decimal number after the key, and the number fits the type it is
read into (`long` for the two sizes, `int` for the owner id), the virtual size, the resident
size and the owner are these numbers (what follows the number, such as ` kB`, is dropped;
the owner is the password entry of the id, or the id in decimal). For every status block,
a block with the same lines of these three keys, whatever its other lines, gives the same
object. -/
theorem readFromProc_status_keys (fs : ProcFs) (processId : Int) (self : Process)
    (ls : List Str) (hret : (readFromProc fs processId self).outcome = .returned true)
    (hstatus : fs.statusLines processId = some ls) :
    (∀ (l : Str) (n : Nat), IsLastWith keyVmSize ls l → HoldsNumber keyVmSize l n →
      (n : Int) ≤ LONG_MAX → (readFromProc fs processId self).proc.vmSize = n) ∧
    (∀ (l : Str) (n : Nat), IsLastWith keyVmRSS ls l → HoldsNumber keyVmRSS l n →
      (n : Int) ≤ LONG_MAX → (readFromProc fs processId self).proc.vmRSS = n) ∧
    (∀ (l : Str) (n : Nat), IsLastWith keyUid ls l → HoldsNumber keyUid l n →
      (n : Int) ≤ INT_MAX → (readFromProc fs processId self).proc.user = ownerName fs n) ∧
    (∀ ls2 : List Str, ls2.filter isKeyLine = ls.filter isKeyLine →
      readFromProc { fs with statusLines := fun _ => some ls2 } processId self
        = readFromProc fs processId self) := by
  obtain ⟨p0, hpid, hproc⟩ := readFromProc_returned_true fs processId self hret
  have hst : fs.statusLines p0.pid = some ls := by rw [hpid]; exact hstatus
  obtain ⟨v1, v2, v3⟩ := readStatus_values fs p0 ls hst
  refine ⟨?_, ?_, ?_, ?_⟩
  · intro l n h1 h2 h3
    rw [hproc, v1]
    exact (foldl_statusStep_last ls _ l n).1 h1 h2 h3
  · intro l n h1 h2 h3
    rw [hproc, v2]
    exact (foldl_statusStep_last ls _ l n).2.1 h1 h2 h3
  · intro l n h1 h2 h3
    rw [hproc]
    exact v3 n ((foldl_statusStep_last ls _ l n).2.2 h1 h2 h3)
  · intro ls2 hfilter
    apply readFromProc_congr
    · rfl
    · intro p hp
      have hps : fs.statusLines p.pid = some ls := by rw [hp]; exact hstatus
      unfold readStatus
      simp only [hps]
      rw [← foldl_statusStep_filter ls2, hfilter, foldl_statusStep_filter ls]

/-- The second `VmSize:` line wins, the unit is dropped, the owner is the decimal id, and
the block reduced to its key lines gives the same object. -/
theorem readFromProc_status_keys_witness :
    (readFromProc sampleStatusFs 2 Process.new).proc.vmSize = 7 ∧
    (readFromProc sampleStatusFs 2 Process.new).proc.vmRSS = 50 ∧
    (readFromProc sampleStatusFs 2 Process.new).proc.user = "12".toList ∧
    readFromProc { sampleStatusFs with statusLines := fun _ => some ["VmSize: 100 kB".toList,
        "Uid: 12 12 12 12".toList, "Pid: 2".toList, "VmSize:   7 kB".toList,
        "VmRSS: 50 kB".toList] } 2 Process.new
      = readFromProc sampleStatusFs 2 Process.new :=
  have h := readFromProc_status_keys sampleStatusFs 2 Process.new
    ["Name: b".toList, "VmSize: 100 kB".toList, "Uid: 12 12 12 12".toList,
      "VmSize:   7 kB".toList, "VmRSS: 50 kB".toList] (by decide) rfl
  ⟨h.1 "VmSize:   7 kB".toList 7
      ⟨["Name: b".toList, "VmSize: 100 kB".toList, "Uid: 12 12 12 12".toList],
        ["VmRSS: 50 kB".toList], by decide, by decide, by decide⟩
      ⟨"   ".toList, "7".toList, " kB".toList, by decide, by decide, by decide, by decide,
        by decide, by decide⟩ (by decide),
    h.2.1 "VmRSS: 50 kB".toList 50
      ⟨["Name: b".toList, "VmSize: 100 kB".toList, "Uid: 12 12 12 12".toList,
        "VmSize:   7 kB".toList], [], by decide, by decide, by decide⟩
      ⟨" ".toList, "50".toList, " kB".toList, by decide, by decide, by decide, by decide,
        by decide, by decide⟩ (by decide),
    h.2.2.1 "Uid: 12 12 12 12".toList 12
      ⟨["Name: b".toList, "VmSize: 100 kB".toList],
        ["VmSize:   7 kB".toList, "VmRSS: 50 kB".toList], by decide, by decide, by decide⟩
      ⟨" ".toList, "12".toList, " 12 12 12".toList, by decide, by decide, by decide,
        by decide, by decide, by decide⟩ (by decide),
    h.2.2.2 ["VmSize: 100 kB".toList, "Uid: 12 12 12 12".toList, "Pid: 2".toList,
      "VmSize:   7 kB".toList, "VmRSS: 50 kB".toList] (by decide)⟩

/-- Two status blocks. In the first the last line that starts with `VmRSS:` holds no
number: the resident size stays the 100 of the earlier line. In the second the owner id
3000000000 does not fit an `int`: the extraction stores 2147483647, and that is the owner
shown. -/
theorem readFromProc_status_not_last_number :
    (readFromProc emptyLastRssFs 2 Process.new).outcome = .returned true ∧
    (readFromProc emptyLastRssFs 2 Process.new).proc.vmRSS = 100 ∧
    (readFromProc largeUidFs 2 Process.new).outcome = .returned true ∧
    (readFromProc largeUidFs 2 Process.new).proc.user = "2147483647".toList ∧
    (readFromProc largeUidFs 2 Process.new).proc.user ≠ "3000000000".toList := by
  decide

/-! ## CPU percentage -/

theorem uadd_lt (a b : Nat) : uadd a b < wordMod := Nat.mod_lt _ (by decide)

theorem readFromProc_cpuPercent (fs : ProcFs) (processId : Int) (self : Process) :
    (readFromProc fs processId self).proc.cpuPercent = self.cpuPercent := by
  unfold readFromProc
  dsimp only
  split
  · rfl
  · split
    · split
      · rfl
      · split
        · rfl
        · rename_i rest _
          show (readStatus fs (readStatFields rest _)).cpuPercent = _
          rw [(readStatus_frame fs _).2.2.1, (readStatFields_frame rest _).2.2.1]
    · rfl

/-! ### Rounding to `double` -/

theorem log2Fuel_eq (fuel : Nat) : ∀ n, n ≤ fuel → log2Fuel fuel n = Nat.log 2 n := by
  induction fuel with
  | zero =>
    intro n hn
    obtain rfl : n = 0 := by omega
    simp [log2Fuel]
  | succ fuel ih =>
    intro n hn
    unfold log2Fuel
    by_cases h : n < 2
    · rw [if_pos h, Nat.log_of_lt h]
    · rw [if_neg h, ih (n / 2) (by omega)]
      exact (Nat.log_of_one_lt_of_le (by decide) (by omega)).symm

theorem ilog2_eq (n : Nat) : ilog2 n = Nat.log 2 n := log2Fuel_eq n n (le_refl n)

theorem pow2_eq_zpow (e : Int) : pow2 e = (2 : ℚ) ^ e := by
  unfold pow2
  by_cases h : 0 ≤ e
  · rw [if_pos h]
    obtain ⟨k, rfl⟩ := Int.eq_ofNat_of_zero_le h
    simp
  · rw [if_neg h]
    obtain ⟨k, hk⟩ : ∃ k : Nat, -e = k := Int.eq_ofNat_of_zero_le (by omega)
    have he : e = -(k : Int) := by omega
    rw [hk, he]
    simp

theorem pow2_pos (e : Int) : 0 < pow2 e := by
  rw [pow2_eq_zpow]
  positivity

theorem pow2_add (a b : Int) : pow2 (a + b) = pow2 a * pow2 b := by
  simp only [pow2_eq_zpow]
  exact zpow_add₀ (by norm_num) a b

theorem pow2_le_pow2 {a b : Int} (h : a ≤ b) : pow2 a ≤ pow2 b := by
  simp only [pow2_eq_zpow]
  exact zpow_le_zpow_right₀ (by norm_num) h

theorem pow2_lt_pow2_iff {a b : Int} : pow2 a < pow2 b ↔ a < b := by
  simp only [pow2_eq_zpow]
  exact zpow_lt_zpow_iff_right₀ (by norm_num)

theorem pow2_succ (a : Int) : pow2 (a + 1) = 2 * pow2 a := by
  rw [pow2_add, mul_comm]
  congr 1

theorem pow2_natCast (k : Nat) : pow2 (k : Int) = ((2 ^ k : Nat) : ℚ) := by
  simp [pow2]

/-- The binary exponent is what its name says. -/
theorem binade_spec (q : ℚ) (hq : 0 < q) : pow2 (binade q) ≤ q ∧ q < pow2 (binade q + 1) := by
  have hnum : 0 < q.num := Rat.num_pos.mpr hq
  obtain ⟨n, hn⟩ : ∃ n : Nat, q.num = n := Int.eq_ofNat_of_zero_le hnum.le
  have hn0 : n ≠ 0 := by
    intro h
    rw [h] at hn
    omega
  have hd0 : q.den ≠ 0 := q.den_nz
  have hqe : (n : ℚ) / (q.den : ℚ) = q := by
    have := Rat.num_div_den q
    rw [hn, Int.cast_natCast] at this
    exact this
  have hna : q.num.natAbs = n := by rw [hn]; rfl
  have ha1 := Nat.pow_log_le_self 2 hn0
  have ha2 := Nat.lt_pow_succ_log_self (by decide : 1 < 2) n
  have hb1 := Nat.pow_log_le_self 2 hd0
  have hb2 := Nat.lt_pow_succ_log_self (by decide : 1 < 2) q.den
  have hdpos : (0 : ℚ) < (q.den : ℚ) := by exact_mod_cast Nat.pos_of_ne_zero hd0
  have a1 : ((2 : ℚ) ^ (Nat.log 2 n)) ≤ (n : ℚ) := by exact_mod_cast ha1
  have a2 : (n : ℚ) < ((2 : ℚ) ^ (Nat.log 2 n + 1)) := by exact_mod_cast ha2
  have b1 : ((2 : ℚ) ^ (Nat.log 2 q.den)) ≤ (q.den : ℚ) := by exact_mod_cast hb1
  have b2 : (q.den : ℚ) < ((2 : ℚ) ^ (Nat.log 2 q.den + 1)) := by exact_mod_cast hb2
  -- bounds on q
  have hlow : pow2 ((Nat.log 2 n : Int) - (Nat.log 2 q.den : Int) - 1) < q := by
    rw [pow2_eq_zpow]
    refine lt_of_lt_of_eq ?_ hqe
    rw [lt_div_iff₀ hdpos]
    have e : (2 : ℚ) ^ ((Nat.log 2 n : Int) - (Nat.log 2 q.den : Int) - 1)
        * (2 : ℚ) ^ (Nat.log 2 q.den + 1) = (2 : ℚ) ^ (Nat.log 2 n) := by
      rw [← zpow_natCast, ← zpow_natCast, ← zpow_add₀ (by norm_num)]
      congr 1
      push_cast
      ring
    have hp : (0 : ℚ) < (2 : ℚ) ^ ((Nat.log 2 n : Int) - (Nat.log 2 q.den : Int) - 1) := by
      positivity
    calc (2 : ℚ) ^ ((Nat.log 2 n : Int) - (Nat.log 2 q.den : Int) - 1) * (q.den : ℚ)
        < (2 : ℚ) ^ ((Nat.log 2 n : Int) - (Nat.log 2 q.den : Int) - 1)
            * (2 : ℚ) ^ (Nat.log 2 q.den + 1) := by
          exact mul_lt_mul_of_pos_left b2 hp
      _ = (2 : ℚ) ^ (Nat.log 2 n) := e
      _ ≤ (n : ℚ) := a1
  have hhigh : q < pow2 ((Nat.log 2 n : Int) - (Nat.log 2 q.den : Int) + 1) := by
    rw [pow2_eq_zpow]
    refine lt_of_eq_of_lt hqe.symm ?_
    rw [div_lt_iff₀ hdpos]
    have e : (2 : ℚ) ^ ((Nat.log 2 n : Int) - (Nat.log 2 q.den : Int) + 1)
        * (2 : ℚ) ^ (Nat.log 2 q.den) = (2 : ℚ) ^ (Nat.log 2 n + 1) := by
      rw [← zpow_natCast, ← zpow_natCast, ← zpow_add₀ (by norm_num)]
      congr 1
      push_cast
      ring
    have hp : (0 : ℚ) < (2 : ℚ) ^ ((Nat.log 2 n : Int) - (Nat.log 2 q.den : Int) + 1) := by
      positivity
    calc (n : ℚ) < (2 : ℚ) ^ (Nat.log 2 n + 1) := a2
      _ = (2 : ℚ) ^ ((Nat.log 2 n : Int) - (Nat.log 2 q.den : Int) + 1)
            * (2 : ℚ) ^ (Nat.log 2 q.den) := e.symm
      _ ≤ (2 : ℚ) ^ ((Nat.log 2 n : Int) - (Nat.log 2 q.den : Int) + 1) * (q.den : ℚ) :=
          mul_le_mul_of_nonneg_left b1 hp.le
  unfold binade
  rw [hna, ilog2_eq, ilog2_eq]
  dsimp only
  by_cases h : pow2 ((Nat.log 2 n : Int) - (Nat.log 2 q.den : Int)) ≤ q
  · rw [if_pos h]
    exact ⟨h, hhigh⟩
  · rw [if_neg h]
    refine ⟨hlow.le, ?_⟩
    rw [sub_add_cancel]
    exact lt_of_not_le h

theorem binade_unique (q : ℚ) (hq : 0 < q) (e : Int) (h1 : pow2 e ≤ q) (h2 : q < pow2 (e + 1)) :
    binade q = e := by
  obtain ⟨s1, s2⟩ := binade_spec q hq
  have l1 : e < binade q + 1 := pow2_lt_pow2_iff.mp (lt_of_le_of_lt h1 s2)
  have l2 : binade q < e + 1 := pow2_lt_pow2_iff.mp (lt_of_le_of_lt s1 h2)
  omega

theorem roundHalfEven_bounds (n : ℚ) : ⌊n⌋ ≤ roundHalfEven n ∧ roundHalfEven n ≤ ⌊n⌋ + 1 := by
  unfold roundHalfEven
  split_ifs <;> constructor <;> omega

theorem roundHalfEven_error (n : ℚ) : |(roundHalfEven n : ℚ) - n| ≤ 1 / 2 := by
  have h1 := Int.floor_le n
  have h2 := Int.lt_floor_add_one n
  unfold roundHalfEven
  rw [abs_le]
  split_ifs with ha hb hc
  · constructor <;> linarith
  · push_cast
    constructor <;> linarith
  · have he : n - (⌊n⌋ : ℚ) = 1 / 2 := le_antisymm (not_lt.mp hb) (not_lt.mp ha)
    constructor <;> linarith
  · have he : n - (⌊n⌋ : ℚ) = 1 / 2 := le_antisymm (not_lt.mp hb) (not_lt.mp ha)
    push_cast
    constructor <;> linarith

theorem roundHalfEven_intCast (k : Int) : roundHalfEven (k : ℚ) = k := by
  unfold roundHalfEven
  rw [Int.floor_intCast, sub_self, if_pos (by norm_num)]

theorem roundHalfEven_mono {a b : ℚ} (h : a ≤ b) : roundHalfEven a ≤ roundHalfEven b := by
  have hf : ⌊a⌋ ≤ ⌊b⌋ := Int.floor_mono h
  rcases lt_or_eq_of_le hf with hlt | heq
  · have h1 := (roundHalfEven_bounds a).2
    have h2 := (roundHalfEven_bounds b).1
    omega
  · have hb := roundHalfEven_bounds b
    unfold roundHalfEven
    rw [heq]
    have hfrac : a - (⌊b⌋ : ℚ) ≤ b - (⌊b⌋ : ℚ) := by linarith
    split_ifs <;> first | omega | (exfalso; linarith)

theorem roundHalfEven_natCast (k : Nat) : roundHalfEven (k : ℚ) = k := by
  have := roundHalfEven_intCast (k : Int)
  rwa [Int.cast_natCast] at this

/-- The scaled value of a positive number has 53 binary digits before the point. -/
theorem scaled_bounds (q : ℚ) (hq : 0 < q) :
    ((2 ^ 52 : Nat) : ℚ) ≤ q / pow2 (binade q - 52) ∧
    q / pow2 (binade q - 52) < ((2 ^ 53 : Nat) : ℚ) := by
  obtain ⟨s1, s2⟩ := binade_spec q hq
  have hu := pow2_pos (binade q - 52)
  have e1 : pow2 (binade q) = ((2 ^ 52 : Nat) : ℚ) * pow2 (binade q - 52) := by
    rw [← pow2_natCast, ← pow2_add]
    congr 1
    push_cast
    ring
  have e2 : pow2 (binade q + 1) = ((2 ^ 53 : Nat) : ℚ) * pow2 (binade q - 52) := by
    rw [← pow2_natCast, ← pow2_add]
    congr 1
    push_cast
    ring
  constructor
  · rw [le_div_iff₀ hu, ← e1]
    exact s1
  · rw [div_lt_iff₀ hu, ← e2]
    exact s2

theorem roundPos_bounds (q : ℚ) (hq : 0 < q) :
    pow2 (binade q) ≤ roundPos q ∧ roundPos q ≤ pow2 (binade q + 1) := by
  obtain ⟨b1, b2⟩ := scaled_bounds q hq
  have hu := pow2_pos (binade q - 52)
  have r1 : ((2 ^ 52 : Nat) : Int) ≤ roundHalfEven (q / pow2 (binade q - 52)) := by
    have := roundHalfEven_mono b1
    rwa [roundHalfEven_natCast] at this
  have r2 : roundHalfEven (q / pow2 (binade q - 52)) ≤ ((2 ^ 53 : Nat) : Int) := by
    have := roundHalfEven_mono b2.le
    rwa [roundHalfEven_natCast] at this
  have e1 : pow2 (binade q) = ((2 ^ 52 : Nat) : ℚ) * pow2 (binade q - 52) := by
    rw [← pow2_natCast, ← pow2_add]
    congr 1
    push_cast
    ring
  have e2 : pow2 (binade q + 1) = ((2 ^ 53 : Nat) : ℚ) * pow2 (binade q - 52) := by
    rw [← pow2_natCast, ← pow2_add]
    congr 1
    push_cast
    ring
  unfold roundPos
  rw [e1, e2]
  constructor
  · apply mul_le_mul_of_nonneg_right _ hu.le
    exact_mod_cast r1
  · apply mul_le_mul_of_nonneg_right _ hu.le
    exact_mod_cast r2

/-- Rounding moves a positive number by at most half a unit of its last binary digit,
which is at most the fraction `2 ^ (-53)` of the number. -/
theorem roundPos_error (q : ℚ) (hq : 0 < q) :
    |roundPos q - q| ≤ q / ((2 ^ 53 : Nat) : ℚ) := by
  obtain ⟨b1, _⟩ := scaled_bounds q hq
  have hu := pow2_pos (binade q - 52)
  have herr := roundHalfEven_error (q / pow2 (binade q - 52))
  have hq2 : q = q / pow2 (binade q - 52) * pow2 (binade q - 52) := by
    field_simp
  have hdiff : roundPos q - q
      = ((roundHalfEven (q / pow2 (binade q - 52)) : ℚ) - q / pow2 (binade q - 52))
          * pow2 (binade q - 52) := by
    unfold roundPos
    rw [sub_mul, ← hq2]
  rw [hdiff, abs_mul, abs_of_pos hu]
  have h1 : |(roundHalfEven (q / pow2 (binade q - 52)) : ℚ) - q / pow2 (binade q - 52)|
      * pow2 (binade q - 52) ≤ 1 / 2 * pow2 (binade q - 52) :=
    mul_le_mul_of_nonneg_right herr hu.le
  have h2 : 1 / 2 * pow2 (binade q - 52) ≤ q / ((2 ^ 53 : Nat) : ℚ) := by
    rw [le_div_iff₀ (by positivity)]
    have h3 : ((2 ^ 52 : Nat) : ℚ) * pow2 (binade q - 52) ≤ q := by
      rwa [le_div_iff₀ hu] at b1
    have e : ((2 ^ 53 : Nat) : ℚ) = 2 * ((2 ^ 52 : Nat) : ℚ) := by norm_num
    rw [e, show 1 / 2 * pow2 (binade q - 52) * (2 * ((2 ^ 52 : Nat) : ℚ))
      = ((2 ^ 52 : Nat) : ℚ) * pow2 (binade q - 52) by ring]
    exact h3
  exact h1.trans h2

theorem roundPos_mono {x y : ℚ} (hx : 0 < x) (h : x ≤ y) : roundPos x ≤ roundPos y := by
  have hy : 0 < y := lt_of_lt_of_le hx h
  obtain ⟨x1, x2⟩ := binade_spec x hx
  obtain ⟨y1, y2⟩ := binade_spec y hy
  have hle : binade x < binade y + 1 :=
    pow2_lt_pow2_iff.mp (lt_of_le_of_lt (x1.trans h) y2)
  rcases lt_or_eq_of_le (Int.lt_add_one_iff.mp hle) with hlt | heq
  · calc roundPos x ≤ pow2 (binade x + 1) := (roundPos_bounds x hx).2
      _ ≤ pow2 (binade y) := pow2_le_pow2 (by omega)
      _ ≤ roundPos y := (roundPos_bounds y hy).1
  · unfold roundPos
    rw [heq]
    have hu := pow2_pos (binade y - 52)
    apply mul_le_mul_of_nonneg_right _ hu.le
    have : roundHalfEven (x / pow2 (binade y - 52)) ≤ roundHalfEven (y / pow2 (binade y - 52)) :=
      roundHalfEven_mono (div_le_div_of_nonneg_right h hu.le)
    exact_mod_cast this

theorem roundDouble_of_pos {q : ℚ} (hq : 0 < q) : roundDouble q = roundPos q := by
  unfold roundDouble
  rw [if_pos hq]

theorem roundDouble_zero : roundDouble 0 = 0 := by
  unfold roundDouble
  rw [if_neg (lt_irrefl _), if_neg (lt_irrefl _)]

theorem roundPos_pos (q : ℚ) (hq : 0 < q) : 0 < roundPos q :=
  lt_of_lt_of_le (pow2_pos _) (roundPos_bounds q hq).1

theorem roundDouble_pos {q : ℚ} (hq : 0 < q) : 0 < roundDouble q := by
  rw [roundDouble_of_pos hq]
  exact roundPos_pos q hq

theorem roundDouble_nonneg {q : ℚ} (hq : 0 ≤ q) : 0 ≤ roundDouble q := by
  rcases lt_or_eq_of_le hq with h | h
  · exact (roundDouble_pos h).le
  · rw [← h, roundDouble_zero]

/-- Rounding keeps the order of numbers that are not negative. -/
theorem roundDouble_mono {x y : ℚ} (hx : 0 ≤ x) (h : x ≤ y) : roundDouble x ≤ roundDouble y := by
  rcases lt_or_eq_of_le hx with hpos | h0
  · rw [roundDouble_of_pos hpos, roundDouble_of_pos (lt_of_lt_of_le hpos h)]
    exact roundPos_mono hpos h
  · rw [← h0, roundDouble_zero]
    exact roundDouble_nonneg (hx.trans h)

/-- Rounding changes a number that is not negative by at most the fraction `2 ^ (-53)`
of it. -/
theorem roundDouble_error {q : ℚ} (hq : 0 ≤ q) :
    q * (1 - 1 / ((2 ^ 53 : Nat) : ℚ)) ≤ roundDouble q ∧
    roundDouble q ≤ q * (1 + 1 / ((2 ^ 53 : Nat) : ℚ)) := by
  rcases lt_or_eq_of_le hq with hpos | h0
  · rw [roundDouble_of_pos hpos]
    have h := roundPos_error q hpos
    rw [abs_le] at h
    constructor
    · have : q * (1 - 1 / ((2 ^ 53 : Nat) : ℚ)) = q - q / ((2 ^ 53 : Nat) : ℚ) := by ring
      rw [this]
      linarith
    · have : q * (1 + 1 / ((2 ^ 53 : Nat) : ℚ)) = q + q / ((2 ^ 53 : Nat) : ℚ) := by ring
      rw [this]
      linarith
  · rw [← h0, roundDouble_zero]
    simp

/-- A number with a significand of 53 binary digits is a `double`: rounding leaves it as
it is. -/
theorem roundPos_scaled (m : Nat) (k : Int) (h1 : 2 ^ 52 ≤ m) (h2 : m < 2 ^ 53) :
    roundPos ((m : ℚ) * pow2 k) = (m : ℚ) * pow2 k := by
  have hk := pow2_pos k
  have hm : (0 : ℚ) < (m : ℚ) := by
    have : 0 < m := lt_of_lt_of_le (by positivity) h1
    exact_mod_cast this
  have hq : 0 < (m : ℚ) * pow2 k := mul_pos hm hk
  have hb : binade ((m : ℚ) * pow2 k) = 52 + k := by
    apply binade_unique _ hq
    · rw [show (52 : Int) + k = ((52 : Nat) : Int) + k by push_cast; ring, pow2_add,
        pow2_natCast]
      apply mul_le_mul_of_nonneg_right _ hk.le
      exact_mod_cast h1
    · rw [show (52 : Int) + k + 1 = ((53 : Nat) : Int) + k by push_cast; ring, pow2_add,
        pow2_natCast]
      apply mul_lt_mul_of_pos_right _ hk
      exact_mod_cast h2
  unfold roundPos
  rw [hb, show (52 : Int) + k - 52 = k by ring, mul_div_assoc, div_self hk.ne', mul_one,
    roundHalfEven_natCast]
  norm_cast

/-- Every natural number up to `2 ^ 53` is a `double`. -/
theorem roundDouble_natCast (n : Nat) (h : n ≤ 2 ^ 53) : roundDouble (n : ℚ) = n := by
  rcases Nat.eq_zero_or_pos n with h0 | hpos
  · rw [h0]
    simpa using roundDouble_zero
  · have hq : (0 : ℚ) < (n : ℚ) := by exact_mod_cast hpos
    rw [roundDouble_of_pos hq]
    have hn0 : n ≠ 0 := Nat.pos_iff_ne_zero.mp hpos
    have a1 := Nat.pow_log_le_self 2 hn0
    have a2 := Nat.lt_pow_succ_log_self (by decide : 1 < 2) n
    rcases Nat.lt_or_ge (Nat.log 2 n) 53 with hlt | hge
    · have hj : Nat.log 2 n + (52 - Nat.log 2 n) = 52 := by omega
      have hm1 : 2 ^ 52 ≤ n * 2 ^ (52 - Nat.log 2 n) := by
        calc 2 ^ 52 = 2 ^ Nat.log 2 n * 2 ^ (52 - Nat.log 2 n) := by rw [← pow_add, hj]
          _ ≤ n * 2 ^ (52 - Nat.log 2 n) := Nat.mul_le_mul_right _ a1
      have hm2 : n * 2 ^ (52 - Nat.log 2 n) < 2 ^ 53 := by
        calc n * 2 ^ (52 - Nat.log 2 n)
            < 2 ^ (Nat.log 2 n).succ * 2 ^ (52 - Nat.log 2 n) :=
              Nat.mul_lt_mul_of_pos_right a2 (by positivity)
          _ = 2 ^ 53 := by rw [← pow_add]; congr 1; omega
      have hs := roundPos_scaled (n * 2 ^ (52 - Nat.log 2 n)) (-((52 - Nat.log 2 n : Nat) : Int))
        hm1 hm2
      have he : ((n * 2 ^ (52 - Nat.log 2 n) : Nat) : ℚ) * pow2 (-((52 - Nat.log 2 n : Nat) : Int))
          = (n : ℚ) := by
        rw [pow2_eq_zpow, zpow_neg, zpow_natCast]
        push_cast
        field_simp
      rw [he] at hs
      exact hs
    · -- n = 2 ^ 53
      have hn : n = 2 ^ 53 := by
        apply le_antisymm h
        calc 2 ^ 53 ≤ 2 ^ Nat.log 2 n := Nat.pow_le_pow_right (by decide) hge
          _ ≤ n := a1
      have hs := roundPos_scaled (2 ^ 52) 1 (le_refl _) (by norm_num)
      have he : ((2 ^ 52 : Nat) : ℚ) * pow2 1 = (n : ℚ) := by
        rw [hn, pow2_eq_zpow]
        norm_num
      rw [he] at hs
      exact hs

theorem roundHalfEven_eq_of_near (n : ℚ) (k : Int) (h : |n - (k : ℚ)| < 1 / 2) :
    roundHalfEven n = k := by
  have he := roundHalfEven_error n
  rw [abs_lt] at h
  rw [abs_le] at he
  have h1 : ((roundHalfEven n : Int) : ℚ) < ((k + 1 : Int) : ℚ) := by
    push_cast
    linarith
  have h2 : ((k - 1 : Int) : ℚ) < ((roundHalfEven n : Int) : ℚ) := by
    push_cast
    linarith
  have h1' : roundHalfEven n < k + 1 := by exact_mod_cast h1
  have h2' : k - 1 < roundHalfEven n := by exact_mod_cast h2
  omega

/-- A tie goes to the even neighbour (here the one above). -/
theorem roundHalfEven_tie_below (k : Int) (hk : k % 2 = 0) :
    roundHalfEven ((k : ℚ) - 1 / 2) = k := by
  have hf : ⌊(k : ℚ) - 1 / 2⌋ = k - 1 := by
    rw [Int.floor_eq_iff]
    push_cast
    constructor <;> linarith
  unfold roundHalfEven
  rw [hf]
  push_cast
  rw [if_neg (by linarith), if_neg (by linarith), if_neg (by omega)]
  ring

theorem roundPos_eq (q : ℚ) (e k : Int) (h1 : pow2 e ≤ q) (h2 : q < pow2 (e + 1))
    (hk : roundHalfEven (q / pow2 (e - 52)) = k) : roundPos q = (k : ℚ) * pow2 (e - 52) := by
  have hq : 0 < q := lt_of_lt_of_le (pow2_pos e) h1
  have hb := binade_unique q hq e h1 h2
  unfold roundPos
  rw [hb, hk]

theorem two_pow_53 : ((2 ^ 53 : Nat) : ℚ) = 9007199254740992 := by norm_num

theorem roundDouble_100 : roundDouble 100 = 100 := by
  have := roundDouble_natCast 100 (by norm_num)
  exact_mod_cast this

/-- The `double` next above 100 is `100 + 2 ^ (-46)`. -/
theorem roundDouble_above_100 :
    roundDouble (100 + 1 / 70368744177664) = 100 + 1 / 70368744177664 := by
  have h := roundPos_scaled 7036874417766401 (-46) (by norm_num) (by norm_num)
  have e : ((7036874417766401 : Nat) : ℚ) * pow2 (-46) = 100 + 1 / 70368744177664 := by
    rw [pow2_eq_zpow]
    norm_num
  rw [e] at h
  rw [roundDouble_of_pos (by norm_num)]
  exact h

/-- A number that exceeds 100 by at most the fraction `2 ^ (-53)` rounds to at most the
`double` next above 100. -/
theorem roundDouble_near_100 :
    roundDouble (100 * (1 + 1 / 9007199254740992)) = 100 + 1 / 70368744177664 := by
  rw [roundDouble_of_pos (by norm_num)]
  have h := roundPos_eq (100 * (1 + 1 / 9007199254740992)) 6 7036874417766401
    (by rw [pow2_eq_zpow]; norm_num) (by rw [pow2_eq_zpow]; norm_num)
    (by
      apply roundHalfEven_eq_of_near
      rw [pow2_eq_zpow, abs_lt]
      constructor <;> norm_num)
  rw [h, pow2_eq_zpow]
  norm_num

/-! ### The expression of `calculateCPU` -/

theorem cpuExpr_nonneg (d t : Nat) :
    0 ≤ ddiv (dmul 100 (doubleOfULong d)) (doubleOfULong t) := by
  unfold ddiv dmul doubleOfULong
  apply roundDouble_nonneg
  apply div_nonneg
  · apply roundDouble_nonneg
    apply mul_nonneg (by norm_num)
    exact roundDouble_nonneg (Nat.cast_nonneg d)
  · exact roundDouble_nonneg (Nat.cast_nonneg t)

/-- For tick counts that leave the product and the divisor within 53 bits, the value
is the exact quotient rounded once. -/
theorem cpuExpr_small (d t : Nat) (hd : 100 * d ≤ 2 ^ 53) (ht : t ≤ 2 ^ 53) :
    ddiv (dmul 100 (doubleOfULong d)) (doubleOfULong t)
      = roundDouble (100 * (d : ℚ) / (t : ℚ)) := by
  unfold ddiv dmul doubleOfULong
  rw [roundDouble_natCast d (by omega), roundDouble_natCast t ht]
  have h := roundDouble_natCast (100 * d) hd
  push_cast at h
  rw [h]

/-- The four roundings move the value by at most the fraction `2 ^ (-50)` of the exact
quotient. -/
theorem cpuExpr_error (d t : Nat) (ht : 0 < t) :
    |ddiv (dmul 100 (doubleOfULong d)) (doubleOfULong t) - 100 * (d : ℚ) / (t : ℚ)|
      ≤ 100 * (d : ℚ) / (t : ℚ) / 1125899906842624 := by
  have hD : (0 : ℚ) ≤ (d : ℚ) := Nat.cast_nonneg d
  have hT : (0 : ℚ) < (t : ℚ) := by exact_mod_cast ht
  unfold ddiv dmul doubleOfULong
  obtain ⟨a1, a2⟩ := roundDouble_error hD
  have a0 := roundDouble_nonneg hD
  obtain ⟨b1, b2⟩ := roundDouble_error (mul_nonneg (by norm_num : (0 : ℚ) ≤ 100) a0)
  have b0 := roundDouble_nonneg (mul_nonneg (by norm_num : (0 : ℚ) ≤ 100) a0)
  obtain ⟨c1, c2⟩ := roundDouble_error hT.le
  have c0 := roundDouble_pos hT
  obtain ⟨r1, r2⟩ := roundDouble_error (div_nonneg b0 c0.le)
  rw [two_pow_53] at a1 a2 b1 b2 c1 c2 r1 r2
  generalize roundDouble (d : ℚ) = a at *
  generalize roundDouble (100 * a) = b at *
  generalize roundDouble (t : ℚ) = c at *
  generalize roundDouble (b / c) = r at *
  generalize (d : ℚ) = D at *
  generalize (t : ℚ) = T at *
  have hX : 0 ≤ D / T := div_nonneg hD hT.le
  -- the quotient of the rounded operands
  have bu : b ≤ 100 * (1 + 1 / 9007199254740992) * (1 + 1 / 9007199254740992) * D := by
    linarith
  have bl : 100 * (1 - 1 / 9007199254740992) * (1 - 1 / 9007199254740992) * D ≤ b := by
    linarith
  have cl : 0 < (1 - 1 / 9007199254740992) * T := by
    apply mul_pos (by norm_num) hT
  have qu : b / c ≤ 100 * (1 + 1 / 9007199254740992) * (1 + 1 / 9007199254740992) * D
      / ((1 - 1 / 9007199254740992) * T) := by
    apply div_le_div₀ _ bu cl (by linarith)
    apply mul_nonneg (by norm_num) hD
  have ql : 100 * (1 - 1 / 9007199254740992) * (1 - 1 / 9007199254740992) * D
      / ((1 + 1 / 9007199254740992) * T) ≤ b / c := by
    apply div_le_div₀ b0 bl c0 (by linarith)
  have equ : 100 * (1 + 1 / 9007199254740992) * (1 + 1 / 9007199254740992) * D
      / ((1 - 1 / 9007199254740992) * T)
      = 100 * (1 + 1 / 9007199254740992) * (1 + 1 / 9007199254740992)
          / (1 - 1 / 9007199254740992) * (D / T) := by
    field_simp
    ring
  have eql : 100 * (1 - 1 / 9007199254740992) * (1 - 1 / 9007199254740992) * D
      / ((1 + 1 / 9007199254740992) * T)
      = 100 * (1 - 1 / 9007199254740992) * (1 - 1 / 9007199254740992)
          / (1 + 1 / 9007199254740992) * (D / T) := by
    field_simp
    ring
  rw [equ] at qu
  rw [eql] at ql
  have e0 : 100 * D / T = 100 * (D / T) := by ring
  rw [e0]
  generalize D / T = X at *
  generalize b / c = Q at *
  norm_num at qu ql r1 r2
  rw [abs_le]
  constructor <;> linarith

/-- A process delta that does not exceed the total delta gives at most the `double`
next above 100. -/
theorem cpuExpr_le_of_le (d t : Nat) (ht : 0 < t) (h : d ≤ t) :
    ddiv (dmul 100 (doubleOfULong d)) (doubleOfULong t) ≤ 100 + 1 / 70368744177664 := by
  have hD : (0 : ℚ) ≤ (d : ℚ) := Nat.cast_nonneg d
  have hT : (0 : ℚ) < (t : ℚ) := by exact_mod_cast ht
  have hDT : (d : ℚ) ≤ (t : ℚ) := by exact_mod_cast h
  unfold ddiv dmul doubleOfULong
  have ac := roundDouble_mono hD hDT
  have a0 := roundDouble_nonneg hD
  obtain ⟨_, b2⟩ := roundDouble_error (mul_nonneg (by norm_num : (0 : ℚ) ≤ 100) a0)
  have b0 := roundDouble_nonneg (mul_nonneg (by norm_num : (0 : ℚ) ≤ 100) a0)
  have c0 := roundDouble_pos hT
  rw [two_pow_53] at b2
  have hq : roundDouble (100 * roundDouble (d : ℚ)) / roundDouble (t : ℚ)
      ≤ 100 * (1 + 1 / 9007199254740992) := by
    rw [div_le_iff₀ c0]
    generalize roundDouble (100 * roundDouble (d : ℚ)) = b at *
    linarith
  have := roundDouble_mono (div_nonneg b0 c0.le) hq
  rwa [roundDouble_near_100] at this

theorem cpuExpr_le_100 (d t : Nat) (ht : 0 < t) (h : d ≤ t) (hs : 100 * t ≤ 2 ^ 53) :
    ddiv (dmul 100 (doubleOfULong d)) (doubleOfULong t) ≤ 100 := by
  have hD : (0 : ℚ) ≤ (d : ℚ) := Nat.cast_nonneg d
  have hT : (0 : ℚ) < (t : ℚ) := by exact_mod_cast ht
  have hDT : (d : ℚ) ≤ (t : ℚ) := by exact_mod_cast h
  rw [cpuExpr_small d t (by omega) (by omega)]
  have hq : 100 * (d : ℚ) / (t : ℚ) ≤ 100 := by
    rw [div_le_iff₀ hT]
    linarith
  have := roundDouble_mono (div_nonneg (mul_nonneg (by norm_num) hD) hT.le) hq
  rwa [roundDouble_100] at this

/-- A process delta above a total delta of at most `2 ^ 50` gives more than 100. -/
theorem cpuExpr_gt_100 (d t : Nat) (ht : 0 < t) (h : t < d) (hs : t ≤ 2 ^ 50) :
    100 < ddiv (dmul 100 (doubleOfULong d)) (doubleOfULong t) := by
  have hT : (0 : ℚ) < (t : ℚ) := by exact_mod_cast ht
  have hT1 : (0 : ℚ) ≤ ((t + 1 : Nat) : ℚ) := Nat.cast_nonneg _
  have hDT : ((t + 1 : Nat) : ℚ) ≤ (d : ℚ) := by exact_mod_cast h
  have hs2 : (t : ℚ) ≤ 1125899906842624 := by exact_mod_cast hs
  unfold ddiv dmul doubleOfULong
  rw [roundDouble_natCast t (by omega)]
  have a1 := roundDouble_mono hT1 hDT
  rw [roundDouble_natCast (t + 1) (by omega)] at a1
  push_cast at a1
  have a0 : (0 : ℚ) ≤ roundDouble (d : ℚ) := by linarith
  obtain ⟨b1, _⟩ := roundDouble_error (mul_nonneg (by norm_num : (0 : ℚ) ≤ 100) a0)
  rw [two_pow_53] at b1
  have hq : 100 + 1 / 70368744177664 ≤ roundDouble (100 * roundDouble (d : ℚ)) / (t : ℚ) := by
    rw [le_div_iff₀ hT]
    generalize roundDouble (100 * roundDouble (d : ℚ)) = b at *
    generalize roundDouble (d : ℚ) = a at *
    linarith
  have := roundDouble_mono (by norm_num) hq
  rw [roundDouble_above_100] at this
  refine lt_of_lt_of_le (by norm_num) this

/-! ### Values at concrete tick counts -/

theorem cpuExpr_1_3 :
    ddiv (dmul 100 (doubleOfULong 1)) (doubleOfULong 3)
      = 4691249611844267 / 140737488355328 := by
  have h := cpuExpr_small 1 3 (by norm_num) (by norm_num)
  rw [h, roundDouble_of_pos (by norm_num)]
  have h2 := roundPos_eq (100 * ((1 : Nat) : ℚ) / ((3 : Nat) : ℚ)) 5 4691249611844267
    (by rw [pow2_eq_zpow]; norm_num) (by rw [pow2_eq_zpow]; norm_num)
    (by
      apply roundHalfEven_eq_of_near
      rw [pow2_eq_zpow, abs_lt]
      constructor <;> norm_num)
  rw [h2, pow2_eq_zpow]
  norm_num

theorem cpuExpr_2_1 : ddiv (dmul 100 (doubleOfULong 2)) (doubleOfULong 1) = 200 := by
  have h := cpuExpr_small 2 1 (by norm_num) (by norm_num)
  rw [h]
  have h2 := roundDouble_natCast 200 (by norm_num)
  norm_num at h2 ⊢
  exact h2

theorem cpuExpr_10_40 : ddiv (dmul 100 (doubleOfULong 10)) (doubleOfULong 40) = 25 := by
  have h := cpuExpr_small 10 40 (by norm_num) (by norm_num)
  rw [h]
  have h2 := roundDouble_natCast 25 (by norm_num)
  norm_num at h2 ⊢
  exact h2

/-- The largest `unsigned long` becomes `2 ^ 64` as a `double`. -/
theorem doubleOfULong_max : doubleOfULong 18446744073709551615 = 18446744073709551616 := by
  unfold doubleOfULong
  rw [roundDouble_of_pos (by norm_num)]
  have h2 := roundPos_eq ((18446744073709551615 : Nat) : ℚ) 63 9007199254740992
    (by rw [pow2_eq_zpow]; norm_num) (by rw [pow2_eq_zpow]; norm_num)
    (by
      apply roundHalfEven_eq_of_near
      rw [pow2_eq_zpow, abs_lt]
      constructor <;> norm_num)
  rw [h2, pow2_eq_zpow]
  norm_num

theorem cpuExpr_max_1 :
    ddiv (dmul 100 (doubleOfULong 18446744073709551615)) (doubleOfULong 1)
      = 1844674407370955161600 := by
  have h1 : doubleOfULong 1 = 1 := by
    have := roundDouble_natCast 1 (by norm_num)
    unfold doubleOfULong
    exact_mod_cast this
  have h2 : roundDouble 1844674407370955161600 = 1844674407370955161600 := by
    have h := roundPos_scaled 7036874417766400 18 (by norm_num) (by norm_num)
    have e : ((7036874417766400 : Nat) : ℚ) * pow2 18 = 1844674407370955161600 := by
      rw [pow2_eq_zpow]
      norm_num
    rw [e] at h
    rw [roundDouble_of_pos (by norm_num)]
    exact h
  rw [doubleOfULong_max, h1]
  unfold ddiv dmul
  norm_num
  rw [h2, h2]

/-- Equal deltas whose product with 100 falls half-way between two `double` values:
the product is rounded up and the quotient comes out above 100. -/
theorem cpuExpr_equal_deltas :
    ddiv (dmul 100 (doubleOfULong 360291882790295)) (doubleOfULong 360291882790295)
      = 100 + 1 / 70368744177664 := by
  have h1 : doubleOfULong 360291882790295 = 360291882790295 := by
    have := roundDouble_natCast 360291882790295 (by norm_num)
    unfold doubleOfULong
    exact_mod_cast this
  have h2 : roundDouble 36029188279029500 = 36029188279029504 := by
    rw [roundDouble_of_pos (by norm_num)]
    have h := roundPos_eq 36029188279029500 55 4503648534878688
      (by rw [pow2_eq_zpow]; norm_num) (by rw [pow2_eq_zpow]; norm_num)
      (by
        have e : (36029188279029500 : ℚ) / pow2 (55 - 52)
            = ((4503648534878688 : Int) : ℚ) - 1 / 2 := by
          rw [pow2_eq_zpow]
          norm_num
        rw [e]
        exact roundHalfEven_tie_below 4503648534878688 (by decide))
    rw [h, pow2_eq_zpow]
    norm_num
  have h3 : roundDouble (36029188279029504 / 360291882790295) = 100 + 1 / 70368744177664 := by
    rw [roundDouble_of_pos (by norm_num)]
    have h := roundPos_eq (36029188279029504 / 360291882790295) 6 7036874417766401
      (by rw [pow2_eq_zpow]; norm_num) (by rw [pow2_eq_zpow]; norm_num)
      (by
        apply roundHalfEven_eq_of_near
        rw [pow2_eq_zpow, abs_lt]
        constructor <;> norm_num)
    rw [h, pow2_eq_zpow]
    norm_num
  rw [h1]
  unfold ddiv dmul
  norm_num
  rw [h2, h3]
  norm_num

theorem calculateCPU_cpuPercent (self : Process) (prevUtime prevStime totalTimeDiff : Nat)
    (h : totalTimeDiff ≠ 0) :
    (calculateCPU self prevUtime prevStime totalTimeDiff).cpuPercent
      = ddiv (dmul 100 (doubleOfULong
          (usub (uadd self.utime self.stime) (uadd prevUtime prevStime))))
          (doubleOfULong totalTimeDiff) := by
  simp only [calculateCPU, if_neg h]

/-- C6, as the code has it. `calculateCPU` stores 0 when the total tick delta is 0.
Otherwise, when the previous tick sum does not exceed the current one (both sums as the
code forms them, in `unsigned long`; when the current sum fits 64 bits they are the
plain sums), it stores `100 * ((utime + stime) - (prevUtime + prevStime)) /
totalTimeDiff` as `double` arithmetic gives it: the stored value differs from the exact
quotient by at most the fraction `2 ^ (-50)` of the quotient, and it is the exact
quotient rounded once to `double` when `100 * (utime + stime)` and `totalTimeDiff` are
at most `2 ^ 53`. A newly constructed `Process` has CPU-percent 0 and `readFromProc`
leaves it so. -/
theorem calculateCPU_formula (self : Process) (prevUtime prevStime totalTimeDiff : Nat) :
    (totalTimeDiff = 0 →
      (calculateCPU self prevUtime prevStime totalTimeDiff).cpuPercent = 0) ∧
    (totalTimeDiff ≠ 0 → uadd prevUtime prevStime ≤ uadd self.utime self.stime →
      |(calculateCPU self prevUtime prevStime totalTimeDiff).cpuPercent
          - 100 * (((uadd self.utime self.stime - uadd prevUtime prevStime : Nat) : ℚ))
              / (totalTimeDiff : ℚ)|
        ≤ 100 * (((uadd self.utime self.stime - uadd prevUtime prevStime : Nat) : ℚ))
            / (totalTimeDiff : ℚ) / 2 ^ 50) ∧
    (totalTimeDiff ≠ 0 → prevUtime + prevStime ≤ self.utime + self.stime →
      self.utime + self.stime < wordMod →
      |(calculateCPU self prevUtime prevStime totalTimeDiff).cpuPercent
          - 100 * (((self.utime + self.stime : Nat) : ℚ) - ((prevUtime + prevStime : Nat) : ℚ))
              / (totalTimeDiff : ℚ)|
        ≤ 100 * (((self.utime + self.stime : Nat) : ℚ) - ((prevUtime + prevStime : Nat) : ℚ))
            / (totalTimeDiff : ℚ) / 2 ^ 50) ∧
    (totalTimeDiff ≠ 0 → prevUtime + prevStime ≤ self.utime + self.stime →
      100 * (self.utime + self.stime) ≤ 2 ^ 53 → totalTimeDiff ≤ 2 ^ 53 →
      (calculateCPU self prevUtime prevStime totalTimeDiff).cpuPercent
        = roundDouble
            (100 * (((self.utime + self.stime : Nat) : ℚ) - ((prevUtime + prevStime : Nat) : ℚ))
              / (totalTimeDiff : ℚ))) ∧
    Process.new.cpuPercent = 0 ∧
    (∀ (fs : ProcFs) (processId : Int),
      (readFromProc fs processId Process.new).proc.cpuPercent = 0) := by
  have e50 : (2 : ℚ) ^ 50 = 1125899906842624 := by norm_num
  refine ⟨?_, ?_, ?_, ?_, rfl, ?_⟩
  · intro h
    simp [calculateCPU, h]
  · intro h hle
    rw [calculateCPU_cpuPercent self prevUtime prevStime totalTimeDiff h,
      usub_of_le hle (uadd_lt _ _), e50]
    exact cpuExpr_error _ _ (Nat.pos_of_ne_zero h)
  · intro h hle hfit
    have h1 : uadd self.utime self.stime = self.utime + self.stime :=
      Nat.mod_eq_of_lt hfit
    have h2 : uadd prevUtime prevStime = prevUtime + prevStime :=
      Nat.mod_eq_of_lt (lt_of_le_of_lt hle hfit)
    rw [calculateCPU_cpuPercent self prevUtime prevStime totalTimeDiff h,
      h1, h2, usub_of_le hle hfit, e50, ← Nat.cast_sub hle]
    exact cpuExpr_error _ _ (Nat.pos_of_ne_zero h)
  · intro h hle hs ht
    have hfit : self.utime + self.stime < wordMod := by
      have : (2 : Nat) ^ 53 < wordMod := by decide
      omega
    have h1 : uadd self.utime self.stime = self.utime + self.stime :=
      Nat.mod_eq_of_lt hfit
    have h2 : uadd prevUtime prevStime = prevUtime + prevStime :=
      Nat.mod_eq_of_lt (lt_of_le_of_lt hle hfit)
    rw [calculateCPU_cpuPercent self prevUtime prevStime totalTimeDiff h,
      h1, h2, usub_of_le hle hfit, ← Nat.cast_sub hle]
    exact cpuExpr_small _ _ (by omega) ht
  · intro fs processId
    rw [readFromProc_cpuPercent]
    rfl

/-- Ten ticks of 40 total: the quotient 25 rounded to `double`. -/
theorem calculateCPU_formula_witness :
    (calculateCPU { Process.new with utime := 12, stime := 8 } 6 4 40).cpuPercent
      = roundDouble
          (100 * (((12 + 8 : Nat) : ℚ) - ((6 + 4 : Nat) : ℚ)) / ((40 : Nat) : ℚ)) :=
  (calculateCPU_formula { Process.new with utime := 12, stime := 8 } 6 4 40).2.2.2.1
    (by decide) (by decide) (by decide) (by decide)

/-- Ten ticks of 40 total give exactly 25. -/
theorem calculateCPU_quarter :
    (calculateCPU { Process.new with utime := 12, stime := 8 } 6 4 40).cpuPercent = 25 := by
  rw [calculateCPU_cpuPercent _ _ _ _ (by decide)]
  have hd : usub (uadd ({ Process.new with utime := 12, stime := 8 } : Process).utime
      ({ Process.new with utime := 12, stime := 8 } : Process).stime) (uadd 6 4) = 10 := by
    decide
  rw [hd]
  exact cpuExpr_10_40

/-- One tick of a total of three: the code stores the `double` nearest to `100 / 3`,
which is `4691249611844267 / 2 ^ 47` (printed 33.333333333333336), not `100 / 3`. -/
theorem calculateCPU_rounds :
    (0 : Nat) + 0 ≤ ({ Process.new with utime := 1 } : Process).utime
      + ({ Process.new with utime := 1 } : Process).stime ∧
    (calculateCPU { Process.new with utime := 1 } 0 0 3).cpuPercent
      = 4691249611844267 / 2 ^ 47 ∧
    (calculateCPU { Process.new with utime := 1 } 0 0 3).cpuPercent
      ≠ 100 * (((1 + 0 : Nat) : ℚ) - ((0 + 0 : Nat) : ℚ)) / ((3 : Nat) : ℚ) := by
  have h : (calculateCPU { Process.new with utime := 1 } 0 0 3).cpuPercent
      = 4691249611844267 / 2 ^ 47 := by
    rw [calculateCPU_cpuPercent _ _ _ _ (by decide)]
    have hd : usub (uadd ({ Process.new with utime := 1 } : Process).utime
        ({ Process.new with utime := 1 } : Process).stime) (uadd 0 0) = 1 := by
      decide
    rw [hd, cpuExpr_1_3]
    norm_num
  refine ⟨by decide, h, ?_⟩
  rw [h]
  norm_num

/-- C7, as the code has it. With a total tick delta above 0 the CPU-percent is never
negative. When the process tick delta, taken modulo `2 ^ 64` as the code computes it, is
at most the total tick delta, the CPU-percent is at most `100 + 2 ^ (-46)`, the `double`
next above 100, and it is at most 100 when `100 * totalTimeDiff` is at most `2 ^ 53`.
When the process tick delta is larger than the total tick delta and the total tick
delta is at most `2 ^ 50`, the CPU-percent is above 100. -/
theorem calculateCPU_bounds (self : Process) (prevUtime prevStime totalTimeDiff : Nat)
    (hpos : 0 < totalTimeDiff) :
    0 ≤ (calculateCPU self prevUtime prevStime totalTimeDiff).cpuPercent ∧
    (usub (uadd self.utime self.stime) (uadd prevUtime prevStime) ≤ totalTimeDiff →
      (calculateCPU self prevUtime prevStime totalTimeDiff).cpuPercent
        ≤ 100 + 1 / 2 ^ 46) ∧
    (usub (uadd self.utime self.stime) (uadd prevUtime prevStime) ≤ totalTimeDiff →
      100 * totalTimeDiff ≤ 2 ^ 53 →
      (calculateCPU self prevUtime prevStime totalTimeDiff).cpuPercent ≤ 100) ∧
    (totalTimeDiff < usub (uadd self.utime self.stime) (uadd prevUtime prevStime) →
      totalTimeDiff ≤ 2 ^ 50 →
      100 < (calculateCPU self prevUtime prevStime totalTimeDiff).cpuPercent) := by
  have hne : totalTimeDiff ≠ 0 := Nat.pos_iff_ne_zero.mp hpos
  have e46 : (2 : ℚ) ^ 46 = 70368744177664 := by norm_num
  rw [calculateCPU_cpuPercent self prevUtime prevStime totalTimeDiff hne, e46]
  exact ⟨cpuExpr_nonneg _ _, fun h => cpuExpr_le_of_le _ _ hpos h,
    fun h hs => cpuExpr_le_100 _ _ hpos h hs, fun h hs => cpuExpr_gt_100 _ _ hpos h hs⟩

/-- Five ticks of ten. -/
theorem calculateCPU_bounds_witness :
    0 ≤ (calculateCPU { Process.new with utime := 5, stime := 5 } 2 3 10).cpuPercent ∧
    (usub (uadd 5 5) (uadd 2 3) ≤ 10 →
      (calculateCPU { Process.new with utime := 5, stime := 5 } 2 3 10).cpuPercent
        ≤ 100 + 1 / 2 ^ 46) ∧
    (usub (uadd 5 5) (uadd 2 3) ≤ 10 → 100 * 10 ≤ 2 ^ 53 →
      (calculateCPU { Process.new with utime := 5, stime := 5 } 2 3 10).cpuPercent ≤ 100) ∧
    (10 < usub (uadd 5 5) (uadd 2 3) → 10 ≤ 2 ^ 50 →
      100 < (calculateCPU { Process.new with utime := 5, stime := 5 } 2 3 10).cpuPercent) :=
  calculateCPU_bounds { Process.new with utime := 5, stime := 5 } 2 3 10 (by decide)

/-- Three inputs with a CPU-percent above 100. With a total tick delta of 1, a process
delta of 2 gives 200, and a previous sample one tick above the current one makes the
subtraction wrap to `2 ^ 64 - 1`, which becomes `2 ^ 64` as a `double` and gives
`100 * 2 ^ 64`. With both deltas equal to 360291882790295 the product with 100 is
rounded up and the quotient is `100 + 2 ^ (-46)` (printed 100.00000000000001). -/
theorem calculateCPU_exceeds_100 :
    (calculateCPU { Process.new with utime := 2 } 0 0 1).cpuPercent = 200 ∧
    ¬ (calculateCPU { Process.new with utime := 2 } 0 0 1).cpuPercent ≤ 100 ∧
    usub (uadd Process.new.utime Process.new.stime) (uadd 1 0) = 2 ^ 64 - 1 ∧
    (calculateCPU Process.new 1 0 1).cpuPercent = 100 * 2 ^ 64 ∧
    ¬ (calculateCPU Process.new 1 0 1).cpuPercent ≤ 100 ∧
    (calculateCPU { Process.new with utime := 360291882790295 } 0 0
      360291882790295).cpuPercent = 100 + 1 / 2 ^ 46 ∧
    ¬ (calculateCPU { Process.new with utime := 360291882790295 } 0 0
      360291882790295).cpuPercent ≤ 100 := by
  have h1 : (calculateCPU { Process.new with utime := 2 } 0 0 1).cpuPercent = 200 := by
    rw [calculateCPU_cpuPercent _ _ _ _ (by decide)]
    have hd : usub (uadd ({ Process.new with utime := 2 } : Process).utime
        ({ Process.new with utime := 2 } : Process).stime) (uadd 0 0) = 2 := by
      decide
    rw [hd]
    exact cpuExpr_2_1
  have hw : usub (uadd Process.new.utime Process.new.stime) (uadd 1 0)
      = 18446744073709551615 := by
    decide
  have h2 : (calculateCPU Process.new 1 0 1).cpuPercent = 100 * 2 ^ 64 := by
    rw [calculateCPU_cpuPercent _ _ _ _ (by decide), hw, cpuExpr_max_1]
    norm_num
  have h3 : (calculateCPU { Process.new with utime := 360291882790295 } 0 0
      360291882790295).cpuPercent = 100 + 1 / 2 ^ 46 := by
    rw [calculateCPU_cpuPercent _ _ _ _ (by decide)]
    have hd : usub (uadd ({ Process.new with utime := 360291882790295 } : Process).utime
        ({ Process.new with utime := 360291882790295 } : Process).stime) (uadd 0 0)
        = 360291882790295 := by
      decide
    rw [hd, cpuExpr_equal_deltas]
    norm_num
  refine ⟨h1, ?_, ?_, h2, ?_, h3, ?_⟩
  · rw [h1]; norm_num
  · rw [hw]; norm_num
  · rw [h2]; norm_num
  · rw [h3]; norm_num

/-! ## The node map -/

theorem NodeMap.find_assign (m : NodeMap) (pid : Int) (node : ProcessTreeNode) (k : Int) :
    NodeMap.find (NodeMap.assign m pid node) k
      = if pid = k then some node else NodeMap.find m k := by
  induction m with
  | nil => simp [NodeMap.assign, NodeMap.find]
  | cons e rest ih =>
    obtain ⟨k0, n0⟩ := e
    unfold NodeMap.assign
    by_cases h1 : pid < k0
    · rw [if_pos h1]
      simp only [NodeMap.find]
    · rw [if_neg h1]
      by_cases h2 : pid = k0
      · rw [if_pos h2]
        subst h2
        simp only [NodeMap.find]
        by_cases h3 : pid = k
        · simp [h3]
        · simp [h3]
      · rw [if_neg h2]
        simp only [NodeMap.find]
        rw [ih]
        by_cases h3 : k0 = k
        · have : ¬ pid = k := fun e => h2 (e.trans h3.symm)
          simp [h3, this]
        · simp [h3]

theorem NodeMap.mem_keys_assign (m : NodeMap) (pid : Int) (node : ProcessTreeNode) (k : Int) :
    k ∈ NodeMap.keys (NodeMap.assign m pid node) ↔ k = pid ∨ k ∈ NodeMap.keys m := by
  induction m with
  | nil => simp [NodeMap.assign, NodeMap.keys]
  | cons e rest ih =>
    obtain ⟨k0, n0⟩ := e
    unfold NodeMap.assign
    by_cases h1 : pid < k0
    · rw [if_pos h1]
      simp [NodeMap.keys]
    · rw [if_neg h1]
      by_cases h2 : pid = k0
      · rw [if_pos h2]
        subst h2
        simp [NodeMap.keys]
      · rw [if_neg h2]
        simp only [NodeMap.keys, List.map_cons, List.mem_cons] at ih ⊢
        rw [ih]
        tauto

theorem NodeMap.sorted_assign (m : NodeMap) (pid : Int) (node : ProcessTreeNode)
    (h : (NodeMap.keys m).Sorted (· < ·)) :
    (NodeMap.keys (NodeMap.assign m pid node)).Sorted (· < ·) := by
  induction m with
  | nil => simp [NodeMap.assign, NodeMap.keys]
  | cons e rest ih =>
    obtain ⟨k0, n0⟩ := e
    have hs : (k0 :: NodeMap.keys rest).Sorted (· < ·) := h
    rw [List.sorted_cons] at hs
    unfold NodeMap.assign
    by_cases h1 : pid < k0
    · rw [if_pos h1]
      show (pid :: k0 :: NodeMap.keys rest).Sorted (· < ·)
      rw [List.sorted_cons]
      refine ⟨?_, h⟩
      intro b hb
      rcases List.mem_cons.mp hb with rfl | hb
      · exact h1
      · exact lt_trans h1 (hs.1 b hb)
    · rw [if_neg h1]
      by_cases h2 : pid = k0
      · rw [if_pos h2]
        subst h2
        exact h
      · rw [if_neg h2]
        show (k0 :: NodeMap.keys (NodeMap.assign rest pid node)).Sorted (· < ·)
        rw [List.sorted_cons]
        refine ⟨?_, ih hs.2⟩
        intro b hb
        rcases (NodeMap.mem_keys_assign rest pid node b).mp hb with rfl | hb
        · omega
        · exact hs.1 b hb

theorem NodeMap.length_assign_of_not_mem (m : NodeMap) (pid : Int) (node : ProcessTreeNode)
    (h : pid ∉ NodeMap.keys m) : (NodeMap.assign m pid node).length = m.length + 1 := by
  induction m with
  | nil => simp [NodeMap.assign]
  | cons e rest ih =>
    obtain ⟨k0, n0⟩ := e
    have hne : ¬ pid = k0 := fun e => h (by simp [NodeMap.keys, e])
    have hrest : pid ∉ NodeMap.keys rest := fun e => h (by simp [NodeMap.keys] at e ⊢; exact Or.inr e)
    unfold NodeMap.assign
    by_cases h1 : pid < k0
    · rw [if_pos h1]; simp
    · rw [if_neg h1, if_neg hne]
      simp [ih hrest]

theorem NodeMap.find_eq_none_iff (m : NodeMap) (k : Int) :
    NodeMap.find m k = none ↔ k ∉ NodeMap.keys m := by
  induction m with
  | nil => simp [NodeMap.find, NodeMap.keys]
  | cons e rest ih =>
    obtain ⟨k0, n0⟩ := e
    by_cases h : k0 = k
    · simp [NodeMap.find, NodeMap.keys, h]
    · have h2 : ¬ k = k0 := fun e => h e.symm
      simp only [NodeMap.find, if_neg h, ih]
      simp [NodeMap.keys, h2]

theorem NodeMap.mem_of_find {m : NodeMap} {k : Int} {node : ProcessTreeNode}
    (h : NodeMap.find m k = some node) : (k, node) ∈ m := by
  induction m with
  | nil => simp [NodeMap.find] at h
  | cons e rest ih =>
    obtain ⟨k0, n0⟩ := e
    by_cases h1 : k0 = k
    · simp [NodeMap.find, h1] at h
      simp [h1, h]
    · simp only [NodeMap.find, if_neg h1] at h
      exact List.mem_cons_of_mem _ (ih h)

theorem NodeMap.find_of_mem {m : NodeMap} {k : Int} {node : ProcessTreeNode}
    (hnd : (NodeMap.keys m).Nodup) (h : (k, node) ∈ m) : NodeMap.find m k = some node := by
  induction m with
  | nil => simp at h
  | cons e rest ih =>
    obtain ⟨k0, n0⟩ := e
    have hnd2 : (k0 :: NodeMap.keys rest).Nodup := hnd
    rw [List.nodup_cons] at hnd2
    rcases List.mem_cons.mp h with heq | hmem
    · injection heq with h1 h2
      subst h1; subst h2
      simp [NodeMap.find]
    · have hk : k ∈ NodeMap.keys rest := List.mem_map_of_mem Prod.fst hmem
      have hne : ¬ k0 = k := fun e => hnd2.1 (e ▸ hk)
      simp only [NodeMap.find, if_neg hne]
      exact ih hnd2.2 hmem

theorem NodeMap.keys_modify (m : NodeMap) (pid : Int) (f : ProcessTreeNode → ProcessTreeNode) :
    NodeMap.keys (NodeMap.modify m pid f) = NodeMap.keys m := by
  unfold NodeMap.keys NodeMap.modify
  rw [List.map_map]
  apply List.map_congr_left
  intro e _
  by_cases h : e.1 = pid <;> simp [h]

theorem NodeMap.find_modify (m : NodeMap) (pid : Int) (f : ProcessTreeNode → ProcessTreeNode)
    (k : Int) :
    NodeMap.find (NodeMap.modify m pid f) k
      = if k = pid then (NodeMap.find m k).map f else NodeMap.find m k := by
  induction m with
  | nil => simp [NodeMap.modify, NodeMap.find]
  | cons e rest ih =>
    obtain ⟨k0, n0⟩ := e
    have hcons : NodeMap.modify ((k0, n0) :: rest) pid f
        = (if k0 = pid then (k0, f n0) else (k0, n0)) :: NodeMap.modify rest pid f := rfl
    rw [hcons]
    by_cases h1 : k0 = pid
    · rw [if_pos h1]
      simp only [NodeMap.find]
      by_cases h2 : k0 = k
      · have : k = pid := h2.symm.trans h1
        simp [h2, this]
      · rw [if_neg h2, if_neg h2, ih]
    · rw [if_neg h1]
      simp only [NodeMap.find]
      by_cases h2 : k0 = k
      · have : ¬ k = pid := fun e => h1 (h2.trans e)
        simp [h2, this]
      · rw [if_neg h2, if_neg h2, ih]

/-! ## The first pass: one node per pid -/

theorem createNodesFrom_cons (m : NodeMap) (p : Process) (ps : List Process) :
    createNodesFrom m (p :: ps) = createNodesFrom (NodeMap.assign m p.pid (newNode p)) ps := rfl

theorem createNodesFrom_sorted (ps : List Process) (m : NodeMap)
    (h : (NodeMap.keys m).Sorted (· < ·)) :
    (NodeMap.keys (createNodesFrom m ps)).Sorted (· < ·) := by
  induction ps generalizing m with
  | nil => exact h
  | cons p ps ih =>
    rw [createNodesFrom_cons]
    exact ih _ (NodeMap.sorted_assign m p.pid _ h)

theorem createNodesFrom_find_of_not_mem (ps : List Process) (m : NodeMap) (k : Int)
    (h : k ∉ ps.map Process.pid) :
    NodeMap.find (createNodesFrom m ps) k = NodeMap.find m k := by
  induction ps generalizing m with
  | nil => rfl
  | cons p ps ih =>
    rw [createNodesFrom_cons]
    have h1 : ¬ p.pid = k := fun e => h (by simp [e])
    have h2 : k ∉ ps.map Process.pid := fun e => h (by simp at e ⊢; exact Or.inr e)
    rw [ih _ h2, NodeMap.find_assign, if_neg h1]

theorem createNodesFrom_find (ps : List Process) (m : NodeMap)
    (hnd : (ps.map Process.pid).Nodup) (p : Process) (hp : p ∈ ps) :
    NodeMap.find (createNodesFrom m ps) p.pid = some (newNode p) := by
  induction ps generalizing m with
  | nil => simp at hp
  | cons q qs ih =>
    rw [createNodesFrom_cons]
    have hnd2 : (q.pid :: qs.map Process.pid).Nodup := hnd
    rw [List.nodup_cons] at hnd2
    rcases List.mem_cons.mp hp with rfl | hmem
    · rw [createNodesFrom_find_of_not_mem qs _ _ hnd2.1, NodeMap.find_assign, if_pos rfl]
    · exact ih _ hnd2.2 hmem

theorem createNodesFrom_find_some (ps : List Process) (m : NodeMap) (k : Int)
    (node : ProcessTreeNode) (h : NodeMap.find (createNodesFrom m ps) k = some node) :
    (∃ p ∈ ps, p.pid = k ∧ node = newNode p) ∨ NodeMap.find m k = some node := by
  induction ps generalizing m with
  | nil => exact Or.inr h
  | cons q qs ih =>
    rw [createNodesFrom_cons] at h
    rcases ih _ h with ⟨p, hp, hk, hn⟩ | h2
    · exact Or.inl ⟨p, List.mem_cons_of_mem _ hp, hk, hn⟩
    · rw [NodeMap.find_assign] at h2
      by_cases h3 : q.pid = k
      · rw [if_pos h3] at h2
        injection h2 with h2
        exact Or.inl ⟨q, by simp, h3, h2.symm⟩
      · rw [if_neg h3] at h2
        exact Or.inr h2

theorem createNodesFrom_length (ps : List Process) (m : NodeMap)
    (hnd : (ps.map Process.pid).Nodup) (hdis : ∀ p ∈ ps, p.pid ∉ NodeMap.keys m) :
    (createNodesFrom m ps).length = m.length + ps.length := by
  induction ps generalizing m with
  | nil => rfl
  | cons q qs ih =>
    rw [createNodesFrom_cons]
    have hnd2 : (q.pid :: qs.map Process.pid).Nodup := hnd
    rw [List.nodup_cons] at hnd2
    have hq : q.pid ∉ NodeMap.keys m := hdis q (by simp)
    rw [ih _ hnd2.2, NodeMap.length_assign_of_not_mem m q.pid _ hq]
    · simp; omega
    · intro p hp hmem
      rcases (NodeMap.mem_keys_assign m q.pid _ p.pid).mp hmem with h | h
      · exact hnd2.1 (h ▸ List.mem_map_of_mem Process.pid hp)
      · exact hdis p (List.mem_cons_of_mem _ hp) h

theorem createNodes_sorted (ps : List Process) :
    (NodeMap.keys (createNodes ps)).Sorted (· < ·) :=
  createNodesFrom_sorted ps [] (by simp [NodeMap.keys])

theorem createNodes_nodup (ps : List Process) : (NodeMap.keys (createNodes ps)).Nodup :=
  (createNodes_sorted ps).nodup

theorem createNodes_entry (ps : List Process) (k : Int) (node : ProcessTreeNode)
    (h : (k, node) ∈ createNodes ps) : ∃ p ∈ ps, p.pid = k ∧ node = newNode p := by
  have hf := NodeMap.find_of_mem (createNodes_nodup ps) h
  rcases createNodesFrom_find_some ps [] k node hf with h1 | h1
  · exact h1
  · simp [NodeMap.find] at h1

theorem createNodes_length (ps : List Process) (hnd : (ps.map Process.pid).Nodup) :
    (createNodes ps).length = ps.length := by
  have := createNodesFrom_length ps [] hnd (by simp [NodeMap.keys])
  simpa [createNodes] using this

theorem createNodes_find (ps : List Process) (hnd : (ps.map Process.pid).Nodup)
    (p : Process) (hp : p ∈ ps) : NodeMap.find (createNodes ps) p.pid = some (newNode p) :=
  createNodesFrom_find ps [] hnd p hp

theorem createNodesFrom_find_ne_none (rs : List Process) (m : NodeMap) (r : Process)
    (hr : r ∈ rs) : NodeMap.find (createNodesFrom m rs) r.pid ≠ none := by
  induction rs generalizing m r with
  | nil => simp at hr
  | cons a as ih =>
    rw [createNodesFrom_cons]
    by_cases hr2 : r.pid ∈ as.map Process.pid
    · obtain ⟨r2, hr2m, hre⟩ := List.mem_map.mp hr2
      rw [← hre]
      exact ih _ r2 hr2m
    · rw [createNodesFrom_find_of_not_mem as _ _ hr2, NodeMap.find_assign]
      rcases List.mem_cons.mp hr with rfl | hr3
      · simp
      · exact absurd (List.mem_map_of_mem Process.pid hr3) hr2

theorem createNodes_mem_keys (ps : List Process) (k : Int) :
    k ∈ NodeMap.keys (createNodes ps) ↔ k ∈ ps.map Process.pid := by
  constructor
  · intro h
    have hne : NodeMap.find (createNodes ps) k ≠ none := fun e =>
      (NodeMap.find_eq_none_iff _ k).mp e h
    by_contra hk
    have := createNodesFrom_find_of_not_mem ps [] k hk
    exact hne (by rw [createNodes, this]; rfl)
  · intro h
    by_contra hk
    obtain ⟨p, hp, rfl⟩ := List.mem_map.mp h
    exact createNodesFrom_find_ne_none ps [] p hp ((NodeMap.find_eq_none_iff _ _).mpr hk)

/-! ## The second pass: children and roots -/

/-- The entry `e` after the entries `es` have been linked. -/
theorem linkFold_closed (es : List (Int × ProcessTreeNode)) (m : NodeMap) (roots : List Int) :
    es.foldl linkStep (m, roots) =
      (m.map (fun e => (e.1, { e.2 with children := e.2.children ++
          (es.filter (fun x => decide (x.2.process.ppid = e.1))).map Prod.fst })),
       roots ++ (es.filter (fun x => (NodeMap.find m x.2.process.ppid).isNone)).map Prod.fst) := by
  induction es generalizing m roots with
  | nil => simp
  | cons x xs ih =>
    rw [List.foldl_cons]
    cases hf : NodeMap.find m x.2.process.ppid with
    | none =>
      have hstep : linkStep (m, roots) x = (m, roots ++ [x.1]) := by
        simp [linkStep, hf]
      rw [hstep, ih]
      have hno : ∀ e ∈ m, ¬ x.2.process.ppid = e.1 := by
        intro e he heq
        have := (NodeMap.find_eq_none_iff m _).mp hf
        exact this (heq ▸ List.mem_map_of_mem Prod.fst he)
      congr 1
      · apply List.map_congr_left
        intro e he
        simp [List.filter, hno e he]
      · simp [List.filter, hf]
    | some parent =>
      have hstep : linkStep (m, roots) x
          = (NodeMap.modify m x.2.process.ppid
              (fun parent => { parent with children := parent.children ++ [x.1] }), roots) := by
        simp [linkStep, hf]
      rw [hstep, ih]
      congr 1
      · unfold NodeMap.modify
        rw [List.map_map]
        apply List.map_congr_left
        intro e _
        by_cases h : e.1 = x.2.process.ppid
        · simp [List.filter, h]
        · have h2 : ¬ x.2.process.ppid = e.1 := fun e2 => h e2.symm
          simp [List.filter, h, h2]
      · congr 1
        have hiff : ∀ k, (NodeMap.find (NodeMap.modify m x.2.process.ppid
            (fun parent => { parent with children := parent.children ++ [x.1] })) k).isNone
            = (NodeMap.find m k).isNone := by
          intro k
          rw [NodeMap.find_modify]
          by_cases hk : k = x.2.process.ppid
          · rw [if_pos hk]; cases NodeMap.find m k <;> rfl
          · rw [if_neg hk]
        simp [List.filter, hf, hiff]

theorem linkNodes_closed (m : NodeMap) :
    linkNodes m =
      (m.map (fun e => (e.1, { e.2 with children := e.2.children ++ linkedChildren m e.1 })),
       linkedRoots m) := by
  unfold linkNodes
  rw [linkFold_closed]
  simp [linkedChildren, linkedRoots]

/-! ## Parent chains -/

theorem ancestor_of_find_none (m : NodeMap) (i : Nat) (v : Int)
    (h : NodeMap.find m v = none) : ancestor m i v = none := by
  cases i with
  | zero => simp [ancestor, h]
  | succ i => simp [ancestor, h]

theorem ancestor_add (m : NodeMap) (i j : Nat) (v : Int) :
    ancestor m (i + j) v = (ancestor m i v).bind (ancestor m j) := by
  induction i generalizing v with
  | zero =>
    rw [Nat.zero_add]
    cases h : NodeMap.find m v with
    | none => simp [ancestor, h, ancestor_of_find_none m j v h]
    | some n => simp [ancestor, h]
  | succ i ih =>
    rw [show i + 1 + j = (i + j) + 1 by omega]
    cases h : NodeMap.find m v with
    | none => simp [ancestor, h]
    | some n => simp only [ancestor, h]; exact ih _

theorem ancestor_find (m : NodeMap) (i : Nat) (v w : Int) (h : ancestor m i v = some w) :
    ∃ n, NodeMap.find m w = some n := by
  induction i generalizing v with
  | zero =>
    cases hf : NodeMap.find m v with
    | none => simp [ancestor, hf] at h
    | some n =>
      simp [ancestor, hf] at h
      subst h
      exact ⟨n, hf⟩
  | succ i ih =>
    cases hf : NodeMap.find m v with
    | none => simp [ancestor, hf] at h
    | some n =>
      simp only [ancestor, hf] at h
      exact ih _ h

theorem ancestor_root_succ (m : NodeMap) (r : Int) (hr : IsRoot m r) (j : Nat) :
    ancestor m (j + 1) r = none := by
  obtain ⟨rn, h1, h2⟩ := hr
  simp only [ancestor, h1]
  exact ancestor_of_find_none m j _ h2

theorem ancestor_root_zero (m : NodeMap) (r : Int) (hr : IsRoot m r) :
    ancestor m 0 r = some r := by
  obtain ⟨rn, h1, _⟩ := hr
  simp [ancestor, h1]

theorem ancestor_prefix (m : NodeMap) (d i : Nat) (v r : Int) (h : ancestor m d v = some r)
    (hi : i ≤ d) : ∃ w, ancestor m i v = some w ∧ ancestor m (d - i) w = some r := by
  have hd : d = i + (d - i) := by omega
  rw [hd, ancestor_add] at h
  cases hw : ancestor m i v with
  | none => rw [hw] at h; simp at h
  | some w =>
    rw [hw] at h
    exact ⟨w, rfl, by simpa using h⟩

theorem ancestor_injective (m : NodeMap) (d i j : Nat) (v r w : Int) (hr : IsRoot m r)
    (h : ancestor m d v = some r) (hij : i < j) (hj : j ≤ d)
    (hi2 : ancestor m i v = some w) (hj2 : ancestor m j v = some w) : False := by
  obtain ⟨w1, e1, f1⟩ := ancestor_prefix m d i v r h (by omega)
  obtain ⟨w2, e2, f2⟩ := ancestor_prefix m d j v r h hj
  rw [hi2] at e1
  rw [hj2] at e2
  injection e1 with e1
  injection e2 with e2
  subst e1
  subst e2
  have hsplit : d - i = (d - j) + ((j - i - 1) + 1) := by omega
  rw [hsplit, ancestor_add, f2] at f1
  simp only [Option.some_bind] at f1
  rw [ancestor_root_succ m r hr] at f1
  cases f1

/-- A node below a root lies less deep than the map has entries. -/
theorem atDepth_lt_length (m : NodeMap) (v : Int) (d : Nat) (h : AtDepth m v d) :
    d < m.length := by
  obtain ⟨r, hr, hanc⟩ := h
  have hnd : ((List.range (d + 1)).map (fun i => (ancestor m i v).getD 0)).Nodup := by
    apply List.Nodup.map_on _ (List.nodup_range _)
    intro i hi j hj heq
    rw [List.mem_range] at hi hj
    obtain ⟨wi, ei, _⟩ := ancestor_prefix m d i v r hanc (by omega)
    obtain ⟨wj, ej, _⟩ := ancestor_prefix m d j v r hanc (by omega)
    rw [ei, ej] at heq
    simp only [Option.getD_some] at heq
    subst heq
    by_contra hne
    rcases Nat.lt_or_gt_of_ne hne with hlt | hgt
    · exact ancestor_injective m d i j v r wi hr hanc hlt (by omega) ei ej
    · exact ancestor_injective m d j i v r wi hr hanc hgt (by omega) ej ei
  have hsub : (List.range (d + 1)).map (fun i => (ancestor m i v).getD 0) ⊆ NodeMap.keys m := by
    intro x hx
    obtain ⟨i, hi, rfl⟩ := List.mem_map.mp hx
    rw [List.mem_range] at hi
    obtain ⟨wi, ei, _⟩ := ancestor_prefix m d i v r hanc (by omega)
    rw [ei]
    simp only [Option.getD_some]
    obtain ⟨n, hn⟩ := ancestor_find m i v wi ei
    by_contra hk
    rw [(NodeMap.find_eq_none_iff m wi).mpr hk] at hn
    cases hn
  have hlen := (hnd.subperm hsub).length_le
  simp [NodeMap.keys] at hlen
  omega

theorem atDepth_child (m : NodeMap) (hinv : LinkInv m) (v : Int) (d : Nat)
    (h : AtDepth m v d) (n : ProcessTreeNode) (hn : NodeMap.find m v = some n) (c : Int)
    (hc : c ∈ n.children) : AtDepth m c (d + 1) := by
  obtain ⟨r, hr, hanc⟩ := h
  obtain ⟨cn, hcn, hpp⟩ := hinv v n hn c hc
  refine ⟨r, hr, ?_⟩
  simp only [ancestor, hcn, hpp]
  exact hanc

theorem atDepth_root (m : NodeMap) (r : Int) (hr : IsRoot m r) : AtDepth m r 0 :=
  ⟨r, hr, ancestor_root_zero m r hr⟩

/-! ## The depth pass -/

theorem shape_modify_depth (m : NodeMap) (pid : Int) (d : Int) :
    shape (NodeMap.modify m pid (fun n => { n with depth := d })) = shape m := by
  unfold shape NodeMap.modify
  rw [List.map_map]
  apply List.map_congr_left
  intro e _
  by_cases h : e.1 = pid <;> simp [h]

theorem find_of_shape {m m2 : NodeMap} (h : shape m = shape m2) (k : Int) :
    (NodeMap.find m k).map (fun n => (n.process, n.children))
      = (NodeMap.find m2 k).map (fun n => (n.process, n.children)) := by
  induction m generalizing m2 with
  | nil =>
    cases m2 with
    | nil => rfl
    | cons e es => simp [shape] at h
  | cons e es ih =>
    cases m2 with
    | nil => simp [shape] at h
    | cons e2 es2 =>
      obtain ⟨k1, n1⟩ := e
      obtain ⟨k2, n2⟩ := e2
      have h' : (k1, n1.process, n1.children) :: shape es
          = (k2, n2.process, n2.children) :: shape es2 := h
      injection h' with hhead htail
      injection hhead with hk hrest
      subst hk
      by_cases hkk : k1 = k
      · simp [NodeMap.find, hkk, hrest]
      · simp only [NodeMap.find, if_neg hkk]
        exact ih htail

theorem find_some_of_shape {m m2 : NodeMap} (h : shape m = shape m2) {k : Int}
    {n : ProcessTreeNode} (hn : NodeMap.find m k = some n) :
    ∃ n2, NodeMap.find m2 k = some n2 ∧ n2.process = n.process ∧ n2.children = n.children := by
  have := find_of_shape h k
  rw [hn] at this
  cases h2 : NodeMap.find m2 k with
  | none => rw [h2] at this; simp at this
  | some n2 =>
    rw [h2] at this
    simp only [Option.map_some', Option.some.injEq, Prod.mk.injEq] at this
    exact ⟨n2, rfl, this.1.symm, this.2.symm⟩

theorem find_none_of_shape {m m2 : NodeMap} (h : shape m = shape m2) {k : Int}
    (hn : NodeMap.find m k = none) : NodeMap.find m2 k = none := by
  have := find_of_shape h k
  rw [hn] at this
  cases h2 : NodeMap.find m2 k with
  | none => rfl
  | some n2 => rw [h2] at this; simp at this

theorem length_of_shape {m m2 : NodeMap} (h : shape m = shape m2) : m.length = m2.length := by
  have := congrArg List.length h
  simpa [shape] using this

theorem linkInv_of_shape {m m2 : NodeMap} (h : shape m = shape m2) (hinv : LinkInv m) :
    LinkInv m2 := by
  intro k n2 hn2 c hc
  obtain ⟨n, hn, _, hch⟩ := find_some_of_shape h.symm hn2
  obtain ⟨cn, hcn, hpp⟩ := hinv k n hn c (hch ▸ hc)
  obtain ⟨cn2, hcn2, hp2, _⟩ := find_some_of_shape h hcn
  exact ⟨cn2, hcn2, by rw [hp2, hpp]⟩

theorem isRoot_of_shape {m m2 : NodeMap} (h : shape m = shape m2) {r : Int}
    (hr : IsRoot m r) : IsRoot m2 r := by
  obtain ⟨rn, h1, h2⟩ := hr
  obtain ⟨rn2, h3, hp, _⟩ := find_some_of_shape h h1
  exact ⟨rn2, h3, by rw [hp]; exact find_none_of_shape h h2⟩

theorem ancestor_of_shape {m m2 : NodeMap} (h : shape m = shape m2) (i : Nat) (v : Int) :
    ancestor m2 i v = ancestor m i v := by
  induction i generalizing v with
  | zero =>
    cases hf : NodeMap.find m v with
    | none => simp [ancestor, hf, find_none_of_shape h hf]
    | some n =>
      obtain ⟨n2, hn2, _, _⟩ := find_some_of_shape h hf
      simp [ancestor, hf, hn2]
  | succ i ih =>
    cases hf : NodeMap.find m v with
    | none => simp [ancestor, hf, find_none_of_shape h hf]
    | some n =>
      obtain ⟨n2, hn2, hp, _⟩ := find_some_of_shape h hf
      simp only [ancestor, hf, hn2, hp]
      exact ih _

theorem atDepth_of_shape {m m2 : NodeMap} (h : shape m = shape m2) {v : Int} {d : Nat}
    (hd : AtDepth m v d) : AtDepth m2 v d := by
  obtain ⟨r, hr, hanc⟩ := hd
  exact ⟨r, isRoot_of_shape h hr, by rw [ancestor_of_shape h]; exact hanc⟩

/-- The depth pass returns on every node that lies below a root, when the bound on the
recursion depth is above the number of nodes; it changes depths only. -/
theorem buildTreeRecursive_some (fuel : Nat) :
    ∀ (m : NodeMap) (v : Int) (d : Nat) (depth : Int), LinkInv m → AtDepth m v d →
      m.length + 1 ≤ fuel + d →
      ∃ m2, buildTreeRecursive fuel m v depth = some m2 ∧ shape m2 = shape m := by
  induction fuel with
  | zero =>
    intro m v d depth _ hd hle
    have := atDepth_lt_length m v d hd
    omega
  | succ fuel ih =>
    intro m v d depth hinv hd hle
    unfold buildTreeRecursive
    cases hf : NodeMap.find m v with
    | none => exact ⟨m, rfl, rfl⟩
    | some node =>
      dsimp only
      have hkids : ∀ c ∈ node.children, AtDepth m c (d + 1) :=
        fun c hc => atDepth_child m hinv v d hd node hf c hc
      have hloop : ∀ (cs : List Int), (∀ c ∈ cs, AtDepth m c (d + 1)) →
          ∀ acc : NodeMap, shape acc = shape m →
          ∃ m2, cs.foldlM (fun acc child => buildTreeRecursive fuel acc child (depth + 1)) acc
            = some m2 ∧ shape m2 = shape m := by
        intro cs
        induction cs with
        | nil => intro _ acc hacc; exact ⟨acc, rfl, hacc⟩
        | cons c cs ihc =>
          intro hcs acc hacc
          obtain ⟨m1, hm1, hs1⟩ := ih acc c (d + 1) (depth + 1)
            (linkInv_of_shape hacc.symm hinv)
            (atDepth_of_shape hacc.symm (hcs c (by simp)))
            (by rw [length_of_shape hacc]; omega)
          obtain ⟨m2, hm2, hs2⟩ := ihc (fun x hx => hcs x (by simp [hx])) m1 (hs1.trans hacc)
          refine ⟨m2, ?_, hs2⟩
          rw [List.foldlM_cons, hm1]
          exact hm2
      exact hloop node.children hkids _ (shape_modify_depth m v depth)

theorem buildTreeRecursive_shape (fuel : Nat) :
    ∀ (m : NodeMap) (v : Int) (depth : Int) (m2 : NodeMap),
      buildTreeRecursive fuel m v depth = some m2 → shape m2 = shape m := by
  induction fuel with
  | zero => intro m v depth m2 h; simp [buildTreeRecursive] at h
  | succ fuel ih =>
    intro m v depth m2 h
    unfold buildTreeRecursive at h
    cases hf : NodeMap.find m v with
    | none => rw [hf] at h; injection h with h; rw [← h]
    | some node =>
      rw [hf] at h
      dsimp only at h
      have hloop : ∀ (cs : List Int) (acc res : NodeMap),
          cs.foldlM (fun acc child => buildTreeRecursive fuel acc child (depth + 1)) acc
            = some res → shape res = shape acc := by
        intro cs
        induction cs with
        | nil => intro acc res hr; simp at hr; rw [hr]
        | cons c cs ihc =>
          intro acc res hr
          rw [List.foldlM_cons] at hr
          cases h1 : buildTreeRecursive fuel acc c (depth + 1) with
          | none => rw [h1] at hr; cases hr
          | some m1 =>
            rw [h1] at hr
            exact (ihc m1 res hr).trans (ih acc c (depth + 1) m1 h1)
      exact (hloop _ _ _ h).trans (shape_modify_depth m v depth)

theorem rootsLoop_shape (fuel : Nat) (rs : List Int) (acc res : NodeMap)
    (h : rs.foldlM (fun acc root => buildTreeRecursive fuel acc root 0) acc = some res) :
    shape res = shape acc := by
  induction rs generalizing acc with
  | nil => simp at h; rw [h]
  | cons r rs ih =>
    rw [List.foldlM_cons] at h
    cases h1 : buildTreeRecursive fuel acc r 0 with
    | none => rw [h1] at h; cases h
    | some m1 =>
      rw [h1] at h
      exact (ih m1 h).trans (buildTreeRecursive_shape fuel acc r 0 m1 h1)

theorem rootsLoop_some (fuel : Nat) (m : NodeMap) (hinv : LinkInv m)
    (hfuel : m.length + 1 ≤ fuel) (rs : List Int) (hrs : ∀ r ∈ rs, IsRoot m r)
    (acc : NodeMap) (hacc : shape acc = shape m) :
    ∃ res, rs.foldlM (fun acc root => buildTreeRecursive fuel acc root 0) acc = some res := by
  induction rs generalizing acc with
  | nil => exact ⟨acc, rfl⟩
  | cons r rs ih =>
    obtain ⟨m1, hm1, hs1⟩ := buildTreeRecursive_some fuel acc r 0 0
      (linkInv_of_shape hacc.symm hinv)
      (atDepth_of_shape hacc.symm (atDepth_root m r (hrs r (by simp))))
      (by rw [length_of_shape hacc]; omega)
    obtain ⟨res, hres⟩ := ih (fun x hx => hrs x (by simp [hx])) m1 (hs1.trans hacc)
    exact ⟨res, by rw [List.foldlM_cons, hm1]; exact hres⟩

/-- What `buildTree` returns, when it returns. -/
theorem buildTree_eq (fuel : Nat) (ps : List Process) (t : ProcessTree)
    (h : buildTree fuel ps = some t) :
    ∃ m3, shape m3 = shape (linkedMap (createNodes ps)) ∧
      t = { nodeMap := m3.map sortEntry, roots := linkedRoots (createNodes ps) } := by
  unfold buildTree at h
  rw [linkNodes_closed] at h
  dsimp only at h
  split at h
  · cases h
  · rename_i m3 hm3
    injection h with h
    exact ⟨m3, rootsLoop_shape fuel _ _ _ hm3, h.symm⟩

theorem NodeMap.length_assign_le (m : NodeMap) (pid : Int) (node : ProcessTreeNode) :
    (NodeMap.assign m pid node).length ≤ m.length + 1 := by
  induction m with
  | nil => simp [NodeMap.assign]
  | cons e rest ih =>
    obtain ⟨k0, n0⟩ := e
    unfold NodeMap.assign
    by_cases h1 : pid < k0
    · rw [if_pos h1]; simp
    · rw [if_neg h1]
      by_cases h2 : pid = k0
      · rw [if_pos h2]; simp
      · rw [if_neg h2]; simp; omega

theorem createNodesFrom_length_le (ps : List Process) (m : NodeMap) :
    (createNodesFrom m ps).length ≤ m.length + ps.length := by
  induction ps generalizing m with
  | nil => simp [createNodesFrom]
  | cons q qs ih =>
    rw [createNodesFrom_cons]
    have h1 := ih (NodeMap.assign m q.pid (newNode q))
    have h2 := NodeMap.length_assign_le m q.pid (newNode q)
    simp only [List.length_cons]
    omega

theorem createNodes_length_le (ps : List Process) : (createNodes ps).length ≤ ps.length := by
  have := createNodesFrom_length_le ps []
  simpa [createNodes] using this

theorem createNodes_children (ps : List Process) (e : Int × ProcessTreeNode)
    (h : e ∈ createNodes ps) : e.2.children = [] ∧ e.2.process.pid = e.1 := by
  obtain ⟨k, n⟩ := e
  obtain ⟨p, _, hk, hn⟩ := createNodes_entry ps k n h
  subst hn
  exact ⟨rfl, hk⟩

theorem NodeMap.find_map_val (m : NodeMap) (g : Int → ProcessTreeNode → ProcessTreeNode)
    (k : Int) :
    NodeMap.find (m.map (fun e => (e.1, g e.1 e.2))) k = (NodeMap.find m k).map (g k) := by
  induction m with
  | nil => rfl
  | cons e rest ih =>
    obtain ⟨k0, n0⟩ := e
    by_cases h : k0 = k
    · simp [NodeMap.find, h]
    · simp only [List.map_cons, NodeMap.find, if_neg h]
      exact ih

theorem find_linkedMap (m : NodeMap) (k : Int) :
    NodeMap.find (linkedMap m) k
      = (NodeMap.find m k).map
          (fun n => { n with children := n.children ++ linkedChildren m k }) :=
  NodeMap.find_map_val m (fun k n => { n with children := n.children ++ linkedChildren m k }) k

theorem mem_linkedChildren (m : NodeMap) (k c : Int) :
    c ∈ linkedChildren m k ↔ ∃ n, (c, n) ∈ m ∧ n.process.ppid = k := by
  unfold linkedChildren
  simp only [List.mem_map, List.mem_filter, decide_eq_true_eq]
  constructor
  · rintro ⟨⟨c2, n⟩, ⟨hmem, hpp⟩, rfl⟩
    exact ⟨n, hmem, hpp⟩
  · rintro ⟨n, hmem, hpp⟩
    exact ⟨(c, n), ⟨hmem, hpp⟩, rfl⟩

theorem mem_linkedRoots (m : NodeMap) (r : Int) :
    r ∈ linkedRoots m ↔ ∃ n, (r, n) ∈ m ∧ NodeMap.find m n.process.ppid = none := by
  unfold linkedRoots
  simp only [List.mem_map, List.mem_filter, Option.isNone_iff_eq_none]
  constructor
  · rintro ⟨⟨c2, n⟩, ⟨hmem, hpp⟩, rfl⟩
    exact ⟨n, hmem, hpp⟩
  · rintro ⟨n, hmem, hpp⟩
    exact ⟨(r, n), ⟨hmem, hpp⟩, rfl⟩

theorem linkInv_linkedMap (m : NodeMap) (hnd : (NodeMap.keys m).Nodup)
    (hnew : ∀ e ∈ m, e.2.children = []) : LinkInv (linkedMap m) := by
  intro k n hn c hc
  rw [find_linkedMap] at hn
  cases h1 : NodeMap.find m k with
  | none => rw [h1] at hn; cases hn
  | some n1 =>
    rw [h1] at hn
    simp only [Option.map_some', Option.some.injEq] at hn
    subst hn
    have hch : n1.children = [] := hnew (k, n1) (NodeMap.mem_of_find h1)
    simp only [hch, List.nil_append] at hc
    obtain ⟨cn, hmem, hpp⟩ := (mem_linkedChildren m k c).mp hc
    refine ⟨{ cn with children := cn.children ++ linkedChildren m c }, ?_, hpp⟩
    rw [find_linkedMap, NodeMap.find_of_mem hnd hmem]
    rfl

theorem isRoot_linkedRoots (m : NodeMap) (hnd : (NodeMap.keys m).Nodup) (r : Int)
    (hr : r ∈ linkedRoots m) : IsRoot (linkedMap m) r := by
  obtain ⟨n, hmem, hpp⟩ := (mem_linkedRoots m r).mp hr
  refine ⟨{ n with children := n.children ++ linkedChildren m r }, ?_, ?_⟩
  · rw [find_linkedMap, NodeMap.find_of_mem hnd hmem]
    rfl
  · rw [find_linkedMap]
    show Option.map _ (NodeMap.find m n.process.ppid) = none
    rw [hpp]
    rfl

/-- The depth pass of `buildTree` returns on every process list: a bound of one more than
the number of processes is enough. -/
theorem buildTree_some (fuel : Nat) (ps : List Process) (hfuel : ps.length + 1 ≤ fuel) :
    ∃ t, buildTree fuel ps = some t := by
  have hnd := createNodes_nodup ps
  have hnew : ∀ e ∈ createNodes ps, e.2.children = [] :=
    fun e he => (createNodes_children ps e he).1
  have hlen : (linkedMap (createNodes ps)).length + 1 ≤ fuel := by
    have := createNodes_length_le ps
    simp only [linkedMap, List.length_map]
    omega
  obtain ⟨res, hres⟩ := rootsLoop_some fuel (linkedMap (createNodes ps))
    (linkInv_linkedMap _ hnd hnew) hlen (linkedRoots (createNodes ps))
    (fun r hr => isRoot_linkedRoots _ hnd r hr) (linkedMap (createNodes ps)) rfl
  unfold buildTree
  rw [linkNodes_closed]
  dsimp only
  have hres2 : List.foldlM (fun acc root => buildTreeRecursive fuel acc root 0)
      (List.map (fun e => (e.1, { e.2 with children := e.2.children ++ linkedChildren (createNodes ps) e.1 }))
        (createNodes ps)) (linkedRoots (createNodes ps)) = some res := hres
  rw [hres2]
  exact ⟨_, rfl⟩

/-! ## Every process is attached once -/

theorem sum_ite_eq_of_nodup (K : List Int) (hK : K.Nodup) (a : Int) :
    (K.map (fun k => if a = k then 1 else 0)).sum = if a ∈ K then 1 else 0 := by
  induction K with
  | nil => simp
  | cons k ks ih =>
    rw [List.nodup_cons] at hK
    simp only [List.map_cons, List.sum_cons, ih hK.2, List.mem_cons]
    by_cases h : a = k
    · subst h
      simp [hK.1]
    · simp [h]

theorem sum_filter_keys (K : List Int) (hK : K.Nodup) (X : List (Int × ProcessTreeNode)) :
    (K.map (fun k => (X.filter (fun x => decide (x.2.process.ppid = k))).length)).sum
      = (X.filter (fun x => decide (x.2.process.ppid ∈ K))).length := by
  induction X with
  | nil => simp
  | cons x xs ih =>
    have hstep : ∀ k, ((x :: xs).filter (fun x => decide (x.2.process.ppid = k))).length
        = (if x.2.process.ppid = k then 1 else 0)
          + (xs.filter (fun x => decide (x.2.process.ppid = k))).length := by
      intro k
      by_cases h : x.2.process.ppid = k
      · simp [List.filter, h]; omega
      · simp [List.filter, h]
    simp only [hstep]
    rw [List.sum_map_add, ih, sum_ite_eq_of_nodup K hK]
    by_cases h : x.2.process.ppid ∈ K
    · simp [List.filter, h]; omega
    · simp [List.filter, h]

theorem linked_count (m : NodeMap) (hnd : (NodeMap.keys m).Nodup) :
    (m.map (fun e => (linkedChildren m e.1).length)).sum + (linkedRoots m).length = m.length := by
  have h1 : (m.map (fun e => (linkedChildren m e.1).length))
      = (NodeMap.keys m).map
          (fun k => (m.filter (fun x => decide (x.2.process.ppid = k))).length) := by
    simp [NodeMap.keys, linkedChildren, List.map_map, Function.comp_def]
  rw [h1, sum_filter_keys _ hnd m]
  have h2 : (linkedRoots m).length
      = (m.filter (fun x => !decide (x.2.process.ppid ∈ NodeMap.keys m))).length := by
    unfold linkedRoots
    rw [List.length_map]
    congr 1
    apply List.filter_congr
    intro x _
    cases hf : NodeMap.find m x.2.process.ppid with
    | none => simp [(NodeMap.find_eq_none_iff m _).mp hf]
    | some n =>
      have : x.2.process.ppid ∈ NodeMap.keys m := by
        by_contra hc
        rw [(NodeMap.find_eq_none_iff m _).mpr hc] at hf
        cases hf
      simp [this]
  rw [h2]
  exact (List.length_eq_length_filter_add _).symm

theorem sum_children_of_shape {m m2 : NodeMap} (h : shape m = shape m2) :
    (m.map (fun e => e.2.children.length)).sum = (m2.map (fun e => e.2.children.length)).sum := by
  have h1 : ∀ x : NodeMap, x.map (fun e => e.2.children.length)
      = (shape x).map (fun s => s.2.2.length) := by
    intro x
    simp [shape, List.map_map, Function.comp_def]
  rw [h1, h1, h]

/-- The count of `buildTree`, for any bound under which it returns. -/
theorem buildTree_count (fuel : Nat) (ps : List Process) (t : ProcessTree)
    (h : buildTree fuel ps = some t) :
    childCount t + t.roots.length = (createNodes ps).length := by
  obtain ⟨m3, hshape, rfl⟩ := buildTree_eq fuel ps t h
  have hnew : ∀ e ∈ createNodes ps, e.2.children = [] :=
    fun e he => (createNodes_children ps e he).1
  have h1 : childCount { nodeMap := m3.map sortEntry, roots := linkedRoots (createNodes ps) }
      = (m3.map (fun e => e.2.children.length)).sum := by
    simp [childCount, sortEntry, sortChildren, List.map_map, Function.comp_def,
      List.length_insertionSort]
  have h2 : ((linkedMap (createNodes ps)).map (fun e => e.2.children.length)).sum
      = ((createNodes ps).map (fun e => (linkedChildren (createNodes ps) e.1).length)).sum := by
    unfold linkedMap
    rw [List.map_map]
    congr 1
    apply List.map_congr_left
    intro e he
    simp [hnew e he]
  rw [h1, sum_children_of_shape hshape, h2]
  exact linked_count _ (createNodes_nodup ps)

theorem keys_of_shape {m m2 : NodeMap} (h : shape m = shape m2) :
    NodeMap.keys m = NodeMap.keys m2 := by
  have h1 : ∀ x : NodeMap, NodeMap.keys x = (shape x).map Prod.fst := by
    intro x
    simp [shape, NodeMap.keys, List.map_map, Function.comp_def]
  rw [h1, h1, h]

theorem keys_linkedMap (m : NodeMap) : NodeMap.keys (linkedMap m) = NodeMap.keys m := by
  simp [linkedMap, NodeMap.keys, List.map_map, Function.comp_def]

theorem keys_map_sortEntry (m : NodeMap) : NodeMap.keys (m.map sortEntry) = NodeMap.keys m := by
  simp [sortEntry, NodeMap.keys, List.map_map, Function.comp_def]

theorem find_map_sortEntry (m : NodeMap) (k : Int) :
    NodeMap.find (m.map sortEntry) k
      = (NodeMap.find m k).map (fun n => { n with children := sortChildren n.children }) :=
  NodeMap.find_map_val m (fun _ n => { n with children := sortChildren n.children }) k

/-- The nodes of the tree `buildTree` returns: the keys are those of the first pass, and the
node under a key holds the process stored in the first pass and, sorted, the children
linked in the second. -/
theorem buildTree_nodes (fuel : Nat) (ps : List Process) (t : ProcessTree)
    (h : buildTree fuel ps = some t) :
    t.roots = linkedRoots (createNodes ps) ∧
    NodeMap.keys t.nodeMap = NodeMap.keys (createNodes ps) ∧
    ∀ k node, NodeMap.find t.nodeMap k = some node →
      ∃ n1, NodeMap.find (createNodes ps) k = some n1 ∧ node.process = n1.process ∧
        node.children = sortChildren (linkedChildren (createNodes ps) k) := by
  obtain ⟨m3, hshape, rfl⟩ := buildTree_eq fuel ps t h
  refine ⟨rfl, ?_, ?_⟩
  · show NodeMap.keys (m3.map sortEntry) = _
    rw [keys_map_sortEntry, keys_of_shape hshape, keys_linkedMap]
  · intro k node hfind
    have hfind2 : NodeMap.find (m3.map sortEntry) k = some node := hfind
    rw [find_map_sortEntry] at hfind2
    cases h3 : NodeMap.find m3 k with
    | none => rw [h3] at hfind2; cases hfind2
    | some n3 =>
      rw [h3] at hfind2
      simp only [Option.map_some', Option.some.injEq] at hfind2
      obtain ⟨n2, hn2, hp2, hc2⟩ := find_some_of_shape hshape h3
      rw [find_linkedMap] at hn2
      cases h1 : NodeMap.find (createNodes ps) k with
      | none => rw [h1] at hn2; cases hn2
      | some n1 =>
        rw [h1] at hn2
        simp only [Option.map_some', Option.some.injEq] at hn2
        have hnew := (createNodes_children ps (k, n1) (NodeMap.mem_of_find h1)).1
        refine ⟨n1, rfl, ?_, ?_⟩
        · rw [← hfind2, ← hp2, ← hn2]
        · rw [← hfind2]
          show sortChildren n3.children = _
          rw [← hc2, ← hn2]
          have hnew2 : n1.children = [] := hnew
          simp only [hnew2, List.nil_append]

theorem createNodes_mem_iff (ps : List Process) (hnd : (ps.map Process.pid).Nodup)
    (p : Process) (hp : p ∈ ps) (n : ProcessTreeNode) :
    (p.pid, n) ∈ createNodes ps ↔ n = newNode p := by
  constructor
  · intro h
    have h1 := NodeMap.find_of_mem (createNodes_nodup ps) h
    rw [createNodes_find ps hnd p hp] at h1
    injection h1 with h1
    exact h1.symm
  · rintro rfl
    exact NodeMap.mem_of_find (createNodes_find ps hnd p hp)

theorem mem_linkedChildren_createNodes (ps : List Process) (hnd : (ps.map Process.pid).Nodup)
    (p : Process) (hp : p ∈ ps) (k : Int) :
    p.pid ∈ linkedChildren (createNodes ps) k ↔ k = p.ppid := by
  rw [mem_linkedChildren]
  constructor
  · rintro ⟨n, hmem, hpp⟩
    rw [(createNodes_mem_iff ps hnd p hp n).mp hmem] at hpp
    exact hpp.symm
  · intro hk
    exact ⟨newNode p, (createNodes_mem_iff ps hnd p hp _).mpr rfl, hk.symm⟩

theorem mem_linkedRoots_createNodes (ps : List Process) (hnd : (ps.map Process.pid).Nodup)
    (p : Process) (hp : p ∈ ps) :
    p.pid ∈ linkedRoots (createNodes ps) ↔ ∀ q ∈ ps, q.pid ≠ p.ppid := by
  rw [mem_linkedRoots]
  have hkey : NodeMap.find (createNodes ps) p.ppid = none ↔ ∀ q ∈ ps, q.pid ≠ p.ppid := by
    rw [NodeMap.find_eq_none_iff, createNodes_mem_keys]
    simp only [List.mem_map, not_exists, not_and]
  constructor
  · rintro ⟨n, hmem, hpp⟩
    rw [(createNodes_mem_iff ps hnd p hp n).mp hmem] at hpp
    exact hkey.mp hpp
  · intro h
    exact ⟨newNode p, (createNodes_mem_iff ps hnd p hp _).mpr rfl, hkey.mpr h⟩

/-- Where `buildTree` attaches a process of a list with pairwise different pids. -/
theorem buildTree_links (fuel : Nat) (ps : List Process) (hnd : (ps.map Process.pid).Nodup)
    (t : ProcessTree) (h : buildTree fuel ps = some t) (p : Process) (hp : p ∈ ps) :
    (p.pid ∈ t.roots ↔ ∀ q ∈ ps, q.pid ≠ p.ppid) ∧
    (∀ k node, (k, node) ∈ t.nodeMap → (p.pid ∈ node.children ↔ k = p.ppid)) ∧
    (∀ q ∈ ps, q.pid = p.ppid →
      ∃ node, findProcess t p.ppid = some node ∧ node.process = q ∧
        p.pid ∈ node.children) := by
  obtain ⟨hroots, hkeys, hnodes⟩ := buildTree_nodes fuel ps t h
  have hndt : (NodeMap.keys t.nodeMap).Nodup := hkeys ▸ createNodes_nodup ps
  refine ⟨?_, ?_, ?_⟩
  · rw [hroots]
    exact mem_linkedRoots_createNodes ps hnd p hp
  · intro k node hmem
    obtain ⟨n1, _, _, hch⟩ := hnodes k node (NodeMap.find_of_mem hndt hmem)
    rw [hch]
    unfold sortChildren
    rw [List.mem_insertionSort]
    exact mem_linkedChildren_createNodes ps hnd p hp k
  · intro q hq hqp
    have hk : p.ppid ∈ NodeMap.keys t.nodeMap := by
      rw [hkeys, createNodes_mem_keys]
      exact hqp ▸ List.mem_map_of_mem Process.pid hq
    cases hf : NodeMap.find t.nodeMap p.ppid with
    | none => exact absurd hk ((NodeMap.find_eq_none_iff _ _).mp hf)
    | some node =>
      obtain ⟨n1, hn1, hproc, hch⟩ := hnodes p.ppid node hf
      have hq1 := createNodes_find ps hnd q hq
      rw [hqp, hn1] at hq1
      injection hq1 with hq1
      refine ⟨node, hf, ?_, ?_⟩
      · rw [hproc, hq1]; rfl
      · rw [hch]
        unfold sortChildren
        rw [List.mem_insertionSort]
        exact (mem_linkedChildren_createNodes ps hnd p hp p.ppid).mpr rfl

theorem attached_length (t : ProcessTree) :
    (t.roots ++ t.nodeMap.flatMap (fun e => e.2.children)).length
      = childCount t + t.roots.length := by
  have h : ∀ m : NodeMap, (m.flatMap (fun e => e.2.children)).length
      = (m.map (fun e => e.2.children.length)).sum := by
    intro m
    induction m with
    | nil => rfl
    | cons e es ih =>
      simp only [List.flatMap_cons, List.length_append, List.map_cons, List.sum_cons, ih]
  rw [List.length_append, h, childCount]
  omega

/-- C8. For a process list with pairwise different pids `buildTree` returns (a bound of
one more than the number of processes on the depth recursion is enough, also when parent
links form cycles), and in the tree it returns the children counts of all nodes and the
number of roots add up to the number of processes; the roots together with all the
children lists are a rearrangement of the pids, so every process is attached once. -/
theorem buildTree_attaches_each_once (ps : List Process) (hnd : (ps.map Process.pid).Nodup) :
    (∃ t, buildTree (ps.length + 1) ps = some t) ∧
    ∀ fuel t, buildTree fuel ps = some t →
      childCount t + t.roots.length = ps.length ∧
      (t.roots ++ t.nodeMap.flatMap (fun e => e.2.children)).Perm (ps.map Process.pid) := by
  refine ⟨buildTree_some _ ps (le_refl _), ?_⟩
  intro fuel t h
  have hcount : childCount t + t.roots.length = ps.length := by
    rw [buildTree_count fuel ps t h, createNodes_length ps hnd]
  refine ⟨hcount, ?_⟩
  have hsub : ps.map Process.pid ⊆ t.roots ++ t.nodeMap.flatMap (fun e => e.2.children) := by
    intro x hx
    obtain ⟨p, hp, rfl⟩ := List.mem_map.mp hx
    obtain ⟨hroot, _, hchild⟩ := buildTree_links fuel ps hnd t h p hp
    by_cases hpar : ∃ q ∈ ps, q.pid = p.ppid
    · obtain ⟨q, hq, hqp⟩ := hpar
      obtain ⟨node, hnode, _, hmem⟩ := hchild q hq hqp
      exact List.mem_append_right _
        (List.mem_flatMap.mpr ⟨(p.ppid, node), NodeMap.mem_of_find hnode, hmem⟩)
    · push_neg at hpar
      exact List.mem_append_left _ (hroot.mpr hpar)
  exact ((hnd.subperm hsub).perm_of_length_le
    (by rw [attached_length, hcount, List.length_map])).symm

/-- A root and two processes that name each other as parent. -/
theorem buildTree_attaches_each_once_witness :
    (∃ t, buildTree 4 [procOf 1 0, procOf 2 3, procOf 3 2] = some t) ∧
    ∀ fuel t, buildTree fuel [procOf 1 0, procOf 2 3, procOf 3 2] = some t →
      childCount t + t.roots.length = 3 ∧
      (t.roots ++ t.nodeMap.flatMap (fun e => e.2.children)).Perm [1, 2, 3] :=
  buildTree_attaches_each_once [procOf 1 0, procOf 2 3, procOf 3 2] (by decide)

/-- C9. For a process list with pairwise different pids `buildTree` returns, and in the
tree it returns a process is a root exactly when no process of the list has its parent id
as pid; it is among the children of a node exactly when the key of the node is its parent
id; and when its parent id is the pid of a process, the node found under the parent id
holds that parent process and has it among its children. -/
theorem buildTree_roots_and_children (ps : List Process)
    (hnd : (ps.map Process.pid).Nodup) :
    (∃ t, buildTree (ps.length + 1) ps = some t) ∧
    ∀ fuel t, buildTree fuel ps = some t → ∀ p ∈ ps,
      (p.pid ∈ t.roots ↔ ∀ q ∈ ps, q.pid ≠ p.ppid) ∧
      (∀ k node, (k, node) ∈ t.nodeMap → (p.pid ∈ node.children ↔ k = p.ppid)) ∧
      (∀ q ∈ ps, q.pid = p.ppid →
        ∃ node, findProcess t p.ppid = some node ∧ node.process = q ∧
          p.pid ∈ node.children) :=
  ⟨buildTree_some _ ps (le_refl _),
    fun fuel t h p hp => buildTree_links fuel ps hnd t h p hp⟩

/-- Three processes: 1 is a root, 50 its child, 99 the child of 50. -/
theorem buildTree_roots_and_children_witness :
    (∃ t, buildTree 4 [procOf 1 0, procOf 50 1, procOf 99 50] = some t) ∧
    ∀ fuel t, buildTree fuel [procOf 1 0, procOf 50 1, procOf 99 50] = some t →
      ∀ p ∈ [procOf 1 0, procOf 50 1, procOf 99 50],
        (p.pid ∈ t.roots ↔ ∀ q ∈ [procOf 1 0, procOf 50 1, procOf 99 50], q.pid ≠ p.ppid) ∧
        (∀ k node, (k, node) ∈ t.nodeMap → (p.pid ∈ node.children ↔ k = p.ppid)) ∧
        (∀ q ∈ [procOf 1 0, procOf 50 1, procOf 99 50], q.pid = p.ppid →
          ∃ node, findProcess t p.ppid = some node ∧ node.process = q ∧
            p.pid ∈ node.children) :=
  buildTree_roots_and_children [procOf 1 0, procOf 50 1, procOf 99 50] (by decide)

/-! ## The tree and the snapshot -/

theorem NodeMap.assign_perm (m : NodeMap) (pid : Int) (node : ProcessTreeNode)
    (h : pid ∉ NodeMap.keys m) : (NodeMap.assign m pid node).Perm ((pid, node) :: m) := by
  induction m with
  | nil => simp [NodeMap.assign]
  | cons e rest ih =>
    obtain ⟨k0, n0⟩ := e
    have hne : ¬ pid = k0 := fun e => h (by simp [NodeMap.keys, e])
    have hrest : pid ∉ NodeMap.keys rest :=
      fun e => h (by simp [NodeMap.keys] at e ⊢; exact Or.inr e)
    unfold NodeMap.assign
    by_cases h1 : pid < k0
    · rw [if_pos h1]
    · rw [if_neg h1, if_neg hne]
      exact ((ih hrest).cons (k0, n0)).trans (List.Perm.swap _ _ _)

theorem createNodesFrom_perm (ps : List Process) (m : NodeMap)
    (hnd : (ps.map Process.pid).Nodup) (hdis : ∀ p ∈ ps, p.pid ∉ NodeMap.keys m) :
    (createNodesFrom m ps).Perm (ps.map (fun p => (p.pid, newNode p)) ++ m) := by
  induction ps generalizing m with
  | nil => simp [createNodesFrom]
  | cons q qs ih =>
    rw [createNodesFrom_cons]
    have hnd2 : (q.pid :: qs.map Process.pid).Nodup := hnd
    rw [List.nodup_cons] at hnd2
    have hq : q.pid ∉ NodeMap.keys m := hdis q (by simp)
    have h1 := ih (NodeMap.assign m q.pid (newNode q)) hnd2.2 (by
      intro p hp hmem
      rcases (NodeMap.mem_keys_assign m q.pid _ p.pid).mp hmem with h | h
      · exact hnd2.1 (h ▸ List.mem_map_of_mem Process.pid hp)
      · exact hdis p (List.mem_cons_of_mem _ hp) h)
    refine h1.trans ?_
    have h2 := NodeMap.assign_perm m q.pid (newNode q) hq
    refine (List.Perm.append_left _ h2).trans ?_
    simp only [List.map_cons, List.cons_append]
    exact List.perm_middle

theorem createNodes_perm (ps : List Process) (hnd : (ps.map Process.pid).Nodup) :
    (createNodes ps).Perm (ps.map (fun p => (p.pid, newNode p))) := by
  have := createNodesFrom_perm ps [] hnd (by simp [NodeMap.keys])
  simpa [createNodes] using this

theorem sortChildren_linkedChildren (ps : List Process) (hnd : (ps.map Process.pid).Nodup)
    (v : Int) : sortChildren (linkedChildren (createNodes ps) v) = childPids ps v := by
  have hperm : (linkedChildren (createNodes ps) v).Perm
      ((ps.filter (fun x => decide (x.ppid = v))).map Process.pid) := by
    unfold linkedChildren
    have h1 := ((createNodes_perm ps hnd).filter
      (fun x => decide (x.2.process.ppid = v))).map Prod.fst
    refine h1.trans ?_
    rw [List.filter_map, List.map_map]
    exact List.Perm.of_eq rfl
  unfold sortChildren childPids
  exact List.eq_of_perm_of_sorted
    (((List.perm_insertionSort _ _).trans hperm).trans (List.perm_insertionSort _ _).symm)
    (List.sorted_insertionSort _ _) (List.sorted_insertionSort _ _)

/-- The tree `buildTree` returns holds the snapshot. -/
theorem buildTree_treeOf (fuel : Nat) (ps : List Process) (hnd : (ps.map Process.pid).Nodup)
    (t : ProcessTree) (h : buildTree fuel ps = some t) : TreeOf ps t.nodeMap := by
  obtain ⟨_, hkeys, hnodes⟩ := buildTree_nodes fuel ps t h
  refine ⟨?_, ?_, ?_⟩
  · intro v node hf
    obtain ⟨n1, hn1, hproc, hch⟩ := hnodes v node hf
    obtain ⟨p, hp, hpid, hn⟩ := createNodes_entry ps v n1 (NodeMap.mem_of_find hn1)
    refine ⟨by rw [hch, sortChildren_linkedChildren ps hnd], p, hp, hpid, ?_⟩
    rw [hproc, hn]
    rfl
  · intro p hp
    have hk : p.pid ∈ NodeMap.keys t.nodeMap := by
      rw [hkeys, createNodes_mem_keys]
      exact List.mem_map_of_mem Process.pid hp
    cases hf : NodeMap.find t.nodeMap p.pid with
    | none => exact absurd hk ((NodeMap.find_eq_none_iff _ _).mp hf)
    | some node =>
      obtain ⟨n1, hn1, hproc, _⟩ := hnodes p.pid node hf
      rw [createNodes_find ps hnd p hp] at hn1
      injection hn1 with hn1
      exact ⟨node, rfl, by rw [hproc, ← hn1]; rfl⟩
  · have : t.nodeMap.length = (createNodes ps).length := by
      have := congrArg List.length hkeys
      simpa [NodeMap.keys] using this
    rw [this, createNodes_length ps hnd]

theorem mem_childPids (ps : List Process) (v c : Int) :
    c ∈ childPids ps v ↔ ∃ x ∈ ps, x.pid = c ∧ x.ppid = v := by
  unfold childPids
  rw [List.mem_insertionSort]
  simp only [List.mem_map, List.mem_filter, decide_eq_true_eq]
  constructor
  · rintro ⟨x, ⟨hx, hpp⟩, rfl⟩
    exact ⟨x, hx, rfl, hpp⟩
  · rintro ⟨x, hx, rfl, hpp⟩
    exact ⟨x, ⟨hx, hpp⟩, rfl⟩

theorem TreeOf.process_eq {ps : List Process} {m : NodeMap} (ht : TreeOf ps m)
    {x : Process} (hx : x ∈ ps) {node : ProcessTreeNode}
    (hf : NodeMap.find m x.pid = some node) : node.process = x := by
  obtain ⟨node2, h2, hp2⟩ := ht.find_mem x hx
  rw [hf] at h2
  injection h2 with h2
  rw [h2, hp2]

theorem TreeOf.linkInv {ps : List Process} {m : NodeMap} (ht : TreeOf ps m) : LinkInv m := by
  intro k n hn c hc
  rw [(ht.find_some k n hn).1, mem_childPids] at hc
  obtain ⟨x, hx, hxc, hxp⟩ := hc
  obtain ⟨cn, hcn, hcp⟩ := ht.find_mem x hx
  exact ⟨cn, hxc ▸ hcn, by rw [hcp, hxp]⟩

theorem TreeOf.find_isSome_iff {ps : List Process} {m : NodeMap} (ht : TreeOf ps m) (v : Int) :
    (∃ node, NodeMap.find m v = some node) ↔ v ∈ ps.map Process.pid := by
  constructor
  · rintro ⟨node, hf⟩
    obtain ⟨_, p, hp, hpid, _⟩ := ht.find_some v node hf
    exact hpid ▸ List.mem_map_of_mem Process.pid hp
  · intro h
    obtain ⟨p, hp, rfl⟩ := List.mem_map.mp h
    obtain ⟨node, hn, _⟩ := ht.find_mem p hp
    exact ⟨node, hn⟩

theorem TreeOf.isParentLink_iff {ps : List Process} {m : NodeMap} (ht : TreeOf ps m)
    (c p : Int) :
    IsParentLink ps c p ↔
      ∃ cn, NodeMap.find m c = some cn ∧ cn.process.ppid = p ∧
        ∃ pn, NodeMap.find m p = some pn := by
  constructor
  · rintro ⟨x, hx, hxc, hxp, hp⟩
    obtain ⟨cn, hcn, hcp⟩ := ht.find_mem x hx
    exact ⟨cn, hxc ▸ hcn, by rw [hcp, hxp], (ht.find_isSome_iff p).mpr hp⟩
  · rintro ⟨cn, hcn, hpp, hpn⟩
    obtain ⟨_, x, hx, hxc, hxproc⟩ := ht.find_some c cn hcn
    exact ⟨x, hx, hxc, by rw [← hxproc, hpp], (ht.find_isSome_iff p).mp hpn⟩

/-- Parent chains in the map are the chains of parent links of the snapshot. -/
theorem TreeOf.ancestor_iff {ps : List Process} {m : NodeMap} (ht : TreeOf ps m)
    (c v : Int) :
    (∃ j, ancestor m (j + 1) c = some v) ↔ Relation.TransGen (IsParentLink ps) c v := by
  constructor
  · rintro ⟨j, hj⟩
    induction j generalizing c with
    | zero =>
      cases hf : NodeMap.find m c with
      | none => simp [ancestor, hf] at hj
      | some cn =>
        simp only [ancestor, hf] at hj
        cases hp : NodeMap.find m cn.process.ppid with
        | none => simp [hp] at hj
        | some pn =>
          simp [hp] at hj
          exact Relation.TransGen.single
            ((ht.isParentLink_iff c v).mpr ⟨cn, hf, hj, pn, hj ▸ hp⟩)
    | succ j ih =>
      cases hf : NodeMap.find m c with
      | none => simp [ancestor, hf] at hj
      | some cn =>
        have hj2 : ancestor m (j + 1) cn.process.ppid = some v := by
          have : ancestor m (j + 1 + 1) c = ancestor m (j + 1) cn.process.ppid := by
            simp only [ancestor, hf]
          rw [← this]; exact hj
        cases hp : NodeMap.find m cn.process.ppid with
        | none => rw [ancestor_of_find_none m _ _ hp] at hj2; cases hj2
        | some pn =>
          exact Relation.TransGen.head
            ((ht.isParentLink_iff c cn.process.ppid).mpr ⟨cn, hf, rfl, pn, hp⟩) (ih _ hj2)
  · intro h
    induction h using Relation.TransGen.head_induction_on with
    | base hr =>
      obtain ⟨cn, hcn, hpp, pn, hpn⟩ := (ht.isParentLink_iff _ v).mp hr
      exact ⟨0, by simp [ancestor, hcn, hpp, hpn]⟩
    | ih hr _ ihh =>
      obtain ⟨cn, hcn, hpp, _⟩ := (ht.isParentLink_iff _ _).mp hr
      obtain ⟨j, hj⟩ := ihh
      exact ⟨j + 1, by simp only [ancestor, hcn, hpp]; exact hj⟩

theorem atDepth_of_chain_end (m : NodeMap) (v : Int) (i : Nat)
    (hv : NodeMap.find m v ≠ none) (h : ancestor m i v = none) :
    ∃ d, d < i ∧ AtDepth m v d := by
  induction i with
  | zero =>
    cases hf : NodeMap.find m v with
    | none => exact absurd hf hv
    | some n => simp [ancestor, hf] at h
  | succ i ih =>
    cases ha : ancestor m i v with
    | none =>
      obtain ⟨d, hd, hat⟩ := ih ha
      exact ⟨d, by omega, hat⟩
    | some r =>
      rw [ancestor_add m i 1 v, ha] at h
      simp only [Option.some_bind] at h
      obtain ⟨rn, hrn⟩ := ancestor_find m i v r ha
      have hroot : NodeMap.find m rn.process.ppid = none := by
        cases hp : NodeMap.find m rn.process.ppid with
        | none => rfl
        | some pn => simp [ancestor, hrn, hp] at h
      exact ⟨i, by omega, r, ⟨rn, hrn, hroot⟩, ha⟩

/-- Without cycles every process lies at some depth below a root. -/
theorem TreeOf.atDepth_of_acyclic {ps : List Process} {m : NodeMap} (ht : TreeOf ps m)
    (hac : Acyclic ps) (v : Int)
    (hv : NodeMap.find m v ≠ none) : ∃ d, AtDepth m v d := by
  by_cases hex : ∃ i, ancestor m i v = none
  · obtain ⟨i, hi⟩ := hex
    obtain ⟨d, _, hd⟩ := atDepth_of_chain_end m v i hv hi
    exact ⟨d, hd⟩
  · exfalso
    push_neg at hex
    have hsome : ∀ i, ∃ w, ancestor m i v = some w := by
      intro i
      cases h : ancestor m i v with
      | none => exact absurd h (hex i)
      | some w => exact ⟨w, rfl⟩
    have hinj : ∀ i j, i < j → ancestor m i v ≠ ancestor m j v := by
      intro i j hij heq
      obtain ⟨w, hw⟩ := hsome i
      have hj : ancestor m j v = some w := heq ▸ hw
      have hsplit : j = i + ((j - i - 1) + 1) := by omega
      rw [hsplit, ancestor_add, hw] at hj
      simp only [Option.some_bind] at hj
      exact hac w ((ht.ancestor_iff w w).mp ⟨_, hj⟩)
    have hnodup : ((List.range (m.length + 1)).map (fun i => (ancestor m i v).getD 0)).Nodup := by
      apply List.Nodup.map_on _ (List.nodup_range _)
      intro i _ j _ heq
      obtain ⟨wi, ei⟩ := hsome i
      obtain ⟨wj, ej⟩ := hsome j
      rw [ei, ej] at heq
      simp only [Option.getD_some] at heq
      by_contra hne
      rcases Nat.lt_or_gt_of_ne hne with hlt | hgt
      · exact hinj i j hlt (by rw [ei, ej, heq])
      · exact hinj j i hgt (by rw [ei, ej, heq])
    have hsub : (List.range (m.length + 1)).map (fun i => (ancestor m i v).getD 0)
        ⊆ NodeMap.keys m := by
      intro x hx
      obtain ⟨i, _, rfl⟩ := List.mem_map.mp hx
      obtain ⟨wi, ei⟩ := hsome i
      rw [ei]
      simp only [Option.getD_some]
      obtain ⟨n, hn⟩ := ancestor_find m i v wi ei
      by_contra hk
      rw [(NodeMap.find_eq_none_iff m wi).mpr hk] at hn
      cases hn
    have hlen := (hnodup.subperm hsub).length_le
    simp [NodeMap.keys] at hlen

/-! ## Descendants -/

theorem atDepth_unique (m : NodeMap) (x : Int) (d1 d2 : Nat) (h1 : AtDepth m x d1)
    (h2 : AtDepth m x d2) : d1 = d2 := by
  have key : ∀ a b, a < b → AtDepth m x a → AtDepth m x b → False := by
    intro a b hab ha hb
    obtain ⟨ra, hra, ea⟩ := ha
    obtain ⟨rb, _, eb⟩ := hb
    have hsplit : b = a + ((b - a - 1) + 1) := by omega
    rw [hsplit, ancestor_add, ea] at eb
    simp only [Option.some_bind] at eb
    rw [ancestor_root_succ m ra hra] at eb
    cases eb
  by_contra hne
  rcases Nat.lt_or_gt_of_ne hne with h | h
  · exact key d1 d2 h h1 h2
  · exact key d2 d1 h h2 h1

theorem atDepth_of_ancestor (m : NodeMap) (x a : Int) (j d : Nat)
    (hj : ancestor m j x = some a) (ha : AtDepth m a d) : AtDepth m x (j + d) := by
  obtain ⟨r, hr, er⟩ := ha
  exact ⟨r, hr, by rw [ancestor_add, hj]; exact er⟩

theorem find_of_atDepth (m : NodeMap) (v : Int) (d : Nat) (h : AtDepth m v d) :
    ∃ node, NodeMap.find m v = some node := by
  obtain ⟨r, _, er⟩ := h
  cases hf : NodeMap.find m v with
  | none => rw [ancestor_of_find_none m d v hf] at er; cases er
  | some node => exact ⟨node, rfl⟩

theorem TreeOf.atDepth_childPids {ps : List Process} {m : NodeMap} (ht : TreeOf ps m)
    (v : Int) (d : Nat) (hd : AtDepth m v d) (c : Int) (hc : c ∈ childPids ps v) :
    AtDepth m c (d + 1) := by
  obtain ⟨node, hnode⟩ := find_of_atDepth m v d hd
  exact atDepth_child m ht.linkInv v d hd node hnode c ((ht.find_some v node hnode).1 ▸ hc)

theorem TreeOf.child_node {ps : List Process} {m : NodeMap} (ht : TreeOf ps m)
    (v c : Int) (hc : c ∈ childPids ps v) :
    ∃ cn, NodeMap.find m c = some cn ∧ cn.process.pid = c ∧ cn.process.ppid = v := by
  obtain ⟨x, hx, hxc, hxp⟩ := (mem_childPids ps v c).mp hc
  obtain ⟨cn, hcn, hcp⟩ := ht.find_mem x hx
  exact ⟨cn, hxc ▸ hcn, by rw [hcp, hxc], by rw [hcp, hxp]⟩

/-- The recursion of `getDescendants` returns the pre-order walk appended to what it was
given, when the bound on its depth is large enough for the depth of the node. -/
theorem getDescendantsRecursive_eq {ps : List Process} {m : NodeMap} (ht : TreeOf ps m)
    (fuel : Nat) :
    ∀ (v : Int) (d : Nat) (node : ProcessTreeNode) (acc : List Int),
      NodeMap.find m v = some node → AtDepth m v d → m.length + 1 ≤ fuel + d →
      getDescendantsRecursive fuel m node acc = some (acc ++ preorder fuel ps v) := by
  induction fuel with
  | zero =>
    intro v d node acc _ hd hle
    have := atDepth_lt_length m v d hd
    omega
  | succ fuel ih =>
    intro v d node acc hnode hd hle
    unfold getDescendantsRecursive
    rw [(ht.find_some v node hnode).1]
    have hloop : ∀ (cs : List Int), (∀ c ∈ cs, c ∈ childPids ps v) → ∀ acc : List Int,
        cs.foldlM
          (fun acc c =>
            match NodeMap.find m c with
            | none => some acc
            | some child => getDescendantsRecursive fuel m child (acc ++ [child.process.pid]))
          acc = some (acc ++ cs.flatMap (fun c => c :: preorder fuel ps c)) := by
      intro cs
      induction cs with
      | nil => intro _ acc; simp
      | cons c cs ihc =>
        intro hcs acc
        obtain ⟨cn, hcn, hpid, _⟩ := ht.child_node v c (hcs c (by simp))
        have hrec := ih c (d + 1) cn (acc ++ [cn.process.pid]) hcn
          (ht.atDepth_childPids v d hd c (hcs c (by simp))) (by omega)
        rw [List.foldlM_cons]
        simp only [hcn, hrec]
        rw [show (some (acc ++ [cn.process.pid] ++ preorder fuel ps c) >>= fun acc2 =>
            cs.foldlM
              (fun acc c =>
                match NodeMap.find m c with
                | none => some acc
                | some child =>
                  getDescendantsRecursive fuel m child (acc ++ [child.process.pid]))
              acc2)
          = cs.foldlM
              (fun acc c =>
                match NodeMap.find m c with
                | none => some acc
                | some child =>
                  getDescendantsRecursive fuel m child (acc ++ [child.process.pid]))
              (acc ++ [cn.process.pid] ++ preorder fuel ps c) from rfl]
        rw [ihc (fun x hx => hcs x (by simp [hx]))]
        simp [hpid]
    rw [hloop _ (fun c hc => hc)]
    rfl

theorem flatMap_congr_mem {α β : Type} (l : List α) (f g : α → List β)
    (h : ∀ a ∈ l, f a = g a) : l.flatMap f = l.flatMap g := by
  unfold List.flatMap
  rw [List.map_congr_left h]

theorem TreeOf.preorder_fuel {ps : List Process} {m : NodeMap} (ht : TreeOf ps m) (f1 : Nat) :
    ∀ (f2 : Nat) (v : Int) (d : Nat), AtDepth m v d → m.length + 1 ≤ f1 + d →
      m.length + 1 ≤ f2 + d → preorder f1 ps v = preorder f2 ps v := by
  induction f1 with
  | zero =>
    intro f2 v d hd h1 _
    have := atDepth_lt_length m v d hd
    omega
  | succ f1 ih =>
    intro f2 v d hd h1 h2
    cases f2 with
    | zero =>
      have := atDepth_lt_length m v d hd
      omega
    | succ f2 =>
      simp only [preorder]
      apply flatMap_congr_mem
      intro c hc
      rw [ih f2 c (d + 1) (ht.atDepth_childPids v d hd c hc) (by omega) (by omega)]

theorem TreeOf.ancestor_of_mem_preorder {ps : List Process} {m : NodeMap} (ht : TreeOf ps m)
    (f : Nat) : ∀ (v x : Int), (∃ node, NodeMap.find m v = some node) →
      x ∈ preorder f ps v → ∃ j, ancestor m (j + 1) x = some v := by
  induction f with
  | zero => intro v x _ hx; simp [preorder] at hx
  | succ f ih =>
    intro v x hv hx
    simp only [preorder, List.mem_flatMap, List.mem_cons] at hx
    obtain ⟨c, hc, hxc⟩ := hx
    obtain ⟨cn, hcn, _, hpp⟩ := ht.child_node v c hc
    obtain ⟨vn, hvn⟩ := hv
    have h1 : ancestor m 1 c = some v := by simp [ancestor, hcn, hpp, hvn]
    rcases hxc with rfl | hmem
    · exact ⟨0, h1⟩
    · obtain ⟨j, hj⟩ := ih c x ⟨cn, hcn⟩ hmem
      exact ⟨j + 1, by rw [ancestor_add m (j + 1) 1 x, hj]; exact h1⟩

theorem TreeOf.mem_preorder_of_ancestor {ps : List Process} {m : NodeMap} (ht : TreeOf ps m)
    (j : Nat) : ∀ (f : Nat) (v x : Int) (d : Nat), AtDepth m v d → m.length + 1 ≤ f + d →
      ancestor m (j + 1) x = some v → x ∈ preorder f ps v := by
  induction j with
  | zero =>
    intro f v x d hd hle hx
    have hlt := atDepth_lt_length m v d hd
    obtain ⟨f0, rfl⟩ : ∃ f0, f = f0 + 1 := ⟨f - 1, by omega⟩
    cases hf : NodeMap.find m x with
    | none => simp [ancestor, hf] at hx
    | some xn =>
      simp only [ancestor, hf] at hx
      have hpp : xn.process.ppid = v := by
        cases hp : NodeMap.find m xn.process.ppid with
        | none => simp [hp] at hx
        | some pn => simpa [hp] using hx
      obtain ⟨_, p, hp, hpx, hproc⟩ := ht.find_some x xn hf
      have hc : x ∈ childPids ps v :=
        (mem_childPids ps v x).mpr ⟨p, hp, hpx, by rw [← hproc, hpp]⟩
      simp only [preorder, List.mem_flatMap, List.mem_cons]
      exact ⟨x, hc, Or.inl rfl⟩
  | succ j ih =>
    intro f v x d hd hle hx
    have hlt := atDepth_lt_length m v d hd
    obtain ⟨f0, rfl⟩ : ∃ f0, f = f0 + 1 := ⟨f - 1, by omega⟩
    rw [ancestor_add m (j + 1) 1 x] at hx
    cases hc : ancestor m (j + 1) x with
    | none => rw [hc] at hx; cases hx
    | some c =>
      rw [hc] at hx
      simp only [Option.some_bind] at hx
      obtain ⟨cn, hcn⟩ := ancestor_find m (j + 1) x c hc
      simp only [ancestor, hcn] at hx
      have hpp : cn.process.ppid = v := by
        cases hp : NodeMap.find m cn.process.ppid with
        | none => simp [hp] at hx
        | some pn => simpa [hp] using hx
      obtain ⟨_, p, hp, hpx, hproc⟩ := ht.find_some c cn hcn
      have hcm : c ∈ childPids ps v :=
        (mem_childPids ps v c).mpr ⟨p, hp, hpx, by rw [← hproc, hpp]⟩
      have hrec := ih f0 c x (d + 1) (ht.atDepth_childPids v d hd c hcm) (by omega) hc
      simp only [preorder, List.mem_flatMap, List.mem_cons]
      exact ⟨c, hcm, Or.inr hrec⟩

theorem childPids_nodup (ps : List Process) (hnd : (ps.map Process.pid).Nodup) (v : Int) :
    (childPids ps v).Nodup := by
  unfold childPids
  rw [(List.perm_insertionSort _ _).nodup_iff]
  exact hnd.sublist (List.Sublist.map _ (List.filter_sublist _))

theorem TreeOf.preorder_nodup {ps : List Process} {m : NodeMap} (ht : TreeOf ps m)
    (hnd : (ps.map Process.pid).Nodup) (f : Nat) :
    ∀ (v : Int) (d : Nat), AtDepth m v d → (preorder f ps v).Nodup := by
  induction f with
  | zero => intro v d _; simp [preorder]
  | succ f ih =>
    intro v d hd
    simp only [preorder]
    rw [List.nodup_flatMap]
    constructor
    · intro c hc
      have hcd := ht.atDepth_childPids v d hd c hc
      obtain ⟨cn, hcn⟩ := find_of_atDepth m c (d + 1) hcd
      rw [List.nodup_cons]
      refine ⟨?_, ih c (d + 1) hcd⟩
      intro hmem
      obtain ⟨j, hj⟩ := ht.ancestor_of_mem_preorder f c c ⟨cn, hcn⟩ hmem
      have := atDepth_unique m c _ _ (atDepth_of_ancestor m c c (j + 1) (d + 1) hj hcd) hcd
      omega
    · refine List.Pairwise.imp_of_mem ?_ (childPids_nodup ps hnd v)
      intro a b ha hb hab
      have had := ht.atDepth_childPids v d hd a ha
      have hbd := ht.atDepth_childPids v d hd b hb
      obtain ⟨an, han⟩ := find_of_atDepth m a (d + 1) had
      obtain ⟨bn, hbn⟩ := find_of_atDepth m b (d + 1) hbd
      have hup : ∀ (c : Int) (cn : ProcessTreeNode), NodeMap.find m c = some cn →
          ∀ x, x ∈ c :: preorder f ps c → ∃ j, ancestor m j x = some c := by
        intro c cn hcn x hx
        rcases List.mem_cons.mp hx with rfl | hmem
        · exact ⟨0, by simp [ancestor, hcn]⟩
        · obtain ⟨j, hj⟩ := ht.ancestor_of_mem_preorder f c x ⟨cn, hcn⟩ hmem
          exact ⟨j + 1, hj⟩
      show List.Disjoint (a :: preorder f ps a) (b :: preorder f ps b)
      intro x hxa hxb
      obtain ⟨ja, hja⟩ := hup a an han x hxa
      obtain ⟨jb, hjb⟩ := hup b bn hbn x hxb
      have := atDepth_unique m x _ _ (atDepth_of_ancestor m x a ja (d + 1) hja had)
        (atDepth_of_ancestor m x b jb (d + 1) hjb hbd)
      have hjj : ja = jb := by omega
      rw [hjj, hjb] at hja
      injection hja with hja
      exact hab hja.symm

theorem acyclic_of_rank (ps : List Process) (rank : Int → Nat)
    (h : ∀ c p, IsParentLink ps c p → rank p < rank c) : Acyclic ps := by
  have key : ∀ c p, Relation.TransGen (IsParentLink ps) c p → rank p < rank c := by
    intro c p hcp
    induction hcp with
    | single hr => exact h _ _ hr
    | tail _ hr ih => exact lt_trans (h _ _ hr) ih
  intro v hv
  exact lt_irrefl _ (key v v hv)

theorem transGen_target_mem (ps : List Process) (c p : Int)
    (h : Relation.TransGen (IsParentLink ps) c p) : p ∈ ps.map Process.pid := by
  cases h with
  | single hr => obtain ⟨_, _, _, _, hp⟩ := hr; exact hp
  | tail _ hr => obtain ⟨_, _, _, _, hp⟩ := hr; exact hp

/-- C10. For a process list with pairwise different pids and acyclic parent links,
`buildTree` returns, and on the tree it returns `getDescendants` returns, for every pid and
every bound above the number of processes, the list `descendantsSpec`. That list holds
exactly the transitive children of the pid, each once and never the pid itself; for the
pid of a process it is the walk that visits the children in ascending pid order, each
child followed by its own list; for any other pid it is empty. -/
theorem getDescendants_preorder (ps : List Process) (hnd : (ps.map Process.pid).Nodup)
    (hac : Acyclic ps) :
    (∃ t, buildTree (ps.length + 1) ps = some t) ∧
    ∀ fuel t, buildTree fuel ps = some t → ∀ pid : Int,
      (∀ fuel2, ps.length + 1 ≤ fuel2 →
        getDescendants fuel2 t pid = some (descendantsSpec ps pid)) ∧
      (∀ c, c ∈ descendantsSpec ps pid ↔ Relation.TransGen (IsParentLink ps) c pid) ∧
      (descendantsSpec ps pid).Nodup ∧
      pid ∉ descendantsSpec ps pid ∧
      (pid ∈ ps.map Process.pid →
        descendantsSpec ps pid
          = (childPids ps pid).flatMap (fun c => c :: descendantsSpec ps c)) ∧
      (pid ∉ ps.map Process.pid → descendantsSpec ps pid = []) := by
  refine ⟨buildTree_some _ ps (le_refl _), ?_⟩
  intro fuel t hbuild pid
  have ht := buildTree_treeOf fuel ps hnd t hbuild
  have hlen := ht.length_eq
  have hmem : ∀ c, c ∈ descendantsSpec ps pid ↔ Relation.TransGen (IsParentLink ps) c pid := by
    intro c
    unfold descendantsSpec
    by_cases hp : pid ∈ ps.map Process.pid
    · rw [if_pos hp]
      obtain ⟨node, hnode⟩ := (ht.find_isSome_iff pid).mpr hp
      obtain ⟨d, hd⟩ := ht.atDepth_of_acyclic hac pid (by rw [hnode]; simp)
      rw [← ht.ancestor_iff c pid]
      constructor
      · exact ht.ancestor_of_mem_preorder _ pid c ⟨node, hnode⟩
      · rintro ⟨j, hj⟩
        exact ht.mem_preorder_of_ancestor j _ pid c d hd (by omega) hj
    · rw [if_neg hp]
      constructor
      · intro h; simp at h
      · intro h; exact absurd (transGen_target_mem ps c pid h) hp
  refine ⟨?_, hmem, ?_, ?_, ?_, ?_⟩
  · intro fuel2 hfuel2
    unfold getDescendants findProcess descendantsSpec
    by_cases hp : pid ∈ ps.map Process.pid
    · rw [if_pos hp]
      obtain ⟨node, hnode⟩ := (ht.find_isSome_iff pid).mpr hp
      obtain ⟨d, hd⟩ := ht.atDepth_of_acyclic hac pid (by rw [hnode]; simp)
      rw [hnode]
      dsimp only
      rw [getDescendantsRecursive_eq ht fuel2 pid d node [] hnode hd (by omega)]
      rw [ht.preorder_fuel fuel2 (ps.length + 1) pid d hd (by omega) (by omega)]
      rfl
    · rw [if_neg hp]
      have hnone : NodeMap.find t.nodeMap pid = none := by
        cases hf : NodeMap.find t.nodeMap pid with
        | none => rfl
        | some node => exact absurd ((ht.find_isSome_iff pid).mp ⟨node, hf⟩) hp
      rw [hnone]
  · unfold descendantsSpec
    by_cases hp : pid ∈ ps.map Process.pid
    · rw [if_pos hp]
      obtain ⟨node, hnode⟩ := (ht.find_isSome_iff pid).mpr hp
      obtain ⟨d, hd⟩ := ht.atDepth_of_acyclic hac pid (by rw [hnode]; simp)
      exact ht.preorder_nodup hnd _ pid d hd
    · rw [if_neg hp]
      exact List.nodup_nil
  · intro h
    exact hac pid ((hmem pid).mp h)
  · intro hp
    obtain ⟨node, hnode⟩ := (ht.find_isSome_iff pid).mpr hp
    obtain ⟨d, hd⟩ := ht.atDepth_of_acyclic hac pid (by rw [hnode]; simp)
    have hstep : descendantsSpec ps pid
        = (childPids ps pid).flatMap (fun c => c :: preorder ps.length ps c) := by
      unfold descendantsSpec
      rw [if_pos hp]
      rfl
    rw [hstep]
    apply flatMap_congr_mem
    intro c hc
    have hcp : c ∈ ps.map Process.pid := by
      obtain ⟨x, hx, hxc, _⟩ := (mem_childPids ps pid c).mp hc
      exact hxc ▸ List.mem_map_of_mem Process.pid hx
    unfold descendantsSpec
    rw [if_pos hcp]
    rw [ht.preorder_fuel ps.length (ps.length + 1) c (d + 1)
      (ht.atDepth_childPids pid d hd c hc) (by omega) (by omega)]
  · intro hp
    unfold descendantsSpec
    rw [if_neg hp]

/-- The chain 1, 50, 99: one root, and the descendants of 1 are 50 and 99 in this order. -/
theorem getDescendants_preorder_witness :
    (buildTree 4 [procOf 1 0, procOf 50 1, procOf 99 50]).map (fun t => t.roots) = some [1] ∧
    ∀ fuel t, buildTree fuel [procOf 1 0, procOf 50 1, procOf 99 50] = some t →
      getDescendants 4 t 1 = some [50, 99] ∧ getDescendants 4 t 7 = some [] :=
  have h := getDescendants_preorder [procOf 1 0, procOf 50 1, procOf 99 50] (by decide)
    (acyclic_of_rank _ Int.toNat (by
      rintro c p ⟨x, hx, rfl, rfl, _⟩
      simp only [List.mem_cons, List.mem_singleton, List.not_mem_nil, or_false] at hx
      rcases hx with rfl | rfl | rfl <;> decide))
  ⟨by decide, fun fuel t ht =>
    ⟨(h.2 fuel t ht 1).1 4 (by decide), (h.2 fuel t ht 7).1 4 (by decide)⟩⟩

/-! ## Display order -/

theorem linkedChildren_sublist (m : NodeMap) (k : Int) :
    (linkedChildren m k).Sublist (NodeMap.keys m) :=
  List.Sublist.map _ (List.filter_sublist _)

theorem linkedRoots_sublist (m : NodeMap) : (linkedRoots m).Sublist (NodeMap.keys m) :=
  List.Sublist.map _ (List.filter_sublist _)

theorem sortChildren_sorted_lt (cs : List Int) (h : cs.Nodup) :
    (sortChildren cs).Sorted (· < ·) := by
  unfold sortChildren
  exact (List.sorted_insertionSort (fun a b : Int => a ≤ b) cs).lt_of_le
    ((List.perm_insertionSort _ _).nodup_iff.mpr h)

/-- Two process lists that are rearrangements of each other, with pairwise different
pids, give the same map in the first pass. -/
theorem createNodes_perm_eq (ps ps2 : List Process) (hperm : ps.Perm ps2)
    (hnd : (ps.map Process.pid).Nodup) : createNodes ps2 = createNodes ps := by
  have hnd2 : (ps2.map Process.pid).Nodup := (hperm.map Process.pid).nodup_iff.mp hnd
  have hp : (createNodes ps2).Perm (createNodes ps) :=
    ((createNodes_perm ps2 hnd2).trans
      (hperm.symm.map (fun p => (p.pid, newNode p)))).trans (createNodes_perm ps hnd).symm
  have hanti : IsAntisymm (Int × ProcessTreeNode) (fun a b => a.1 < b.1 ∨ a = b) :=
    ⟨fun a b h1 h2 => by
      rcases h1 with h1 | h1
      · rcases h2 with h2 | h2
        · exact absurd (lt_trans h1 h2) (lt_irrefl _)
        · exact h2.symm
      · exact h1⟩
  have hs : ∀ qs : List Process,
      (createNodes qs).Sorted (fun a b => a.1 < b.1 ∨ a = b) := by
    intro qs
    have := createNodes_sorted qs
    unfold NodeMap.keys at this
    rw [List.Sorted, List.pairwise_map] at this
    exact this.imp (fun h => Or.inl h)
  exact @List.eq_of_perm_of_sorted _ _ hanti _ _ hp (hs ps2) (hs ps)

/-- C13. In the tree `buildTree` returns for any process list (it returns on every list),
every node holds the process of its key, the children of every node are in strictly
ascending pid order, and so are the roots. For process lists with pairwise different pids
the tree does not depend on the order of the list: a rearranged list gives the same tree,
and with it the same depth-first order. -/
theorem buildTree_order (ps : List Process) :
    (∃ t, buildTree (ps.length + 1) ps = some t) ∧
    (∀ fuel t, buildTree fuel ps = some t →
      t.roots.Sorted (· < ·) ∧
      ∀ k node, (k, node) ∈ t.nodeMap →
        node.process.pid = k ∧ node.children.Sorted (· < ·)) ∧
    (∀ (ps2 : List Process) (fuel : Nat), ps.Perm ps2 → (ps.map Process.pid).Nodup →
      buildTree fuel ps2 = buildTree fuel ps) := by
  refine ⟨buildTree_some _ ps (le_refl _), ?_, ?_⟩
  · intro fuel t h
    obtain ⟨hroots, hkeys, hnodes⟩ := buildTree_nodes fuel ps t h
    have hsorted := createNodes_sorted ps
    have hndt : (NodeMap.keys t.nodeMap).Nodup := hkeys ▸ createNodes_nodup ps
    constructor
    · rw [hroots]
      exact List.Pairwise.sublist (linkedRoots_sublist _) hsorted
    · intro k node hmem
      obtain ⟨n1, hn1, hproc, hch⟩ := hnodes k node (NodeMap.find_of_mem hndt hmem)
      constructor
      · rw [hproc]
        exact (createNodes_children ps (k, n1) (NodeMap.mem_of_find hn1)).2
      · rw [hch]
        exact sortChildren_sorted_lt _
          ((createNodes_nodup ps).sublist (linkedChildren_sublist _ k))
  · intro ps2 fuel hperm hnd
    unfold buildTree
    rw [createNodes_perm_eq ps ps2 hperm hnd]

/-- The chain 1, 50, 99 given in two orders. -/
theorem buildTree_order_witness :
    buildTree 4 [procOf 99 50, procOf 1 0, procOf 50 1]
      = buildTree 4 [procOf 1 0, procOf 50 1, procOf 99 50] :=
  (buildTree_order [procOf 1 0, procOf 50 1, procOf 99 50]).2.2
    [procOf 99 50, procOf 1 0, procOf 50 1] 4 (by decide) (by decide)

/-! ## Descendants and parent cycles -/

/-- A node that is not its own ancestor has fewer parent links below it, on any chain, than
the map has entries. -/
theorem ancestor_lt_length_of_not_cycle (m : NodeMap) (v x : Int) (k : Nat)
    (hv : ∀ j, ancestor m (j + 1) v ≠ some v) (hk : ancestor m k x = some v) :
    k < m.length := by
  have hinj : ∀ i j w, i < j → j ≤ k → ancestor m i x = some w → ancestor m j x = some w →
      False := by
    intro i j w hij hjk hi hj
    obtain ⟨w2, e2, f2⟩ := ancestor_prefix m k j x v hk hjk
    rw [hj] at e2
    injection e2 with e2
    subst e2
    have hper : ancestor m (j - i) w = some w := by
      have hsplit : j = i + (j - i) := by omega
      rw [hsplit, ancestor_add, hi] at hj
      simpa using hj
    have h1 : ancestor m ((k - j) + (j - i)) w = ancestor m (j - i) v := by
      rw [ancestor_add, f2]; rfl
    have h2 : ancestor m ((j - i) + (k - j)) w = some v := by
      rw [ancestor_add, hper]; exact f2
    rw [Nat.add_comm] at h1
    rw [h1] at h2
    have hsplit2 : j - i = (j - i - 1) + 1 := by omega
    rw [hsplit2] at h2
    exact hv _ h2
  have hnd : ((List.range (k + 1)).map (fun i => (ancestor m i x).getD 0)).Nodup := by
    apply List.Nodup.map_on _ (List.nodup_range _)
    intro i hi j hj heq
    rw [List.mem_range] at hi hj
    obtain ⟨wi, ei, _⟩ := ancestor_prefix m k i x v hk (by omega)
    obtain ⟨wj, ej, _⟩ := ancestor_prefix m k j x v hk (by omega)
    rw [ei, ej] at heq
    simp only [Option.getD_some] at heq
    subst heq
    by_contra hne
    rcases Nat.lt_or_gt_of_ne hne with hlt | hgt
    · exact hinj i j wi hlt (by omega) ei ej
    · exact hinj j i wi hgt (by omega) ej ei
  have hsub : (List.range (k + 1)).map (fun i => (ancestor m i x).getD 0) ⊆ NodeMap.keys m := by
    intro y hy
    obtain ⟨i, hi, rfl⟩ := List.mem_map.mp hy
    rw [List.mem_range] at hi
    obtain ⟨wi, ei, _⟩ := ancestor_prefix m k i x v hk (by omega)
    rw [ei]
    simp only [Option.getD_some]
    obtain ⟨n, hn⟩ := ancestor_find m i x wi ei
    by_contra hkk
    rw [(NodeMap.find_eq_none_iff m wi).mpr hkk] at hn
    cases hn
  have hlen := (hnd.subperm hsub).length_le
  simp [NodeMap.keys] at hlen
  omega

/-- The recursion of `getDescendants` under any measure of depth that stays below the
number of nodes and grows by one from a node to its children. -/
theorem getDescendantsRecursive_eq_of {ps : List Process} {m : NodeMap} (ht : TreeOf ps m)
    (D : Int → Nat → Prop) (hlt : ∀ v d, D v d → d < m.length)
    (hchild : ∀ v d c, D v d → c ∈ childPids ps v → D c (d + 1)) (fuel : Nat) :
    ∀ (v : Int) (d : Nat) (node : ProcessTreeNode) (acc : List Int),
      NodeMap.find m v = some node → D v d → m.length + 1 ≤ fuel + d →
      getDescendantsRecursive fuel m node acc = some (acc ++ preorder fuel ps v) := by
  induction fuel with
  | zero =>
    intro v d node acc _ hd hle
    have := hlt v d hd
    omega
  | succ fuel ih =>
    intro v d node acc hnode hd hle
    unfold getDescendantsRecursive
    rw [(ht.find_some v node hnode).1]
    have hloop : ∀ (cs : List Int), (∀ c ∈ cs, c ∈ childPids ps v) → ∀ acc : List Int,
        cs.foldlM
          (fun acc c =>
            match NodeMap.find m c with
            | none => some acc
            | some child => getDescendantsRecursive fuel m child (acc ++ [child.process.pid]))
          acc = some (acc ++ cs.flatMap (fun c => c :: preorder fuel ps c)) := by
      intro cs
      induction cs with
      | nil => intro _ acc; simp
      | cons c cs ihc =>
        intro hcs acc
        obtain ⟨cn, hcn, hpid, _⟩ := ht.child_node v c (hcs c (by simp))
        have hrec := ih c (d + 1) cn (acc ++ [cn.process.pid]) hcn
          (hchild v d c hd (hcs c (by simp))) (by omega)
        rw [List.foldlM_cons]
        simp only [hcn, hrec]
        rw [show (some (acc ++ [cn.process.pid] ++ preorder fuel ps c) >>= fun acc2 =>
            cs.foldlM
              (fun acc c =>
                match NodeMap.find m c with
                | none => some acc
                | some child =>
                  getDescendantsRecursive fuel m child (acc ++ [child.process.pid]))
              acc2)
          = cs.foldlM
              (fun acc c =>
                match NodeMap.find m c with
                | none => some acc
                | some child =>
                  getDescendantsRecursive fuel m child (acc ++ [child.process.pid]))
              (acc ++ [cn.process.pid] ++ preorder fuel ps c) from rfl]
        rw [ihc (fun x hx => hcs x (by simp [hx]))]
        simp [hpid]
    rw [hloop _ (fun c hc => hc)]
    rfl

theorem preorder_fuel_of {ps : List Process} {m : NodeMap}
    (D : Int → Nat → Prop) (hlt : ∀ v d, D v d → d < m.length)
    (hchild : ∀ v d c, D v d → c ∈ childPids ps v → D c (d + 1)) (f1 : Nat) :
    ∀ (f2 : Nat) (v : Int) (d : Nat), D v d → m.length + 1 ≤ f1 + d →
      m.length + 1 ≤ f2 + d → preorder f1 ps v = preorder f2 ps v := by
  induction f1 with
  | zero =>
    intro f2 v d hd h1 _
    have := hlt v d hd
    omega
  | succ f1 ih =>
    intro f2 v d hd h1 h2
    cases f2 with
    | zero =>
      have := hlt v d hd
      omega
    | succ f2 =>
      simp only [preorder]
      apply flatMap_congr_mem
      intro c hc
      rw [ih f2 c (d + 1) (hchild v d c hd hc) (by omega) (by omega)]

/-- On the tree of a list with pairwise different pids, `getDescendants` returns for every
pid that is not its own ancestor, with the same list for every bound above the number of
processes. -/
theorem getDescendants_some_of_not_cycle (ps : List Process) (m : NodeMap)
    (ht : TreeOf ps m) (roots : List Int) (pid : Int)
    (hpid : ¬ Relation.TransGen (IsParentLink ps) pid pid) :
    ∃ l, ∀ fuel, ps.length + 1 ≤ fuel →
      getDescendants fuel { nodeMap := m, roots := roots } pid = some l := by
  cases hf : NodeMap.find m pid with
  | none =>
    exact ⟨[], fun fuel _ => by simp [getDescendants, findProcess, hf]⟩
  | some node =>
    have hv : ∀ j, ancestor m (j + 1) pid ≠ some pid :=
      fun j hj => hpid ((ht.ancestor_iff pid pid).mp ⟨j, hj⟩)
    have hlt : ∀ v d, ancestor m d v = some pid → d < m.length :=
      fun v d hd => ancestor_lt_length_of_not_cycle m pid v d hv hd
    have hchild : ∀ v d c, ancestor m d v = some pid → c ∈ childPids ps v →
        ancestor m (d + 1) c = some pid := by
      intro v d c hd hc
      obtain ⟨cn, hcn, _, hpp⟩ := ht.child_node v c hc
      simp only [ancestor, hcn, hpp]
      exact hd
    have h0 : ancestor m 0 pid = some pid := by simp [ancestor, hf]
    have hlen := ht.length_eq
    refine ⟨preorder (ps.length + 1) ps pid, fun fuel hfuel => ?_⟩
    unfold getDescendants findProcess
    simp only [hf]
    rw [getDescendantsRecursive_eq_of ht (fun v d => ancestor m d v = some pid) hlt hchild
      fuel pid 0 node [] hf h0 (by omega)]
    rw [preorder_fuel_of (fun v d => ancestor m d v = some pid) hlt hchild fuel
      (ps.length + 1) pid 0 h0 (by omega) (by omega)]
    rfl

/-- C11, as the code has it. On the tree of a process list with pairwise different pids,
`getDescendants` returns for every pid that is not its own ancestor (in particular for every
pid when parent links are acyclic, and for every pid that is not in the list): the same
list for every bound on the recursion depth above the number of processes. -/
theorem getDescendants_terminates (ps : List Process) (hnd : (ps.map Process.pid).Nodup) :
    (∃ t, buildTree (ps.length + 1) ps = some t) ∧
    ∀ fuel t, buildTree fuel ps = some t → ∀ pid : Int,
      ¬ Relation.TransGen (IsParentLink ps) pid pid →
      ∃ l, ∀ fuel2, ps.length + 1 ≤ fuel2 → getDescendants fuel2 t pid = some l := by
  refine ⟨buildTree_some _ ps (le_refl _), ?_⟩
  intro fuel t hbuild pid hpid
  exact getDescendants_some_of_not_cycle ps t.nodeMap (buildTree_treeOf fuel ps hnd t hbuild)
    t.roots pid hpid

/-- A root beside two processes that name each other as parent: the descendants of the
root are returned. -/
theorem getDescendants_terminates_witness :
    ([procOf 1 0, procOf 2 3, procOf 3 2].map Process.pid).Nodup ∧
    ∀ fuel t, buildTree fuel [procOf 1 0, procOf 2 3, procOf 3 2] = some t →
      ∃ l, ∀ fuel2, 4 ≤ fuel2 → getDescendants fuel2 t 1 = some l :=
  ⟨by decide, fun fuel t ht =>
    (getDescendants_terminates [procOf 1 0, procOf 2 3, procOf 3 2] (by decide)).2 fuel t ht 1
      (by
        intro h
        obtain ⟨p, hp, _⟩ := Relation.TransGen.head'_iff.mp h
        obtain ⟨x, hx, h1, h2, h3⟩ := hp
        simp only [List.mem_cons, List.mem_singleton, List.not_mem_nil, or_false] at hx
        rcases hx with rfl | rfl | rfl
        · subst h2
          revert h3
          decide
        · revert h1
          decide
        · revert h1
          decide)⟩

/-- Two processes that name each other as parent: the recursion never returns for either,
whatever the bound on its depth. -/
theorem getDescendantsRecursive_twoCycle (fuel : Nat) :
    ∀ acc : List Int,
      getDescendantsRecursive fuel twoCycleTree.nodeMap
        { process := procOf 2 3, children := [3], depth := 0 } acc = none ∧
      getDescendantsRecursive fuel twoCycleTree.nodeMap
        { process := procOf 3 2, children := [2], depth := 0 } acc = none := by
  induction fuel with
  | zero => intro acc; exact ⟨rfl, rfl⟩
  | succ fuel ih =>
    intro acc
    constructor
    · have := (ih (acc ++ [3])).2
      simpa [getDescendantsRecursive, twoCycleTree, NodeMap.find, procOf] using this
    · have := (ih (acc ++ [2])).1
      simpa [getDescendantsRecursive, twoCycleTree, NodeMap.find, procOf] using this

theorem getDescendantsRecursive_selfParent (fuel : Nat) :
    ∀ acc : List Int,
      getDescendantsRecursive fuel selfParentTree.nodeMap
        { process := procOf 3 3, children := [3], depth := 0 } acc = none := by
  induction fuel with
  | zero => intro acc; rfl
  | succ fuel ih =>
    intro acc
    have := ih (acc ++ [3])
    simpa [getDescendantsRecursive, selfParentTree, NodeMap.find, procOf] using this

/-- A process that is its own parent, and two processes that name each other as parent:
`buildTree` returns the trees shown, and on them `getDescendants` returns for no bound on
the depth of its recursion. -/
theorem getDescendants_never_returns_on_cycle :
    buildTree 2 [procOf 3 3] = some selfParentTree ∧
    (¬ ∃ fuel l, getDescendants fuel selfParentTree 3 = some l) ∧
    buildTree 3 [procOf 2 3, procOf 3 2] = some twoCycleTree ∧
    (¬ ∃ fuel l, getDescendants fuel twoCycleTree 2 = some l) := by
  refine ⟨by decide, ?_, by decide, ?_⟩
  · rintro ⟨fuel, l, h⟩
    have h2 := getDescendantsRecursive_selfParent fuel []
    have h3 : getDescendants fuel selfParentTree 3
        = getDescendantsRecursive fuel selfParentTree.nodeMap
            { process := procOf 3 3, children := [3], depth := 0 } [] := by
      simp [getDescendants, findProcess, selfParentTree, NodeMap.find]
    rw [h3, h2] at h
    cases h
  · rintro ⟨fuel, l, h⟩
    have h2 := (getDescendantsRecursive_twoCycle fuel []).1
    have h3 : getDescendants fuel twoCycleTree 2
        = getDescendantsRecursive fuel twoCycleTree.nodeMap
            { process := procOf 2 3, children := [3], depth := 0 } [] := by
      simp [getDescendants, findProcess, twoCycleTree, NodeMap.find]
    rw [h3, h2] at h
    cases h

/-! ## Tree lines -/

theorem foldlM_option_mono {α β : Type} (g g2 : β → α → Option β) (xs : List α)
    (h : ∀ a x r, x ∈ xs → g a x = some r → g2 a x = some r) :
    ∀ a r, xs.foldlM g a = some r → xs.foldlM g2 a = some r := by
  induction xs with
  | nil => intro a r hr; simpa using hr
  | cons x xs ih =>
    intro a r hr
    rw [List.foldlM_cons] at hr ⊢
    cases hg : g a x with
    | none => rw [hg] at hr; cases hr
    | some b =>
      rw [hg] at hr
      rw [h a x b (by simp) hg]
      exact ih (fun a y r hy => h a y r (by simp [hy])) b r hr

/-- A larger bound on the depth gives the same lines. -/
theorem getNodeLines_succ (fuel : Nat) :
    ∀ (m : NodeMap) (node : ProcessTreeNode) (pre : Str) (isLast showThreads : Bool)
      (lines r : List Str),
      getNodeLines fuel m node pre isLast showThreads lines = some r →
      getNodeLines (fuel + 1) m node pre isLast showThreads lines = some r := by
  induction fuel with
  | zero => intro m node pre isLast st lines r h; simp [getNodeLines] at h
  | succ fuel ih =>
    intro m node pre isLast st lines r h
    rw [getNodeLines] at h ⊢
    refine foldlM_option_mono _ _ _ ?_ _ _ h
    intro a x r2 _ hx
    cases hf : NodeMap.find m x.2 with
    | none => simpa [hf] using hx
    | some child =>
      simp only [hf] at hx ⊢
      exact ih _ _ _ _ _ _ _ hx

theorem getNodeLines_mono (f1 f2 : Nat) (hle : f1 ≤ f2) (m : NodeMap)
    (node : ProcessTreeNode) (pre : Str) (isLast showThreads : Bool) (lines r : List Str)
    (h : getNodeLines f1 m node pre isLast showThreads lines = some r) :
    getNodeLines f2 m node pre isLast showThreads lines = some r := by
  induction hle with
  | refl => exact h
  | step _ ih => exact getNodeLines_succ _ _ _ _ _ _ _ _ ih

theorem getTreeLines_mono (f1 f2 : Nat) (hle : f1 ≤ f2) (t : ProcessTree)
    (showThreads : Bool) (r : List Str) (h : getTreeLines f1 t showThreads = some r) :
    getTreeLines f2 t showThreads = some r := by
  unfold getTreeLines at h ⊢
  refine foldlM_option_mono _ _ _ ?_ _ _ h
  intro a x r2 _ hx
  cases hf : NodeMap.find t.nodeMap x.2 with
  | none => simpa [hf] using hx
  | some root =>
    simp only [hf] at hx ⊢
    exact getNodeLines_mono f1 f2 hle _ _ _ _ _ _ _ hx

/-- The lines `getNodeLines` adds for a node below a root are the lines of the node and of
its descendants in pre-order. -/
theorem getNodeLines_order {ps : List Process} {m : NodeMap} (ht : TreeOf ps m)
    (showThreads : Bool) (fuel : Nat) :
    ∀ (v : Int) (d : Nat) (node : ProcessTreeNode) (pre : Str) (isLast : Bool)
      (acc : List Str),
      NodeMap.find m v = some node → AtDepth m v d → m.length + 1 ≤ fuel + d →
      ∃ out, getNodeLines fuel m node pre isLast showThreads acc = some (acc ++ out) ∧
        List.Forall₂ (LineOf ps showThreads) out (v :: preorder fuel ps v) := by
  induction fuel with
  | zero =>
    intro v d node pre isLast acc _ hd hle
    have := atDepth_lt_length m v d hd
    omega
  | succ fuel ih =>
    intro v d node pre isLast acc hnode hd hle
    have hloop : ∀ (flag : Nat → Bool) (cpre : Str) (cs : List Int),
        (∀ c ∈ cs, c ∈ childPids ps v) → ∀ (i : Nat) (acc : List Str),
        ∃ out, (cs.enumFrom i).foldlM
          (fun acc ic =>
            match NodeMap.find m ic.2 with
            | none => some acc
            | some child => getNodeLines fuel m child cpre (flag ic.1) showThreads acc)
          acc = some (acc ++ out) ∧
          List.Forall₂ (LineOf ps showThreads) out
            (cs.flatMap (fun c => c :: preorder fuel ps c)) := by
      intro flag cpre cs
      induction cs with
      | nil => intro _ i acc; exact ⟨[], by simp, by simp⟩
      | cons c cs ihc =>
        intro hcs i acc
        obtain ⟨cn, hcn, _, _⟩ := ht.child_node v c (hcs c (by simp))
        obtain ⟨o1, h1, hf1⟩ := ih c (d + 1) cn cpre (flag i) acc hcn
          (ht.atDepth_childPids v d hd c (hcs c (by simp))) (by omega)
        obtain ⟨o2, h2, hf2⟩ := ihc (fun x hx => hcs x (by simp [hx])) (i + 1) (acc ++ o1)
        refine ⟨o1 ++ o2, ?_, ?_⟩
        · rw [List.enumFrom_cons, List.foldlM_cons]
          simp only [hcn, h1]
          rw [← List.append_assoc, ← h2]
          rfl
        · rw [List.flatMap_cons]
          exact List.rel_append hf1 hf2
    obtain ⟨hch, p, hp, hpid, hproc⟩ := ht.find_some v node hnode
    rw [getNodeLines]
    obtain ⟨o, ho, hfo⟩ := hloop (fun i => decide (i = node.children.length - 1))
      (pre ++ (if isLast then "    ".toList else "│   ".toList)) node.children
      (fun c hc => hch ▸ hc) 0
      (acc ++ [pre ++ (if isLast then "└── ".toList else "├── ".toList)
        ++ nodeText node.process showThreads])
    refine ⟨(pre ++ (if isLast then "└── ".toList else "├── ".toList)
        ++ nodeText node.process showThreads) :: o, ?_, ?_⟩
    · rw [List.enum, ho]
      simp
    · refine List.Forall₂.cons ⟨p, hp, hpid, _, by rw [hproc]⟩ ?_
      rw [hch] at hfo
      exact hfo

/-- The lines `getTreeLines` returns, in terms of the roots of the tree. -/
theorem getTreeLines_order {ps : List Process} {m : NodeMap} (ht : TreeOf ps m)
    (roots : List Int) (hroots : ∀ r ∈ roots, IsRoot m r) (showThreads : Bool) (fuel : Nat)
    (hfuel : m.length + 1 ≤ fuel) :
    ∃ lines, getTreeLines fuel { nodeMap := m, roots := roots } showThreads = some lines ∧
      List.Forall₂ (LineOf ps showThreads) lines
        (roots.flatMap (fun r => r :: preorder fuel ps r)) := by
  have hloop : ∀ (flag : Nat → Bool) (rs : List Int), (∀ r ∈ rs, IsRoot m r) →
      ∀ (i : Nat) (acc : List Str),
      ∃ out, (rs.enumFrom i).foldlM
        (fun acc ir =>
          match NodeMap.find m ir.2 with
          | none => some acc
          | some root => getNodeLines fuel m root [] (flag ir.1) showThreads acc)
        acc = some (acc ++ out) ∧
        List.Forall₂ (LineOf ps showThreads) out
          (rs.flatMap (fun r => r :: preorder fuel ps r)) := by
    intro flag rs
    induction rs with
    | nil => intro _ i acc; exact ⟨[], by simp, by simp⟩
    | cons r rs ihr =>
      intro hrs i acc
      have hr := hrs r (by simp)
      obtain ⟨rn, hrn, _⟩ := id hr
      obtain ⟨o1, h1, hf1⟩ := getNodeLines_order ht showThreads fuel r 0 rn [] (flag i) acc
        hrn (atDepth_root m r hr) (by omega)
      obtain ⟨o2, h2, hf2⟩ := ihr (fun x hx => hrs x (by simp [hx])) (i + 1) (acc ++ o1)
      refine ⟨o1 ++ o2, ?_, ?_⟩
      · rw [List.enumFrom_cons, List.foldlM_cons]
        simp only [hrn, h1]
        rw [← List.append_assoc, ← h2]
        rfl
      · rw [List.flatMap_cons]
        exact List.rel_append hf1 hf2
  obtain ⟨o, ho, hfo⟩ := hloop (fun i => decide (i = roots.length - 1)) roots hroots 0 []
  exact ⟨o, by unfold getTreeLines; rw [List.enum]; simpa using ho, hfo⟩

theorem TreeOf.isRoot_iff {ps : List Process} {m : NodeMap} (ht : TreeOf ps m) (r : Int) :
    IsRoot m r ↔ IsRootPid ps r := by
  constructor
  · rintro ⟨rn, hrn, hpp⟩
    obtain ⟨_, p, hp, hpid, hproc⟩ := ht.find_some r rn hrn
    refine ⟨p, hp, hpid, fun hmem => ?_⟩
    obtain ⟨pn, hpn⟩ := (ht.find_isSome_iff p.ppid).mpr hmem
    rw [hproc, hpn] at hpp
    cases hpp
  · rintro ⟨p, hp, hpid, hpp⟩
    obtain ⟨node, hnode, hproc⟩ := ht.find_mem p hp
    refine ⟨node, hpid ▸ hnode, ?_⟩
    cases hf : NodeMap.find m node.process.ppid with
    | none => rfl
    | some pn =>
      exfalso
      apply hpp
      rw [hproc] at hf
      exact (ht.find_isSome_iff p.ppid).mp ⟨pn, hf⟩

theorem TreeOf.atDepth_iff {ps : List Process} {m : NodeMap} (ht : TreeOf ps m) (x : Int) :
    (∃ d, AtDepth m x d) ↔ BelowRoot ps x := by
  constructor
  · rintro ⟨d, r, hr, hd⟩
    refine ⟨r, (ht.isRoot_iff r).mp hr, ?_⟩
    cases d with
    | zero =>
      left
      unfold ancestor at hd
      split at hd
      · injection hd
      · cases hd
    | succ j => exact Or.inr ((ht.ancestor_iff x r).mp ⟨j, hd⟩)
  · rintro ⟨r, hr, hx⟩
    have hr2 := (ht.isRoot_iff r).mpr hr
    rcases hx with rfl | hx
    · exact ⟨0, atDepth_root m x hr2⟩
    · obtain ⟨j, hj⟩ := (ht.ancestor_iff x r).mpr hx
      exact ⟨j + 1, r, hr2, hj⟩

/-- The depth-first order below the roots holds exactly the nodes that lie below a root,
each once. -/
theorem TreeOf.mem_rootsOrder {ps : List Process} {m : NodeMap} (ht : TreeOf ps m)
    (roots : List Int) (hroots : ∀ r, r ∈ roots ↔ IsRoot m r) (f : Nat)
    (hf : m.length + 1 ≤ f) (x : Int) :
    x ∈ roots.flatMap (fun r => r :: preorder f ps r) ↔ ∃ d, AtDepth m x d := by
  simp only [List.mem_flatMap, List.mem_cons]
  constructor
  · rintro ⟨r, hr, hx⟩
    have hr2 := (hroots r).mp hr
    rcases hx with rfl | hx
    · exact ⟨0, atDepth_root m x hr2⟩
    · obtain ⟨rn, hrn, _⟩ := id hr2
      obtain ⟨j, hj⟩ := ht.ancestor_of_mem_preorder f r x ⟨rn, hrn⟩ hx
      exact ⟨j + 1, r, hr2, hj⟩
  · rintro ⟨d, r, hr, hd⟩
    refine ⟨r, (hroots r).mpr hr, ?_⟩
    cases d with
    | zero =>
      left
      unfold ancestor at hd
      split at hd
      · injection hd
      · cases hd
    | succ j =>
      exact Or.inr (ht.mem_preorder_of_ancestor j f r x 0 (atDepth_root m r hr) (by omega) hd)

theorem TreeOf.rootsOrder_nodup {ps : List Process} {m : NodeMap} (ht : TreeOf ps m)
    (hnd : (ps.map Process.pid).Nodup) (roots : List Int) (hrnd : roots.Nodup)
    (hroots : ∀ r ∈ roots, IsRoot m r) (f : Nat) :
    (roots.flatMap (fun r => r :: preorder f ps r)).Nodup := by
  have hanc : ∀ r ∈ roots, ∀ x, x ∈ r :: preorder f ps r →
      ∃ j, ancestor m j x = some r := by
    intro r hr x hx
    obtain ⟨rn, hrn, _⟩ := id (hroots r hr)
    rcases List.mem_cons.mp hx with rfl | hx
    · exact ⟨0, by simp [ancestor, hrn]⟩
    · obtain ⟨j, hj⟩ := ht.ancestor_of_mem_preorder f r x ⟨rn, hrn⟩ hx
      exact ⟨j + 1, hj⟩
  rw [List.nodup_flatMap]
  constructor
  · intro r hr
    have hr2 := hroots r hr
    rw [List.nodup_cons]
    refine ⟨fun hmem => ?_, ht.preorder_nodup hnd f r 0 (atDepth_root m r hr2)⟩
    obtain ⟨rn, hrn, _⟩ := id hr2
    obtain ⟨j, hj⟩ := ht.ancestor_of_mem_preorder f r r ⟨rn, hrn⟩ hmem
    rw [ancestor_root_succ m r hr2 j] at hj
    cases hj
  · refine hrnd.pairwise_of_forall_ne ?_
    intro r1 hr1 r2 hr2 hne
    intro x hx1 hx2
    obtain ⟨j1, hj1⟩ := hanc r1 hr1 x hx1
    obtain ⟨j2, hj2⟩ := hanc r2 hr2 x hx2
    have e := atDepth_unique m x j1 j2 ⟨r1, hroots r1 hr1, hj1⟩ ⟨r2, hroots r2 hr2, hj2⟩
    subst e
    rw [hj1] at hj2
    injection hj2 with hj2
    exact hne hj2

/-- The roots of the tree `buildTree` returns are the nodes whose parent id is no key, each
once. -/
theorem buildTree_roots_isRoot (fuel : Nat) (ps : List Process)
    (hnd : (ps.map Process.pid).Nodup) (t : ProcessTree) (h : buildTree fuel ps = some t) :
    t.roots.Nodup ∧ ∀ r, r ∈ t.roots ↔ IsRoot t.nodeMap r := by
  have ht := buildTree_treeOf fuel ps hnd t h
  obtain ⟨hroots, _, _⟩ := buildTree_nodes fuel ps t h
  constructor
  · rw [hroots]
    exact (createNodes_nodup ps).sublist (linkedRoots_sublist _)
  · intro r
    rw [ht.isRoot_iff, hroots]
    constructor
    · intro hr
      have hk : r ∈ ps.map Process.pid :=
        (createNodes_mem_keys ps r).mp ((linkedRoots_sublist _).subset hr)
      obtain ⟨p, hp, rfl⟩ := List.mem_map.mp hk
      refine ⟨p, hp, rfl, fun hmem => ?_⟩
      obtain ⟨q, hq, hqp⟩ := List.mem_map.mp hmem
      exact (mem_linkedRoots_createNodes ps hnd p hp).mp hr q hq hqp
    · rintro ⟨p, hp, rfl, hpp⟩
      refine (mem_linkedRoots_createNodes ps hnd p hp).mpr (fun q hq hqp => hpp ?_)
      exact hqp ▸ List.mem_map_of_mem Process.pid hq

/-- C12, as the code has it. For a process list with pairwise different pids `buildTree`
returns a tree, and `getTreeLines` returns on it, with the same lines for every bound on
the recursion depth above the number of processes: exactly one line for every process
that is a root or has a root among its ancestors, in depth-first order below the roots,
each line ending in the text of its process, and no line for any other process. When
parent links are acyclic that is one line per process. -/
theorem getTreeLines_one_line_below_roots (ps : List Process)
    (hnd : (ps.map Process.pid).Nodup) :
    (∃ t, buildTree (ps.length + 1) ps = some t) ∧
    ∀ fuel t, buildTree fuel ps = some t → ∀ showThreads : Bool,
      ∃ lines,
        (∀ fuel2, ps.length + 1 ≤ fuel2 → getTreeLines fuel2 t showThreads = some lines) ∧
        List.Forall₂ (LineOf ps showThreads) lines (displayOrder ps t.roots) ∧
        (displayOrder ps t.roots).Nodup ∧
        (∀ x, x ∈ displayOrder ps t.roots ↔ BelowRoot ps x) ∧
        (Acyclic ps → (displayOrder ps t.roots).Perm (ps.map Process.pid) ∧
          lines.length = ps.length) := by
  refine ⟨buildTree_some _ ps (le_refl _), ?_⟩
  intro fuel t hbuild showThreads
  have ht := buildTree_treeOf fuel ps hnd t hbuild
  have hlen := ht.length_eq
  obtain ⟨hrnd, hroots⟩ := buildTree_roots_isRoot fuel ps hnd t hbuild
  obtain ⟨lines, hlines, hrel⟩ := getTreeLines_order ht t.roots (fun r hr => (hroots r).mp hr)
    showThreads (ps.length + 1) (by omega)
  have hmem : ∀ x, x ∈ displayOrder ps t.roots ↔ BelowRoot ps x := by
    intro x
    rw [← ht.atDepth_iff x]
    exact ht.mem_rootsOrder t.roots hroots (ps.length + 1) (by omega) x
  have hndo : (displayOrder ps t.roots).Nodup :=
    ht.rootsOrder_nodup hnd t.roots hrnd (fun r hr => (hroots r).mp hr) (ps.length + 1)
  refine ⟨lines, ?_, hrel, hndo, hmem, ?_⟩
  · intro fuel2 hfuel2
    exact getTreeLines_mono _ _ hfuel2 t showThreads lines hlines
  · intro hac
    have hperm : (displayOrder ps t.roots).Perm (ps.map Process.pid) := by
      rw [List.perm_ext_iff_of_nodup hndo hnd]
      intro x
      rw [hmem, ← ht.atDepth_iff x]
      constructor
      · rintro ⟨d, hd⟩
        exact (ht.find_isSome_iff x).mp (find_of_atDepth _ x d hd)
      · intro hx
        obtain ⟨node, hnode⟩ := (ht.find_isSome_iff x).mpr hx
        exact ht.atDepth_of_acyclic hac x (by rw [hnode]; simp)
    refine ⟨hperm, ?_⟩
    rw [hrel.length_eq]
    exact hperm.length_eq.trans (List.length_map _ _)

/-- A root with one child beside two processes that name each other as parent: two lines,
for the root and its child. -/
theorem getTreeLines_one_line_below_roots_witness :
    ([procOf 1 0, procOf 2 3, procOf 3 2, procOf 4 1].map Process.pid).Nodup ∧
    ∀ fuel t, buildTree fuel [procOf 1 0, procOf 2 3, procOf 3 2, procOf 4 1] = some t →
      ∃ lines, (∀ fuel2, 5 ≤ fuel2 → getTreeLines fuel2 t false = some lines) ∧
        List.Forall₂ (LineOf [procOf 1 0, procOf 2 3, procOf 3 2, procOf 4 1] false) lines
          (displayOrder [procOf 1 0, procOf 2 3, procOf 3 2, procOf 4 1] t.roots) :=
  ⟨by decide, fun fuel t ht =>
    have h := (getTreeLines_one_line_below_roots
      [procOf 1 0, procOf 2 3, procOf 3 2, procOf 4 1] (by decide)).2 fuel t ht false
    h.elim (fun lines hl => ⟨lines, hl.1, hl.2.1⟩)⟩

/-- A root beside two processes that name each other as parent, three processes with three
different pids: `getTreeLines` returns one line, that of the root, whatever the bound on the
recursion depth. -/
theorem getTreeLines_skips_cycle :
    buildTree 4 [procOf 1 0, procOf 2 3, procOf 3 2] = some rootAndCycleTree ∧
    getTreeLines 4 rootAndCycleTree false = some ["└── 1  ()".toList] ∧
    ∀ fuel lines, getTreeLines fuel rootAndCycleTree false = some lines →
      lines.length = 1 := by
  refine ⟨by decide, by decide, ?_⟩
  intro fuel lines h
  rcases Nat.lt_or_ge fuel 1 with hlt | hge
  · obtain rfl : fuel = 0 := by omega
    revert h
    simp [getTreeLines, getNodeLines, NodeMap.find, rootAndCycleTree]
  · have h1 : getTreeLines 1 rootAndCycleTree false = some ["└── 1  ()".toList] := by decide
    have h2 := getTreeLines_mono 1 fuel hge _ false _ h1
    rw [h2] at h
    injection h with h
    rw [← h]
    rfl

/-! ## Filters -/

theorem strFindStr_isSome (pat s : Str) : (strFindStr pat s).isSome ↔ pat <:+: s := by
  induction s with
  | nil =>
    by_cases hp : pat = []
    · simp [strFindStr, hp]
    · simp [strFindStr, hp]
  | cons c cs ih =>
    unfold strFindStr
    by_cases hpre : pat.isPrefixOf (c :: cs) = true
    · rw [if_pos hpre]
      simp only [Option.isSome_some, true_iff]
      exact (List.isPrefixOf_iff_prefix.mp hpre).isInfix
    · rw [if_neg hpre, Option.isSome_map', ih, List.infix_cons_iff]
      constructor
      · exact Or.inr
      · rintro (h | h)
        · exact absurd (List.isPrefixOf_iff_prefix.mpr h) hpre
        · exact h

theorem toNat_ofNat_small (n : Nat) (h : n < 55296) : (Char.ofNat n).toNat = n := by
  have hv : n.isValidChar := Or.inl h
  unfold Char.ofNat
  rw [dif_pos hv]
  simp [Char.ofNatAux, Char.toNat, UInt32.toNat, BitVec.toNat_ofNatLt]

/-- A loop that appends the elements passing a test is a filter. -/
theorem foldl_push_eq_filter {α : Type} (f : α → Bool) (xs : List α) :
    ∀ acc : List α,
      xs.foldl (fun result x => if f x then result ++ [x] else result) acc
        = acc ++ xs.filter f := by
  induction xs with
  | nil => intro acc; simp
  | cons x xs ih =>
    intro acc
    rw [List.foldl_cons, ih]
    by_cases h : f x = true
    · simp [h]
    · simp [h]

theorem filterByName_eq_filter (ps : List Process) (pat : Str) :
    filterByName ps pat = ps.filter (fun p => decide (ContainsIgnoreCase p.name pat)) := by
  unfold filterByName
  simp only []
  rw [foldl_push_eq_filter
    (fun p : Process => (strFindStr (toLower pat) (toLower p.name)).isSome) ps []]
  rw [List.nil_append]
  apply List.filter_congr
  intro p _
  rw [Bool.eq_iff_iff, decide_eq_true_iff, strFindStr_isSome]
  rfl

theorem search_eq_filter (ps : List Process) (q : Str) :
    search ps q = ps.filter (fun p =>
      decide (ContainsIgnoreCase p.name q ∨ ContainsIgnoreCase p.user q)) := by
  unfold search
  simp only []
  rw [foldl_push_eq_filter (fun p : Process => (strFindStr (toLower q) (toLower p.name)).isSome
    || (strFindStr (toLower q) (toLower p.user)).isSome) ps []]
  rw [List.nil_append]
  apply List.filter_congr
  intro p _
  rw [Bool.eq_iff_iff, decide_eq_true_iff, Bool.or_eq_true, strFindStr_isSome,
    strFindStr_isSome]
  rfl

/-- C14. `filterByName` returns the processes of the list whose lower-cased name contains
the lower-cased pattern as a substring: the same processes, unmodified, in their original
order and as often as they occur. Lower-casing keeps the length, changes nothing but the
letters `A` to `Z`, and maps a string and its lower-cased form to the same string. -/
theorem filterByName_spec (ps : List Process) (pat : Str) :
    filterByName ps pat = ps.filter (fun p => decide (ContainsIgnoreCase p.name pat)) ∧
    (filterByName ps pat).Sublist ps ∧
    (∀ p, p ∈ filterByName ps pat ↔ p ∈ ps ∧ toLower pat <:+: toLower p.name) ∧
    (∀ s : Str, (toLower s).length = s.length ∧ toLower (toLower s) = toLower s) ∧
    toLower "AZaz09@[".toList = "azaz09@[".toList := by
  refine ⟨filterByName_eq_filter ps pat, ?_, ?_, ?_, by decide⟩
  · rw [filterByName_eq_filter]
    exact List.filter_sublist _
  · intro p
    rw [filterByName_eq_filter, List.mem_filter, decide_eq_true_iff]
    rfl
  · intro s
    refine ⟨by simp [toLower], ?_⟩
    unfold toLower
    rw [List.map_map]
    apply List.map_congr_left
    intro c _
    show tolower (tolower c) = tolower c
    unfold tolower
    by_cases h : 'A' ≤ c ∧ c ≤ 'Z'
    · rw [if_pos h]
      have h1 : 65 ≤ c.toNat := h.1
      have h2 : c.toNat ≤ 90 := h.2
      have hv : (Char.ofNat (c.toNat + 32)).toNat = c.toNat + 32 := by
        exact toNat_ofNat_small _ (by omega)
      have hn : ¬ ('A' ≤ Char.ofNat (c.toNat + 32) ∧ Char.ofNat (c.toNat + 32) ≤ 'Z') := by
        rintro ⟨_, h4⟩
        have h5 : (Char.ofNat (c.toNat + 32)).toNat ≤ 90 := h4
        omega
      rw [if_neg hn]
    · rw [if_neg h, if_neg h]

/-- The pattern "firefox" on the processes 10 "Firefox" and 11 "bash" keeps process 10. -/
theorem filterByName_spec_witness :
    filterByName [procNamed 10 "Firefox".toList [], procNamed 11 "bash".toList []]
      "firefox".toList = [procNamed 10 "Firefox".toList []] :=
  (filterByName_spec [procNamed 10 "Firefox".toList [], procNamed 11 "bash".toList []]
    "firefox".toList).1.trans (by decide)

/-- C15. `search` returns the processes of the list whose name or owner name contains the
query as a substring when case is ignored, unmodified and in their original order; every
process `filterByName` returns for the same query is among them, in the same order. -/
theorem search_spec (ps : List Process) (q : Str) :
    search ps q = ps.filter (fun p =>
      decide (ContainsIgnoreCase p.name q ∨ ContainsIgnoreCase p.user q)) ∧
    (search ps q).Sublist ps ∧
    (∀ p, p ∈ search ps q ↔
      p ∈ ps ∧ (toLower q <:+: toLower p.name ∨ toLower q <:+: toLower p.user)) ∧
    (filterByName ps q).Sublist (search ps q) ∧
    (∀ p, p ∈ filterByName ps q → p ∈ search ps q) := by
  have hsub : (filterByName ps q).Sublist (search ps q) := by
    rw [filterByName_eq_filter, search_eq_filter]
    have h : ps.filter (fun p => decide (ContainsIgnoreCase p.name q))
        = (ps.filter (fun p =>
            decide (ContainsIgnoreCase p.name q ∨ ContainsIgnoreCase p.user q))).filter
          (fun p => decide (ContainsIgnoreCase p.name q)) := by
      rw [List.filter_filter]
      apply List.filter_congr
      intro p _
      by_cases h1 : ContainsIgnoreCase p.name q <;> simp [h1]
    rw [h]
    exact List.filter_sublist _
  refine ⟨search_eq_filter ps q, ?_, ?_, hsub, fun p hp => hsub.subset hp⟩
  · rw [search_eq_filter]
    exact List.filter_sublist _
  · intro p
    rw [search_eq_filter, List.mem_filter, decide_eq_true_iff]
    rfl

/-- The query "ROOT" finds a process by its owner, and "fire" finds one by its name. -/
theorem search_spec_witness :
    search [procNamed 10 "Firefox".toList "alice".toList,
        procNamed 11 "bash".toList "root".toList] "ROOT".toList
      = [procNamed 11 "bash".toList "root".toList] ∧
    search [procNamed 10 "Firefox".toList "alice".toList,
        procNamed 11 "bash".toList "root".toList] "fire".toList
      = [procNamed 10 "Firefox".toList "alice".toList] :=
  ⟨(search_spec _ _).1.trans (by decide), (search_spec _ _).1.trans (by decide)⟩

/-! ## Sorting -/

theorem toNat_eq_of_not_lt {a b : Char} (h1 : ¬ a.toNat < b.toNat) (h2 : ¬ b.toNat < a.toNat) :
    a = b := by
  apply Char.ext
  apply UInt32.ext
  have : a.toNat = b.toNat := by omega
  exact this

theorem strLess_irrefl (a : Str) : strLess a a = false := by
  induction a with
  | nil => rfl
  | cons x xs ih => simp [strLess, ih]

theorem strLess_iff_lex (a b : Str) :
    strLess a b = true ↔ List.Lex (fun x y : Char => x.toNat < y.toNat) a b := by
  induction a generalizing b with
  | nil =>
    cases b with
    | nil => simp [strLess]
    | cons y ys => simp [strLess, List.Lex.nil]
  | cons x xs ih =>
    cases b with
    | nil => simp [strLess]
    | cons y ys =>
      unfold strLess
      by_cases h1 : x.toNat < y.toNat
      · simp only [if_pos h1, true_iff]
        exact List.Lex.rel h1
      · rw [if_neg h1]
        by_cases h2 : y.toNat < x.toNat
        · rw [if_pos h2]
          simp only [Bool.false_eq_true, false_iff]
          intro hl
          cases hl with
          | cons h => exact h1 h2
          | rel h => exact h1 h
        · rw [if_neg h2, ih]
          obtain rfl := toNat_eq_of_not_lt h1 h2
          constructor
          · exact List.Lex.cons
          · intro hl
            cases hl with
            | cons h => exact h
            | rel h => exact absurd h h1

theorem strLess_asymm (a b : Str) : strLess a b = true → strLess b a = false := by
  induction a generalizing b with
  | nil =>
    cases b with
    | nil => simp [strLess]
    | cons y ys => simp [strLess]
  | cons x xs ih =>
    cases b with
    | nil => simp [strLess]
    | cons y ys =>
      unfold strLess
      by_cases h1 : x.toNat < y.toNat
      · have h2 : ¬ y.toNat < x.toNat := by omega
        simp [h1, h2]
      · by_cases h2 : y.toNat < x.toNat
        · simp [h1, h2]
        · simp only [if_neg h1, if_neg h2]
          exact ih ys

theorem strLess_negTrans (a b c : Str) :
    strLess a b = false → strLess b c = false → strLess a c = false := by
  induction a generalizing b c with
  | nil =>
    cases b with
    | nil => intro _ h; exact h
    | cons y ys => simp [strLess]
  | cons x xs ih =>
    cases b with
    | nil =>
      cases c with
      | nil => simp [strLess]
      | cons z zs => simp [strLess]
    | cons y ys =>
      cases c with
      | nil => simp [strLess]
      | cons z zs =>
        unfold strLess
        by_cases h1 : x.toNat < y.toNat
        · simp [h1]
        · rw [if_neg h1]
          by_cases h2 : y.toNat < x.toNat
          · have h3 : ¬ x.toNat < z.toNat ∨ y.toNat < z.toNat := by omega
            by_cases h4 : y.toNat < z.toNat
            · simp [h4]
            · rw [if_neg h4]
              have h5 : ¬ x.toNat < z.toNat := by omega
              have h6 : z.toNat < x.toNat := by omega
              simp [h5, h6]
          · rw [if_neg h2]
            by_cases h4 : y.toNat < z.toNat
            · simp [h4]
            · rw [if_neg h4]
              have h5 : ¬ x.toNat < z.toNat := by omega
              rw [if_neg h5]
              by_cases h6 : z.toNat < y.toNat
              · have h7 : z.toNat < x.toNat := by omega
                simp [h6, h7]
              · have h7 : ¬ z.toNat < x.toNat := by omega
                rw [if_neg h6, if_neg h7]
                exact ih ys zs

theorem strLess_total (a b : Str) : strLess a b = false → strLess b a = false → a = b := by
  induction a generalizing b with
  | nil =>
    cases b with
    | nil => intro _ _; rfl
    | cons y ys => simp [strLess]
  | cons x xs ih =>
    cases b with
    | nil => simp [strLess]
    | cons y ys =>
      unfold strLess
      by_cases h1 : x.toNat < y.toNat
      · simp [h1]
      · by_cases h2 : y.toNat < x.toNat
        · simp [h1, h2]
        · simp only [if_neg h1, if_neg h2]
          intro h3 h4
          rw [toNat_eq_of_not_lt h1 h2, ih ys h3 h4]

/-- The comparison `!(b < a)` of two strings is "at most" in byte order. -/
theorem strLess_false_iff (a b : Str) : strLess b a = false ↔ StrLe a b := by
  unfold StrLe
  rw [← strLess_iff_lex]
  constructor
  · intro h
    cases hab : strLess a b with
    | true => exact Or.inr rfl
    | false => exact Or.inl (strLess_total a b hab h)
  · rintro (rfl | h)
    · exact strLess_irrefl a
    · exact strLess_asymm a b h

theorem strictWeak_strLess : StrictWeak strLess :=
  ⟨strLess_asymm, strLess_negTrans⟩

theorem strictWeak_lt {K : Type} [LinearOrder K] :
    StrictWeak (fun a b : K => decide (a < b)) :=
  ⟨fun a b h => by
      simp only [decide_eq_true_eq] at h
      simp only [decide_eq_false_iff_not, not_lt]
      exact le_of_lt h,
    fun a b c h1 h2 => by
      simp only [decide_eq_false_iff_not, not_lt] at h1 h2 ⊢
      exact le_trans h2 h1⟩

/-- A strict weak ordering of the keys gives one of the records, in either direction. -/
theorem StrictWeak.comap {α K : Type} {lt : K → K → Bool} (h : StrictWeak lt) (key : α → K)
    (ascending : Bool) :
    StrictWeak (fun a b : α => if ascending then lt (key a) (key b) else lt (key b) (key a)) := by
  cases ascending with
  | true =>
    exact ⟨fun a b hab => h.asymm _ _ hab, fun a b c h1 h2 => h.negTrans _ _ _ h1 h2⟩
  | false =>
    exact ⟨fun a b hab => h.asymm _ _ hab, fun a b c h1 h2 => h.negTrans _ _ _ h2 h1⟩

theorem sort_eq_comparator (S : StdSort) (ps : List Process) (field : SortField)
    (ascending : Bool) :
    ProcessSorter.sort S ps field ascending = S.sort (comparator field ascending) ps := by
  cases field <;> rfl

theorem strictWeak_comparator (field : SortField) (ascending : Bool) :
    StrictWeak (comparator field ascending) := by
  cases field
  · exact (strictWeak_lt (K := Int)).comap Process.pid ascending
  · exact strictWeak_strLess.comap Process.name ascending
  · exact strictWeak_strLess.comap Process.user ascending
  · exact (strictWeak_lt (K := ℚ)).comap Process.cpuPercent ascending
  · exact (strictWeak_lt (K := Int)).comap Process.vmRSS ascending
  · exact strictWeak_strLess.comap Process.state ascending
  · exact (strictWeak_lt (K := Int)).comap Process.ppid ascending

/-- "The second is not before the first" under a comparator is the order of the keys. -/
theorem comparator_false_iff (field : SortField) (ascending : Bool) (a b : Process) :
    comparator field ascending b a = false ↔ InOrder field ascending a b := by
  cases field <;> cases ascending <;>
    simp [comparator, InOrder, KeyLe, comparePID, compareName, compareUser, compareCPU,
      compareMemory, compareState, comparePPID, strLess_false_iff]

theorem sort_perm (S : StdSort) (ps : List Process) (field : SortField) (ascending : Bool) :
    (ProcessSorter.sort S ps field ascending).Perm ps := by
  rw [sort_eq_comparator]
  exact S.perm _ ps (strictWeak_comparator field ascending)

theorem sort_pairwise (S : StdSort) (ps : List Process) (field : SortField)
    (ascending : Bool) :
    (ProcessSorter.sort S ps field ascending).Pairwise (InOrder field ascending) := by
  rw [sort_eq_comparator]
  exact (S.sorted _ ps (strictWeak_comparator field ascending)).imp
    (fun h => (comparator_false_iff field ascending _ _).mp h)

/-- C16. For every implementation of `std::sort`, every process list, every sort field and
both directions, `ProcessSorter::sort` leaves a rearrangement of the input in which every
element is in order with every later one, neighbours in particular: keys non-decreasing
when ascending and non-increasing when descending, numbers by value and texts
lexicographically by byte. The comparator handed to `std::sort` is a strict weak ordering,
as `std::sort` requires. -/
theorem sort_sorted_permutation (S : StdSort) (ps : List Process) (field : SortField)
    (ascending : Bool) :
    StrictWeak (comparator field ascending) ∧
    (ProcessSorter.sort S ps field ascending).Perm ps ∧
    (ProcessSorter.sort S ps field ascending).Pairwise (InOrder field ascending) ∧
    (ProcessSorter.sort S ps field ascending).Chain' (InOrder field ascending) :=
  ⟨strictWeak_comparator field ascending, sort_perm S ps field ascending,
    sort_pairwise S ps field ascending, (sort_pairwise S ps field ascending).chain'⟩

/-- Memory descending on 100, 500, 50 gives 500, 100, 50 with every implementation of
`std::sort`. -/
theorem sort_sorted_permutation_witness :
    (∀ S : StdSort,
      (ProcessSorter.sort S [procMem 1 100, procMem 2 500, procMem 3 50]
        .BY_MEMORY false).map Process.vmRSS = [500, 100, 50]) ∧
    ProcessSorter.sort insertionStdSort [procMem 1 100, procMem 2 500, procMem 3 50]
      .BY_MEMORY false = [procMem 2 500, procMem 1 100, procMem 3 50] := by
  refine ⟨fun S => ?_, by decide⟩
  obtain ⟨_, hperm, hpw, _⟩ := sort_sorted_permutation S
    [procMem 1 100, procMem 2 500, procMem 3 50] .BY_MEMORY false
  have h1 : ((ProcessSorter.sort S [procMem 1 100, procMem 2 500, procMem 3 50]
      .BY_MEMORY false).map Process.vmRSS).Perm [500, 100, 50] :=
    (hperm.map Process.vmRSS).trans (by decide)
  have h2 : ((ProcessSorter.sort S [procMem 1 100, procMem 2 500, procMem 3 50]
      .BY_MEMORY false).map Process.vmRSS).Sorted (· ≥ ·) := by
    rw [List.Sorted, List.pairwise_map]
    exact hpw.imp (fun h => h)
  exact List.eq_of_perm_of_sorted h1 h2 (by decide)

/-- The first `count` elements of a sorted rearrangement. -/
theorem top_of_sorted {R : Process → Process → Prop} (l ps : List Process) (count : Nat)
    (hperm : l.Perm ps) (hpw : l.Pairwise R) :
    (if l.length > count then l.take count else l).length = min count ps.length ∧
    (if l.length > count then l.take count else l).Pairwise R ∧
    (∃ rest, ((if l.length > count then l.take count else l) ++ rest).Perm ps ∧
      ∀ a ∈ (if l.length > count then l.take count else l), ∀ b ∈ rest, R a b) ∧
    (ps.length ≤ count → (if l.length > count then l.take count else l).Perm ps) := by
  have hr : (if l.length > count then l.take count else l) = l.take count := by
    by_cases h : l.length > count
    · rw [if_pos h]
    · rw [if_neg h, List.take_of_length_le (by omega)]
  rw [hr]
  have hlen := hperm.length_eq
  refine ⟨by rw [List.length_take, hlen], hpw.sublist (List.take_sublist _ _),
    ⟨l.drop count, ?_, ?_⟩, ?_⟩
  · rw [List.take_append_drop]
    exact hperm
  · have h := hpw
    rw [← List.take_append_drop count l, List.pairwise_append] at h
    exact h.2.2
  · intro hle
    rw [List.take_of_length_le (by omega)]
    exact hperm

/-- C17. For every implementation of `std::sort`, every process list and every count,
`topByMemory` returns as many processes as the smaller of the count and the size of the
list, in non-increasing order of resident memory; together with the processes left out
they are a rearrangement of the list, and none of those left out has more resident memory
than one of those returned. A list no longer than the count is returned whole, rearranged.
The same holds for `topByCPU` and the CPU percentage. Both functions return a value on
every input. -/
theorem topBy_spec (S : StdSort) (ps : List Process) (count : Nat) :
    ((topByMemory S ps count).length = min count ps.length ∧
      (topByMemory S ps count).Pairwise (fun a b => b.vmRSS ≤ a.vmRSS) ∧
      (∃ rest, (topByMemory S ps count ++ rest).Perm ps ∧
        ∀ a ∈ topByMemory S ps count, ∀ b ∈ rest, b.vmRSS ≤ a.vmRSS) ∧
      (ps.length ≤ count → (topByMemory S ps count).Perm ps)) ∧
    ((topByCPU S ps count).length = min count ps.length ∧
      (topByCPU S ps count).Pairwise (fun a b => b.cpuPercent ≤ a.cpuPercent) ∧
      (∃ rest, (topByCPU S ps count ++ rest).Perm ps ∧
        ∀ a ∈ topByCPU S ps count, ∀ b ∈ rest, b.cpuPercent ≤ a.cpuPercent) ∧
      (ps.length ≤ count → (topByCPU S ps count).Perm ps)) :=
  ⟨top_of_sorted (ProcessSorter.sort S ps .BY_MEMORY false) ps count
      (sort_perm S ps .BY_MEMORY false)
      ((sort_pairwise S ps .BY_MEMORY false).imp (fun h => h)),
    top_of_sorted (ProcessSorter.sort S ps .BY_CPU false) ps count
      (sort_perm S ps .BY_CPU false)
      ((sort_pairwise S ps .BY_CPU false).imp (fun h => h))⟩

/-- The top two by memory of 100, 500, 50 are 500 and 100; the top five are all three. -/
theorem topBy_spec_witness :
    topByMemory insertionStdSort [procMem 1 100, procMem 2 500, procMem 3 50] 2
      = [procMem 2 500, procMem 1 100] ∧
    (topByMemory insertionStdSort [procMem 1 100, procMem 2 500, procMem 3 50] 5).length
      = min 5 3 :=
  ⟨by decide,
    (topBy_spec insertionStdSort [procMem 1 100, procMem 2 500, procMem 3 50] 5).1.1⟩

/-! ## The interactive session -/

theorem updateFilter_fields (S : StdSort) (st : ProcessTUI) :
    (updateFilter S st).selectedIndex = st.selectedIndex ∧
    (updateFilter S st).scrollOffset = st.scrollOffset ∧
    (updateFilter S st).screenHeight = st.screenHeight ∧
    (updateFilter S st).sortField = st.sortField ∧
    (updateFilter S st).sortAscending = st.sortAscending ∧
    (updateFilter S st).processes = st.processes :=
  ⟨rfl, rfl, rfl, rfl, rfl, rfl⟩

/-- The projection after a refresh: the new snapshot, searched when a query is set, and
sorted by the active field and direction. -/
theorem refreshProcesses_projection (S : StdSort) (fs : ProcFs) (entries : List DirEntry)
    (st : ProcessTUI) :
    (refreshProcesses S fs entries st).filteredProcesses
      = ProcessSorter.sort S
          (if st.searchQuery.isEmpty then getAllProcesses fs entries
           else search (getAllProcesses fs entries) st.searchQuery)
          st.sortField st.sortAscending := by
  unfold refreshProcesses
  simp only []
  split <;> rfl

theorem refreshProcesses_scroll (S : StdSort) (fs : ProcFs) (entries : List DirEntry)
    (st : ProcessTUI) :
    (refreshProcesses S fs entries st).scrollOffset = st.scrollOffset ∧
    (refreshProcesses S fs entries st).screenHeight = st.screenHeight ∧
    (refreshProcesses S fs entries st).sortField = st.sortField ∧
    (refreshProcesses S fs entries st).sortAscending = st.sortAscending := by
  unfold refreshProcesses
  simp only []
  split <;> exact ⟨rfl, rfl, rfl, rfl⟩

theorem refreshProcesses_selected (S : StdSort) (fs : ProcFs) (entries : List DirEntry)
    (st : ProcessTUI) :
    (refreshProcesses S fs entries st).selectedIndex
      = if st.selectedIndex ≥
            ((refreshProcesses S fs entries st).filteredProcesses.length : Int) then
          max 0 (((refreshProcesses S fs entries st).filteredProcesses.length : Int) - 1)
        else st.selectedIndex := by
  unfold refreshProcesses
  simp only []
  split
  · rename_i h
    have h2 : (updateFilter S { st with processes := getAllProcesses fs entries }).selectedIndex
        = st.selectedIndex := rfl
    rw [h2] at h
    simp only [if_pos h]
  · rename_i h
    have h2 : (updateFilter S { st with processes := getAllProcesses fs entries }).selectedIndex
        = st.selectedIndex := rfl
    rw [h2] at h
    simp only [if_neg h]
    exact h2

/-- C18, as the code has it. `refreshProcesses` does not look at pids: the new projection
is the new snapshot, searched and sorted; the selected index stays the row position it
was, clamped to the rows of the new projection (row 0 when the projection is empty); the
scroll offset stays. The selected row therefore holds the process that the new projection
has at that position. -/
theorem refreshProcesses_keeps_row (S : StdSort) (fs : ProcFs) (entries : List DirEntry)
    (st : ProcessTUI) (hsel : 0 ≤ st.selectedIndex) :
    (refreshProcesses S fs entries st).selectedIndex
      = max 0 (min st.selectedIndex
          (((refreshProcesses S fs entries st).filteredProcesses.length : Int) - 1)) ∧
    (refreshProcesses S fs entries st).scrollOffset = st.scrollOffset ∧
    (refreshProcesses S fs entries st).filteredProcesses
      = ProcessSorter.sort S
          (if st.searchQuery.isEmpty then getAllProcesses fs entries
           else search (getAllProcesses fs entries) st.searchQuery)
          st.sortField st.sortAscending ∧
    (st.selectedIndex < ((refreshProcesses S fs entries st).filteredProcesses.length : Int) →
      (refreshProcesses S fs entries st).selectedIndex = st.selectedIndex ∧
      selectedPid (refreshProcesses S fs entries st)
        = ((refreshProcesses S fs entries st).filteredProcesses.get?
            st.selectedIndex.toNat).map Process.pid) := by
  refine ⟨?_, (refreshProcesses_scroll S fs entries st).1,
    refreshProcesses_projection S fs entries st, ?_⟩
  · rw [refreshProcesses_selected]
    split
    · rename_i h
      rw [min_eq_right (by omega)]
    · rename_i h
      rw [min_eq_left (by omega), max_eq_right hsel]
  · intro hlt
    have hs : (refreshProcesses S fs entries st).selectedIndex = st.selectedIndex := by
      rw [refreshProcesses_selected, if_neg (by omega)]
    refine ⟨hs, ?_⟩
    unfold selectedPid
    rw [hs, if_pos hsel]

/-- The session with the processes 100, 200, 300 and row 1 selected, refreshed to the same
three processes: row 1 stays selected. -/
theorem refreshProcesses_keeps_row_witness :
    (0 : Int) ≤ sessionOnSecondRow.selectedIndex ∧
    (refreshProcesses insertionStdSort threePidFs
      [procDir "100".toList, procDir "200".toList, procDir "300".toList]
      sessionOnSecondRow).scrollOffset = sessionOnSecondRow.scrollOffset :=
  ⟨by decide, (refreshProcesses_keeps_row insertionStdSort threePidFs
      [procDir "100".toList, procDir "200".toList, procDir "300".toList]
      sessionOnSecondRow (by decide)).2.1⟩

/-- The processes 100, 200, 300 with pid 200 selected on row 1; a refresh finds 200 and
300 only. Pid 200 is now on row 0, but the selected row is still row 1, which holds
pid 300. -/
theorem refreshProcesses_selects_other_pid :
    sessionOnSecondRow.filteredProcesses.map Process.pid = [100, 200, 300] ∧
    sessionOnSecondRow.selectedIndex = 1 ∧
    selectedPid sessionOnSecondRow = some 200 ∧
    (refreshProcesses insertionStdSort threePidFs
      [procDir "200".toList, procDir "300".toList]
      sessionOnSecondRow).filteredProcesses.map Process.pid = [200, 300] ∧
    (refreshProcesses insertionStdSort threePidFs
      [procDir "200".toList, procDir "300".toList]
      sessionOnSecondRow).selectedIndex = 1 ∧
    selectedPid (refreshProcesses insertionStdSort threePidFs
      [procDir "200".toList, procDir "300".toList]
      sessionOnSecondRow) = some 300 := by
  decide

/-- What a sort key does: the field of the key becomes the sort field, the direction is
flipped, the projection is sorted by the two and the status is set. -/
theorem handleSorting_key (S : StdSort) (st : ProcessTUI) (ch : Int) (field : SortField)
    (h : sortKeyField ch = some field) :
    handleSorting S st ch
      = { st with
          sortField := field, sortAscending := !st.sortAscending,
          filteredProcesses :=
            ProcessSorter.sort S st.filteredProcesses field (!st.sortAscending),
          statusMessage := "Sorted by field".toList } := by
  unfold sortKeyField at h
  unfold handleSorting
  by_cases hP : ch = key 'P'
  · rw [if_pos hP] at h
    injection h with h
    subst h
    simp only [if_pos hP]
    rfl
  rw [if_neg hP] at h
  by_cases hN : ch = key 'N'
  · rw [if_pos hN] at h
    injection h with h
    subst h
    simp only [if_neg hP, if_pos hN]
    rfl
  rw [if_neg hN] at h
  by_cases hM : ch = key 'M'
  · rw [if_pos hM] at h
    injection h with h
    subst h
    simp only [if_neg hP, if_neg hN, if_pos hM]
    rfl
  rw [if_neg hM] at h
  by_cases hC : ch = key 'C'
  · rw [if_pos hC] at h
    injection h with h
    subst h
    simp only [if_neg hP, if_neg hN, if_neg hM, if_pos hC]
    rfl
  rw [if_neg hC] at h
  by_cases hU : ch = key 'U'
  · rw [if_pos hU] at h
    injection h with h
    subst h
    simp only [if_neg hP, if_neg hN, if_neg hM, if_neg hC, if_pos hU]
    rfl
  rw [if_neg hU] at h
  cases h

/-- Any key that is not a sort key leaves the state as it is. -/
theorem handleSorting_other (S : StdSort) (st : ProcessTUI) (ch : Int)
    (h : sortKeyField ch = none) : handleSorting S st ch = st := by
  unfold sortKeyField at h
  unfold handleSorting
  by_cases hP : ch = key 'P'
  · rw [if_pos hP] at h; cases h
  rw [if_neg hP] at h
  by_cases hN : ch = key 'N'
  · rw [if_pos hN] at h; cases h
  rw [if_neg hN] at h
  by_cases hM : ch = key 'M'
  · rw [if_pos hM] at h; cases h
  rw [if_neg hM] at h
  by_cases hC : ch = key 'C'
  · rw [if_pos hC] at h; cases h
  rw [if_neg hC] at h
  by_cases hU : ch = key 'U'
  · rw [if_pos hU] at h; cases h
  simp only [if_neg hP, if_neg hN, if_neg hM, if_neg hC, if_neg hU]
  rfl

theorem handleSorting_fields (S : StdSort) (st : ProcessTUI) (ch : Int) :
    (handleSorting S st ch).selectedIndex = st.selectedIndex ∧
    (handleSorting S st ch).scrollOffset = st.scrollOffset ∧
    (handleSorting S st ch).screenHeight = st.screenHeight ∧
    (handleSorting S st ch).processes = st.processes ∧
    (handleSorting S st ch).searchQuery = st.searchQuery := by
  cases hk : sortKeyField ch with
  | none => rw [handleSorting_other S st ch hk]; exact ⟨rfl, rfl, rfl, rfl, rfl⟩
  | some field => rw [handleSorting_key S st ch field hk]; exact ⟨rfl, rfl, rfl, rfl, rfl⟩

theorem handleSorting_length (S : StdSort) (st : ProcessTUI) (ch : Int) :
    (handleSorting S st ch).filteredProcesses.length = st.filteredProcesses.length := by
  cases hk : sortKeyField ch with
  | none => rw [handleSorting_other S st ch hk]
  | some field =>
    rw [handleSorting_key S st ch field hk]
    exact (sort_perm S _ _ _).length_eq

theorem viewInv_up (st : ProcessTUI) (ch : Int) (hch : ch = KEY_UP ∨ ch = key 'k')
    (hinv : ViewInv st) : ViewInv (handleNavigation st ch) := by
  obtain ⟨h1, h2, h3, h4⟩ := hinv
  unfold handleNavigation
  simp only [if_pos hch]
  split_ifs with ha hb
  · refine ⟨?_, ?_, ?_, ?_⟩ <;> dsimp only <;> omega
  · refine ⟨?_, ?_, ?_, ?_⟩ <;> dsimp only <;> omega
  · exact ⟨h1, h2, h3, h4⟩

theorem viewInv_down (st : ProcessTUI) (ch : Int) (hch : ch = KEY_DOWN ∨ ch = key 'j')
    (hinv : ViewInv st) : ViewInv (handleNavigation st ch) := by
  obtain ⟨h1, h2, h3, h4⟩ := hinv
  have hne : ¬ (ch = KEY_UP ∨ ch = key 'k') := by
    rcases hch with rfl | rfl <;> decide
  unfold handleNavigation
  simp only [if_neg hne, if_pos hch]
  split_ifs with ha hb
  · refine ⟨?_, ?_, ?_, ?_⟩ <;> dsimp only <;> omega
  · refine ⟨?_, ?_, ?_, ?_⟩ <;> dsimp only <;> omega
  · exact ⟨h1, h2, h3, h4⟩

theorem handleNavigation_pageUp (st : ProcessTUI) :
    handleNavigation st KEY_PPAGE
      = { st with selectedIndex := max 0 (st.selectedIndex - (st.screenHeight - 5)),
                  scrollOffset := max 0 (st.scrollOffset - (st.screenHeight - 5)) } := by
  rfl

theorem viewInv_pageUp (st : ProcessTUI) (hinv : ViewInv st) :
    ViewInv (handleNavigation st KEY_PPAGE) := by
  obtain ⟨h1, h2, h3, h4⟩ := hinv
  rw [handleNavigation_pageUp]
  refine ⟨?_, ?_, ?_, ?_⟩ <;> dsimp only <;> omega

theorem handleNavigation_pageDown (st : ProcessTUI) :
    handleNavigation st KEY_NPAGE
      = { st with
          selectedIndex := min ((st.filteredProcesses.length : Int) - 1)
            (st.selectedIndex + (st.screenHeight - 5)),
          scrollOffset := min ((st.filteredProcesses.length : Int) - (st.screenHeight - 5))
            (st.scrollOffset + (st.screenHeight - 5)) } := by
  rfl

theorem viewInv_pageDown (st : ProcessTUI)
    (hlen : st.screenHeight - 5 ≤ (st.filteredProcesses.length : Int)) (hinv : ViewInv st) :
    ViewInv (handleNavigation st KEY_NPAGE) := by
  obtain ⟨h1, h2, h3, h4⟩ := hinv
  rw [handleNavigation_pageDown]
  refine ⟨?_, ?_, ?_, ?_⟩ <;> dsimp only <;> omega

/-- Page-down on a projection with fewer rows than the window, from any state: the scroll
offset becomes negative and the view is no longer consistent. -/
theorem pageDown_short_negative_offset (st : ProcessTUI)
    (hlen : (st.filteredProcesses.length : Int) < st.screenHeight - 5) :
    (handleNavigation st KEY_NPAGE).scrollOffset < 0 ∧
    ¬ ViewInv (handleNavigation st KEY_NPAGE) := by
  rw [handleNavigation_pageDown]
  have h : min ((st.filteredProcesses.length : Int) - (st.screenHeight - 5))
      (st.scrollOffset + (st.screenHeight - 5)) < 0 := by omega
  refine ⟨h, ?_⟩
  rintro ⟨h1, _⟩
  dsimp only at h1
  omega

theorem viewInv_sort (S : StdSort) (st : ProcessTUI) (ch : Int) (hinv : ViewInv st) :
    ViewInv (handleSorting S st ch) := by
  obtain ⟨h1, h2, h3, h4⟩ := hinv
  obtain ⟨e1, e2, e3, _, _⟩ := handleSorting_fields S st ch
  unfold ViewInv
  rw [e1, e2, e3, handleSorting_length]
  exact ⟨h1, h2, h3, h4⟩

/-- With a scroll offset that is not negative, every row index the drawing loop reads is
a row of the projection. -/
theorem drawnIndices_valid (st : ProcessTUI) (hs : 0 ≤ st.scrollOffset) :
    ∀ i ∈ drawnIndices st, 0 ≤ i ∧ i < (st.filteredProcesses.length : Int) := by
  intro i hi
  obtain ⟨j, hj, rfl⟩ := List.mem_map.mp hi
  rw [List.mem_range, Int.lt_toNat] at hj
  constructor
  · omega
  · omega

theorem selected_mem_drawnIndices (st : ProcessTUI) (hinv : ViewInv st) :
    st.selectedIndex ∈ drawnIndices st := by
  obtain ⟨h1, h2, h3, h4⟩ := hinv
  refine List.mem_map.mpr ⟨(st.selectedIndex - st.scrollOffset).toNat, ?_, ?_⟩
  · rw [List.mem_range, Int.lt_toNat, Int.toNat_of_nonneg (by omega)]
    omega
  · rw [Int.toNat_of_nonneg (by omega)]
    omega

theorem refreshProcesses_selected_range (S : StdSort) (fs : ProcFs) (entries : List DirEntry)
    (st : ProcessTUI) (hsel : 0 ≤ st.selectedIndex) :
    0 ≤ (refreshProcesses S fs entries st).selectedIndex ∧
    ((refreshProcesses S fs entries st).filteredProcesses ≠ [] →
      (refreshProcesses S fs entries st).selectedIndex
        < ((refreshProcesses S fs entries st).filteredProcesses.length : Int)) ∧
    ((refreshProcesses S fs entries st).filteredProcesses = [] →
      (refreshProcesses S fs entries st).selectedIndex = 0) := by
  have hs := refreshProcesses_selected S fs entries st
  refine ⟨?_, ?_, ?_⟩
  · rw [hs]
    split <;> omega
  · intro hne
    have hpos : 0 < (refreshProcesses S fs entries st).filteredProcesses.length :=
      List.length_pos.mpr hne
    rw [hs]
    split <;> omega
  · intro he
    rw [hs, he]
    simp only [List.length_nil, Int.Nat.cast_ofNat_Int]
    rw [if_pos (by simpa using hsel)]
    rfl

theorem viewInv_refresh_fresh (S : StdSort) (fs : ProcFs) (entries : List DirEntry)
    (st : ProcessTUI) (message : Str) (hsel : st.selectedIndex = 0)
    (hscr : st.scrollOffset = 0) (hh : 5 < st.screenHeight)
    (hne : (refreshProcesses S fs entries st).filteredProcesses ≠ []) :
    ViewInv (setStatus (refreshProcesses S fs entries st) message) := by
  have hpos := List.length_pos.mpr hne
  have hs := refreshProcesses_selected S fs entries st
  have hsc := refreshProcesses_scroll S fs entries st
  rw [hsel, if_neg (by omega)] at hs
  show 0 ≤ (refreshProcesses S fs entries st).scrollOffset ∧
    (refreshProcesses S fs entries st).scrollOffset
      ≤ (refreshProcesses S fs entries st).selectedIndex ∧
    (refreshProcesses S fs entries st).selectedIndex
      < (refreshProcesses S fs entries st).scrollOffset
        + ((refreshProcesses S fs entries st).screenHeight - 5) ∧
    (refreshProcesses S fs entries st).selectedIndex
      < ((refreshProcesses S fs entries st).filteredProcesses.length : Int)
  rw [hs, hsc.1, hsc.2.1, hscr]
  refine ⟨le_refl _, le_refl _, ?_, ?_⟩ <;> omega

theorem viewInv_init (S : StdSort) (fs : ProcFs) (entries : List DirEntry)
    (height width : Int) (hh : 5 < height)
    (hne : (init S fs entries height width ProcessTUI.new).filteredProcesses ≠ []) :
    ViewInv (init S fs entries height width ProcessTUI.new) :=
  viewInv_refresh_fresh S fs entries
    { ProcessTUI.new with screenHeight := height, screenWidth := width } _ rfl rfl hh hne

/-- What the handlers keep. In a state where the scroll offset is not negative and the
selected row is a row of the projection inside the window of `screenHeight - 5` rows
that starts at the scroll offset: the same holds after the keys up, down, page-up, `k`
and `j`, after every key handled by `handleSorting`, and after page-down when the
projection has at least as many rows as the window; after page-down on any projection the
selected row is still a row of the projection. Every row index the drawing loop reads is a
row of the projection, and the selected row is among them. After a refresh the selected
index is not negative, it is a row of the new projection when that is not empty and it is 0
when it is empty, and the drawing loop again reads rows of the projection only. The state
after `init` on a screen of more than 5 lines and a non-empty projection is such a
state. -/
theorem view_invariant (S : StdSort) (st : ProcessTUI) (hinv : ViewInv st) :
    0 < st.screenHeight - 5 ∧
    (∀ ch, ch = KEY_UP ∨ ch = key 'k' ∨ ch = KEY_DOWN ∨ ch = key 'j' ∨ ch = KEY_PPAGE →
      ViewInv (handleNavigation st ch)) ∧
    (st.screenHeight - 5 ≤ (st.filteredProcesses.length : Int) →
      ViewInv (handleNavigation st KEY_NPAGE)) ∧
    (0 ≤ (handleNavigation st KEY_NPAGE).selectedIndex ∧
      (handleNavigation st KEY_NPAGE).selectedIndex
        < ((handleNavigation st KEY_NPAGE).filteredProcesses.length : Int)) ∧
    (∀ ch, ViewInv (handleSorting S st ch)) ∧
    (∀ i ∈ drawnIndices st, 0 ≤ i ∧ i < (st.filteredProcesses.length : Int)) ∧
    st.selectedIndex ∈ drawnIndices st ∧
    (∀ fs entries,
      0 ≤ (refreshProcesses S fs entries st).selectedIndex ∧
      ((refreshProcesses S fs entries st).filteredProcesses ≠ [] →
        (refreshProcesses S fs entries st).selectedIndex
          < ((refreshProcesses S fs entries st).filteredProcesses.length : Int)) ∧
      ((refreshProcesses S fs entries st).filteredProcesses = [] →
        (refreshProcesses S fs entries st).selectedIndex = 0) ∧
      ∀ i ∈ drawnIndices (refreshProcesses S fs entries st),
        0 ≤ i ∧ i < ((refreshProcesses S fs entries st).filteredProcesses.length : Int)) ∧
    (∀ fs entries height width, 5 < height →
      (init S fs entries height width ProcessTUI.new).filteredProcesses ≠ [] →
      ViewInv (init S fs entries height width ProcessTUI.new)) := by
  have h0 := hinv
  obtain ⟨h1, h2, h3, h4⟩ := h0
  refine ⟨by omega, ?_, fun hlen => viewInv_pageDown st hlen hinv, ?_,
    fun ch => viewInv_sort S st ch hinv, drawnIndices_valid st h1,
    selected_mem_drawnIndices st hinv, ?_,
    fun fs entries height width hh hne => viewInv_init S fs entries height width hh hne⟩
  · rintro ch (h | h | h | h | h)
    · exact viewInv_up st ch (Or.inl h) hinv
    · exact viewInv_up st ch (Or.inr h) hinv
    · exact viewInv_down st ch (Or.inl h) hinv
    · exact viewInv_down st ch (Or.inr h) hinv
    · rw [h]
      exact viewInv_pageUp st hinv
  · rw [handleNavigation_pageDown]
    constructor <;> dsimp only <;> omega
  · intro fs entries
    obtain ⟨r1, r2, r3⟩ := refreshProcesses_selected_range S fs entries st (by omega)
    refine ⟨r1, r2, r3, drawnIndices_valid _ ?_⟩
    rw [(refreshProcesses_scroll S fs entries st).1]
    exact h1

/-- The session with the processes 100, 200, 300 and row 1 selected is consistent, and so
it is after the key up. -/
theorem view_invariant_witness :
    ViewInv sessionOnSecondRow ∧ ViewInv (handleNavigation sessionOnSecondRow KEY_UP) :=
  have h : ViewInv sessionOnSecondRow := by unfold ViewInv; decide
  ⟨h, (view_invariant insertionStdSort sessionOnSecondRow h).2.1 KEY_UP (Or.inl rfl)⟩

/-- A session started on an empty process list: the projection is empty and the selected
index is 0, which is neither a row of the projection nor -1. -/
theorem init_empty_selects_zero :
    (init insertionStdSort threePidFs [] 24 80 ProcessTUI.new).filteredProcesses = [] ∧
    (init insertionStdSort threePidFs [] 24 80 ProcessTUI.new).selectedIndex = 0 ∧
    (init insertionStdSort threePidFs [] 24 80 ProcessTUI.new).selectedIndex ≠ -1 := by
  decide

/-- C19 at the failing input. A session on a screen of 24 lines (a window of 19 rows)
that shows the three processes 100, 200, 300 with row 1 selected: the scroll offset is 0
and the selected row lies inside the window. After page-down the selected index is 2, the
scroll offset is -16, which is negative, and the drawing loop reads 19 rows, the first of
them row -16 of a projection of 3 rows. Page-up on the same state leaves the scroll offset
at 0: it has the `max(0, ...)` that page-down lacks. -/
theorem pageDown_short_projection :
    ViewInv sessionOnSecondRow ∧
    sessionOnSecondRow.filteredProcesses.length = 3 ∧
    sessionOnSecondRow.screenHeight - 5 = 19 ∧
    (handleNavigation sessionOnSecondRow KEY_NPAGE).selectedIndex = 2 ∧
    (handleNavigation sessionOnSecondRow KEY_NPAGE).scrollOffset = -16 ∧
    (drawnIndices (handleNavigation sessionOnSecondRow KEY_NPAGE)).length = 19 ∧
    (drawnIndices (handleNavigation sessionOnSecondRow KEY_NPAGE)).head? = some (-16) ∧
    ¬ ViewInv (handleNavigation sessionOnSecondRow KEY_NPAGE) ∧
    (handleNavigation sessionOnSecondRow KEY_PPAGE).scrollOffset = 0 ∧
    ViewInv (handleNavigation sessionOnSecondRow KEY_PPAGE) := by
  refine ⟨by unfold ViewInv; decide, by decide, by decide, by decide, by decide, by decide,
    by decide, by unfold ViewInv; decide, by decide, by unfold ViewInv; decide⟩

/-- Page-down on an empty projection: the selected index becomes -1 and the scroll offset
-19, and a refresh that finds no process leaves both as they are, whereas a session that
starts on an empty projection has the selected index 0. -/
theorem pageDown_empty_projection :
    (init insertionStdSort threePidFs [] 24 80 ProcessTUI.new).selectedIndex = 0 ∧
    (handleNavigation (init insertionStdSort threePidFs [] 24 80 ProcessTUI.new)
      KEY_NPAGE).selectedIndex = -1 ∧
    (handleNavigation (init insertionStdSort threePidFs [] 24 80 ProcessTUI.new)
      KEY_NPAGE).scrollOffset = -19 ∧
    (refreshProcesses insertionStdSort threePidFs []
      (handleNavigation (init insertionStdSort threePidFs [] 24 80 ProcessTUI.new)
        KEY_NPAGE)).selectedIndex = -1 ∧
    (refreshProcesses insertionStdSort threePidFs []
      (handleNavigation (init insertionStdSort threePidFs [] 24 80 ProcessTUI.new)
        KEY_NPAGE)).scrollOffset = -19 := by
  decide

/-- Row 2 selected in a window of 2 rows that starts at row 1; a refresh finds one process
only. The selected index becomes 0 and the scroll offset stays 1: the window starts below
the selected row and the drawing loop reads no row. -/
theorem refresh_leaves_window_below :
    ViewInv sessionScrolled ∧
    sessionScrolled.selectedIndex = 2 ∧ sessionScrolled.scrollOffset = 1 ∧
    (refreshProcesses insertionStdSort threePidFs [procDir "300".toList]
      sessionScrolled).selectedIndex = 0 ∧
    (refreshProcesses insertionStdSort threePidFs [procDir "300".toList]
      sessionScrolled).scrollOffset = 1 ∧
    drawnIndices (refreshProcesses insertionStdSort threePidFs [procDir "300".toList]
      sessionScrolled) = [] := by
  refine ⟨by unfold ViewInv; decide, by decide, by decide, by decide, by decide, by decide⟩

/-- C20, as the code has it. A sort key (`P`, `N`, `M`, `C`, `U`) makes its field the
sort field and flips the direction, whether or not the field was the sort field before;
the projection is at once a rearrangement of what it was, in the order of the new field
and direction. The snapshot, the selected index and the scroll offset stay. -/
theorem handleSorting_flips (S : StdSort) (st : ProcessTUI) (ch : Int) (field : SortField)
    (hk : sortKeyField ch = some field) :
    (handleSorting S st ch).sortField = field ∧
    (handleSorting S st ch).sortAscending = (!st.sortAscending) ∧
    (handleSorting S st ch).filteredProcesses
      = ProcessSorter.sort S st.filteredProcesses field (!st.sortAscending) ∧
    (handleSorting S st ch).filteredProcesses.Perm st.filteredProcesses ∧
    (handleSorting S st ch).filteredProcesses.Pairwise (InOrder field (!st.sortAscending)) ∧
    (handleSorting S st ch).processes = st.processes ∧
    (handleSorting S st ch).selectedIndex = st.selectedIndex ∧
    (handleSorting S st ch).scrollOffset = st.scrollOffset ∧
    sortKeyField (key 'P') = some .BY_PID ∧ sortKeyField (key 'N') = some .BY_NAME ∧
    sortKeyField (key 'M') = some .BY_MEMORY ∧ sortKeyField (key 'C') = some .BY_CPU ∧
    sortKeyField (key 'U') = some .BY_USER := by
  rw [handleSorting_key S st ch field hk]
  exact ⟨rfl, rfl, rfl, sort_perm S _ _ _, sort_pairwise S _ _ _, rfl, rfl, rfl,
    by decide, by decide, by decide, by decide, by decide⟩

/-- The key `P` on a session sorted by pid ascending: the direction becomes descending. -/
theorem handleSorting_flips_witness :
    sortKeyField (key 'P') = some .BY_PID ∧
    (handleSorting insertionStdSort sessionOnSecondRow (key 'P')).sortAscending
      = (!sessionOnSecondRow.sortAscending) :=
  ⟨by decide,
    (handleSorting_flips insertionStdSort sessionOnSecondRow (key 'P') .BY_PID
      (by decide)).2.1⟩

/-- A session sorted by pid, ascending, showing 100 "a", 200 "b", 300 "c". The key `N`
selects a new field, the name: the direction becomes descending and the projection is
300, 200, 100. -/
theorem handleSorting_new_field_descending :
    sessionOnSecondRow.sortField = .BY_PID ∧
    sessionOnSecondRow.sortAscending = true ∧
    sessionOnSecondRow.filteredProcesses.map Process.name
      = ["a".toList, "b".toList, "c".toList] ∧
    (handleSorting insertionStdSort sessionOnSecondRow (key 'N')).sortField = .BY_NAME ∧
    (handleSorting insertionStdSort sessionOnSecondRow (key 'N')).sortAscending = false ∧
    (handleSorting insertionStdSort sessionOnSecondRow (key 'N')).filteredProcesses.map
      Process.pid = [300, 200, 100] := by
  decide

/-! ## Process control -/

/-- C23. `setPriority` returns failure and makes no call to the operating system when the
pid is not positive or the value lies outside -20 .. 19; for a positive pid and a value
inside that range it makes exactly one `setpriority` call, for the process with that pid
and with that value, and its result is whether the call returned 0. -/
theorem setPriority_spec (os : Os) (pid niceness : Int) :
    (pid ≤ 0 ∨ niceness < -20 ∨ 19 < niceness →
      ProcessController.setPriority os pid niceness = (false, [])) ∧
    (0 < pid → -20 ≤ niceness → niceness ≤ 19 →
      ProcessController.setPriority os pid niceness
        = (decide (os.setpriority PRIO_PROCESS pid niceness = 0),
            [Effect.setpriority PRIO_PROCESS pid niceness])) := by
  unfold ProcessController.setPriority
  constructor
  · intro h
    rw [if_pos h]
  · intro h1 h2 h3
    rw [if_neg (by omega)]

/-- The values -21 and 20 are rejected without a call; 19 for process 7 is handed to the
operating system. -/
theorem setPriority_spec_witness :
    ProcessController.setPriority acceptingOs 7 (-21) = (false, []) ∧
    ProcessController.setPriority acceptingOs 7 20 = (false, []) ∧
    ProcessController.setPriority rejectingOs 7 19
      = (false, [Effect.setpriority PRIO_PROCESS 7 19]) ∧
    ProcessController.setPriority acceptingOs 7 19
      = (true, [Effect.setpriority PRIO_PROCESS 7 19]) :=
  ⟨(setPriority_spec acceptingOs 7 (-21)).1 (by decide),
    (setPriority_spec acceptingOs 7 20).1 (by decide),
    (setPriority_spec rejectingOs 7 19).2 (by decide) (by decide) (by decide),
    (setPriority_spec acceptingOs 7 19).2 (by decide) (by decide) (by decide)⟩

theorem sendSignal_nonpos (os : Os) (pid signal : Int) (h : pid ≤ 0) :
    ProcessController.sendSignal os pid signal = (false, []) := by
  unfold ProcessController.sendSignal
  rw [if_pos h]

theorem sendSignal_pos (os : Os) (pid signal : Int) (h : 0 < pid) :
    ProcessController.sendSignal os pid signal
      = (decide (os.kill pid signal = 0), [Effect.kill pid signal]) := by
  unfold ProcessController.sendSignal
  rw [if_neg (by omega)]

/-- C27. For a pid that is not positive, `sendSignal` with any signal, `terminate`,
`kill`, `stop`, `resume`, `interrupt` and `ProcessManager::killProcess` return failure
and make no call to the operating system. Whatever the pid, every `kill` call these
functions make has a positive pid. -/
theorem no_signal_to_nonpositive_pid (os : Os) (pid : Int) (h : pid ≤ 0) :
    (∀ signal, ProcessController.sendSignal os pid signal = (false, [])) ∧
    ProcessController.terminate os pid = (false, []) ∧
    ProcessController.kill os pid = (false, []) ∧
    ProcessController.stop os pid = (false, []) ∧
    ProcessController.resume os pid = (false, []) ∧
    ProcessController.interrupt os pid = (false, []) ∧
    (∀ signal, ProcessManager.killProcess os pid signal = (false, [])) ∧
    (∀ (q signal p s : Int),
      (Effect.kill p s ∈ (ProcessController.sendSignal os q signal).2 ∨
        Effect.kill p s ∈ (ProcessManager.killProcess os q signal).2) → 0 < p) := by
  refine ⟨fun s => sendSignal_nonpos os pid s h, sendSignal_nonpos os pid _ h,
    sendSignal_nonpos os pid _ h, sendSignal_nonpos os pid _ h, sendSignal_nonpos os pid _ h,
    sendSignal_nonpos os pid _ h, ?_, ?_⟩
  · intro s
    unfold ProcessManager.killProcess
    rw [if_pos h]
  · intro q signal p s hmem
    unfold ProcessController.sendSignal ProcessManager.killProcess at hmem
    by_cases hq : q ≤ 0
    · simp [hq] at hmem
    · simp only [if_neg hq, List.mem_singleton, Effect.kill.injEq, or_self] at hmem
      omega

/-- Pid 0 (the caller's process group) and pid -1 (every process) get no signal, also
from an operating system that would accept the call. -/
theorem no_signal_to_nonpositive_pid_witness :
    ProcessController.terminate acceptingOs 0 = (false, []) ∧
    ProcessController.kill acceptingOs (-1) = (false, []) ∧
    ProcessManager.killProcess acceptingOs (-1) 9 = (false, []) :=
  ⟨(no_signal_to_nonpositive_pid acceptingOs 0 (by decide)).2.1,
    (no_signal_to_nonpositive_pid acceptingOs (-1) (by decide)).2.2.1,
    (no_signal_to_nonpositive_pid acceptingOs (-1) (by decide)).2.2.2.2.2.2.1 9⟩

/-! ## Kill confirmation -/

theorem setStatus_setStatus (st : ProcessTUI) (a b : Str) :
    setStatus (setStatus st a) b = setStatus st b := rfl

/-- The question is asked exactly when the selected index is a row of the projection, and
it is asked for the pid of that row. -/
theorem killPrompt_eq (st : ProcessTUI) (pid : Int) (h : selectedPid st = some pid) :
    killPrompt st = some (pid, setStatus st (killQuestion pid)) := by
  unfold selectedPid at h
  by_cases h0 : 0 ≤ st.selectedIndex
  · rw [if_pos h0] at h
    cases hg : st.filteredProcesses.get? st.selectedIndex.toNat with
    | none => rw [hg] at h; cases h
    | some p =>
      rw [hg] at h
      injection h with h
      have hlt : st.selectedIndex.toNat < st.filteredProcesses.length :=
        (List.get?_eq_some.mp hg).1
      have hd : st.filteredProcesses.getD st.selectedIndex.toNat Process.new = p := by
        rw [List.getD_eq_getElem?_getD, ← List.get?_eq_getElem?, hg]
        rfl
      unfold killPrompt
      rw [if_pos ⟨h0, by omega⟩]
      simp only [hd]
      rw [h]
  · rw [if_neg h0] at h
    cases h

theorem killPrompt_none (st : ProcessTUI) (h : selectedPid st = none) :
    killPrompt st = none := by
  unfold killPrompt
  split
  · rename_i hv
    exfalso
    unfold selectedPid at h
    rw [if_pos hv.1] at h
    have hlt : st.selectedIndex.toNat < st.filteredProcesses.length := by omega
    rw [List.get?_eq_get hlt] at h
    cases h
  · rfl

theorem killAnswer_other (S : StdSort) (os : Os) (fs : ProcFs) (entries : List DirEntry)
    (pid : Int) (st : ProcessTUI) (ch : Int) (h : ¬ (ch = key 'y' ∨ ch = key 'Y')) :
    killAnswer S os fs entries pid st ch = (setStatus st "Cancelled".toList, []) := by
  unfold killAnswer
  rw [if_neg h]

theorem killAnswer_yes (S : StdSort) (os : Os) (fs : ProcFs) (entries : List DirEntry)
    (pid : Int) (st : ProcessTUI) (ch : Int) (h : ch = key 'y' ∨ ch = key 'Y') :
    killAnswer S os fs entries pid st ch
      = if (ProcessController.terminate os pid).1 then
          (refreshProcesses S fs entries
            (setStatus st ("Process ".toList ++ toStringInt pid ++ " terminated".toList)),
            (ProcessController.terminate os pid).2)
        else
          (setStatus st ("Failed to kill process ".toList ++ toStringInt pid),
            (ProcessController.terminate os pid).2) := by
  unfold killAnswer
  rw [if_pos h]

theorem refreshProcesses_status (S : StdSort) (fs : ProcFs) (entries : List DirEntry)
    (st : ProcessTUI) :
    (refreshProcesses S fs entries st).statusMessage = st.statusMessage ∧
    (refreshProcesses S fs entries st).processes = getAllProcesses fs entries := by
  unfold refreshProcesses
  simp only []
  split <;> exact ⟨rfl, rfl⟩

/-- C21, as the code has it. With the pid of the selected row under confirmation, the
answer `y` or `Y` runs `terminate` on that pid: the only signal sent is SIGTERM to that
pid (none when the pid is not positive). When `terminate` succeeds the status is the
success message and the process list is refreshed at once; when it fails the status is
the failure message and the session state is otherwise as it was, not refreshed. In both
cases the call returns a session state. -/
theorem kill_yes (S : StdSort) (os : Os) (fs : ProcFs) (entries : List DirEntry)
    (st : ProcessTUI) (pid ch : Int) (hsel : selectedPid st = some pid)
    (hch : ch = key 'y' ∨ ch = key 'Y') :
    (killSelectedProcess S os fs entries ch st).2
      = Effect.prompt (killQuestion pid) :: (ProcessController.terminate os pid).2 ∧
    (0 < pid → (killSelectedProcess S os fs entries ch st).2
      = [Effect.prompt (killQuestion pid), Effect.kill pid SIGTERM]) ∧
    (∀ p s, Effect.kill p s ∈ (killSelectedProcess S os fs entries ch st).2 →
      p = pid ∧ s = SIGTERM) ∧
    ((ProcessController.terminate os pid).1 = true →
      (killSelectedProcess S os fs entries ch st).1
        = refreshProcesses S fs entries
            (setStatus st ("Process ".toList ++ toStringInt pid ++ " terminated".toList)) ∧
      (killSelectedProcess S os fs entries ch st).1.statusMessage
        = "Process ".toList ++ toStringInt pid ++ " terminated".toList ∧
      (killSelectedProcess S os fs entries ch st).1.processes = getAllProcesses fs entries) ∧
    ((ProcessController.terminate os pid).1 = false →
      (killSelectedProcess S os fs entries ch st).1
        = setStatus st ("Failed to kill process ".toList ++ toStringInt pid)) := by
  have hk : killSelectedProcess S os fs entries ch st
      = ((killAnswer S os fs entries pid (setStatus st (killQuestion pid)) ch).1,
          Effect.prompt (killQuestion pid)
            :: (killAnswer S os fs entries pid (setStatus st (killQuestion pid)) ch).2) := by
    unfold killSelectedProcess
    rw [killPrompt_eq st pid hsel]
    rfl
  rw [hk, killAnswer_yes S os fs entries pid _ ch hch]
  have htrace : (if (ProcessController.terminate os pid).1 then
          (refreshProcesses S fs entries
            (setStatus (setStatus st (killQuestion pid))
              ("Process ".toList ++ toStringInt pid ++ " terminated".toList)),
            (ProcessController.terminate os pid).2)
        else
          (setStatus (setStatus st (killQuestion pid))
            ("Failed to kill process ".toList ++ toStringInt pid),
            (ProcessController.terminate os pid).2)).2
      = (ProcessController.terminate os pid).2 := by
    split <;> rfl
  refine ⟨by rw [htrace], ?_, ?_, ?_, ?_⟩
  · intro hpos
    dsimp only
    rw [htrace]
    unfold ProcessController.terminate
    rw [sendSignal_pos os pid SIGTERM hpos]
  · intro p s hmem
    dsimp only at hmem
    rw [htrace] at hmem
    unfold ProcessController.terminate ProcessController.sendSignal at hmem
    by_cases hq : pid ≤ 0
    · simp [hq] at hmem
    · simpa [hq] using hmem
  · intro hok
    dsimp only
    rw [if_pos hok]
    exact ⟨rfl, (refreshProcesses_status S fs entries _).1,
      (refreshProcesses_status S fs entries _).2⟩
  · intro hfail
    dsimp only
    rw [if_neg (by rw [hfail]; decide)]
    rfl

/-- Pid 200 selected, the answer `y`, an operating system that accepts the signal: SIGTERM
goes to pid 200 and the process list is the refreshed one. -/
theorem kill_yes_witness :
    selectedPid sessionOnSecondRow = some 200 ∧
    (killSelectedProcess insertionStdSort acceptingOs threePidFs
      [procDir "100".toList, procDir "300".toList] (key 'y') sessionOnSecondRow).2
      = [Effect.prompt (killQuestion 200), Effect.kill 200 SIGTERM] :=
  ⟨by decide,
    (kill_yes insertionStdSort acceptingOs threePidFs
      [procDir "100".toList, procDir "300".toList] sessionOnSecondRow 200 (key 'y')
      (by decide) (Or.inl rfl)).2.1 (by decide)⟩

/-- Pid 200 selected while the processes are 100, 200, 300; the answer is `y`, the signal
is rejected, and `/proc` now lists 200 and 300 only. The status is the failure message and
the session still shows 100, 200, 300: no refresh has taken place. -/
theorem kill_failure_does_not_refresh :
    selectedPid sessionOnSecondRow = some 200 ∧
    (getAllProcesses threePidFs [procDir "200".toList, procDir "300".toList]).map Process.pid
      = [200, 300] ∧
    (killSelectedProcess insertionStdSort rejectingOs threePidFs
      [procDir "200".toList, procDir "300".toList] (key 'y') sessionOnSecondRow).2
      = [Effect.prompt (killQuestion 200), Effect.kill 200 SIGTERM] ∧
    (killSelectedProcess insertionStdSort rejectingOs threePidFs
      [procDir "200".toList, procDir "300".toList] (key 'y')
      sessionOnSecondRow).1.statusMessage = "Failed to kill process 200".toList ∧
    (killSelectedProcess insertionStdSort rejectingOs threePidFs
      [procDir "200".toList, procDir "300".toList] (key 'y')
      sessionOnSecondRow).1.processes.map Process.pid = [100, 200, 300] ∧
    (killSelectedProcess insertionStdSort rejectingOs threePidFs
      [procDir "200".toList, procDir "300".toList] (key 'y')
      sessionOnSecondRow).1.filteredProcesses.map Process.pid = [100, 200, 300] := by
  decide

theorem killSelectedProcess_other (S : StdSort) (os : Os) (fs : ProcFs)
    (entries : List DirEntry) (st : ProcessTUI) (pid ch : Int)
    (hsel : selectedPid st = some pid) (hch : ¬ (ch = key 'y' ∨ ch = key 'Y')) :
    killSelectedProcess S os fs entries ch st
      = (setStatus st "Cancelled".toList, [Effect.prompt (killQuestion pid)]) := by
  unfold killSelectedProcess
  rw [killPrompt_eq st pid hsel]
  dsimp only
  rw [killAnswer_other S os fs entries pid _ ch hch]
  rfl

theorem handleSorting_kill_key (S : StdSort) (st : ProcessTUI) (ch : Int)
    (hch : ch = key 'k' ∨ ch = key 'K') : handleSorting S st ch = st := by
  apply handleSorting_other
  rcases hch with rfl | rfl <;> decide

theorem handleActions_kill_key (S : StdSort) (os : Os) (fs : ProcFs)
    (entries : List DirEntry) (answer : Int) (st : ProcessTUI) (ch : Int)
    (hch : ch = key 'k' ∨ ch = key 'K') :
    handleActions S os fs entries answer st ch
      = killSelectedProcess S os fs entries answer st := by
  unfold handleActions
  rw [if_neg (by rcases hch with rfl | rfl <;> decide), if_pos hch]

theorem handleInput_kill_key (S : StdSort) (os : Os) (fs : ProcFs)
    (entries : List DirEntry) (answer : Int) (st : ProcessTUI) (ch : Int)
    (hch : ch = key 'k' ∨ ch = key 'K') :
    handleInput S os fs entries answer st ch
      = killSelectedProcess S os fs entries answer (handleNavigation st ch) := by
  unfold handleInput
  dsimp only
  rw [handleActions_kill_key S os fs entries answer _ ch hch,
    handleSorting_kill_key S _ ch hch]

theorem handleNavigation_K (st : ProcessTUI) : handleNavigation st (key 'K') = st := by
  unfold handleNavigation
  dsimp only
  rw [if_neg (by decide), if_neg (by decide), if_neg (by decide), if_neg (by decide)]

/-- C22. While the question of `killSelectedProcess` is pending for the pid of the selected
row, every answer other than `y` and `Y` (the navigation keys among them) leaves the
session state as it was apart from the status message, which becomes "Cancelled": the
selected index, the scroll offset, the process list and the projection are unchanged, the
only effect is the question itself, and no signal is sent. The same holds when the kill
key comes through `handleInput`: the answer is not handled as a key of its own. -/
theorem kill_lockout (S : StdSort) (os : Os) (fs : ProcFs) (entries : List DirEntry)
    (st : ProcessTUI) (pid ch : Int) (hsel : selectedPid st = some pid)
    (hch : ¬ (ch = key 'y' ∨ ch = key 'Y')) :
    killSelectedProcess S os fs entries ch st
      = (setStatus st "Cancelled".toList, [Effect.prompt (killQuestion pid)]) ∧
    (killSelectedProcess S os fs entries ch st).1.selectedIndex = st.selectedIndex ∧
    (killSelectedProcess S os fs entries ch st).1.scrollOffset = st.scrollOffset ∧
    (killSelectedProcess S os fs entries ch st).1.filteredProcesses = st.filteredProcesses ∧
    (killSelectedProcess S os fs entries ch st).1.processes = st.processes ∧
    (∀ p s, Effect.kill p s ∉ (killSelectedProcess S os fs entries ch st).2) ∧
    handleInput S os fs entries ch st (key 'K')
      = (setStatus st "Cancelled".toList, [Effect.prompt (killQuestion pid)]) := by
  have h := killSelectedProcess_other S os fs entries st pid ch hsel hch
  refine ⟨h, by rw [h]; rfl, by rw [h]; rfl, by rw [h]; rfl, by rw [h]; rfl, ?_, ?_⟩
  · intro p s hmem
    rw [h] at hmem
    simp at hmem
  · rw [handleInput_kill_key S os fs entries ch st (key 'K') (Or.inr rfl),
      handleNavigation_K, h]

/-- Pid 200 selected on row 1, the question pending, the answer is the key down: row 1
stays selected, the scroll offset stays 0 and nothing but the question has happened. -/
theorem kill_lockout_witness :
    selectedPid sessionOnSecondRow = some 200 ∧
    ¬ (KEY_DOWN = key 'y' ∨ KEY_DOWN = key 'Y') ∧
    (killSelectedProcess insertionStdSort acceptingOs threePidFs
      [procDir "100".toList, procDir "300".toList] KEY_DOWN sessionOnSecondRow).1.selectedIndex
      = 1 ∧
    (killSelectedProcess insertionStdSort acceptingOs threePidFs
      [procDir "100".toList, procDir "300".toList] KEY_DOWN sessionOnSecondRow).2
      = [Effect.prompt (killQuestion 200)] :=
  have h := kill_lockout insertionStdSort acceptingOs threePidFs
    [procDir "100".toList, procDir "300".toList] sessionOnSecondRow 200 KEY_DOWN
    (by decide) (by decide)
  ⟨by decide, by decide, h.2.1.trans (by decide), by rw [h.1]⟩

/-- C25 at the failing input. The processes 100, 200, 300 with pid 200 selected on row 1.
The key `K` asks for pid 200 and leaves row 1 selected. The key `k` first moves the
selection up to row 0 and then asks for pid 100; answered with `y`, SIGTERM goes to
pid 100. -/
theorem handleInput_k_asks_for_row_above :
    selectedPid sessionOnSecondRow = some 200 ∧
    sessionOnSecondRow.selectedIndex = 1 ∧
    (handleInput insertionStdSort acceptingOs threePidFs
      [procDir "100".toList, procDir "200".toList, procDir "300".toList] (key 'n')
      sessionOnSecondRow (key 'K')).2 = [Effect.prompt (killQuestion 200)] ∧
    (handleInput insertionStdSort acceptingOs threePidFs
      [procDir "100".toList, procDir "200".toList, procDir "300".toList] (key 'n')
      sessionOnSecondRow (key 'K')).1.selectedIndex = 1 ∧
    (handleInput insertionStdSort acceptingOs threePidFs
      [procDir "100".toList, procDir "200".toList, procDir "300".toList] (key 'n')
      sessionOnSecondRow (key 'k')).2 = [Effect.prompt (killQuestion 100)] ∧
    (handleInput insertionStdSort acceptingOs threePidFs
      [procDir "100".toList, procDir "200".toList, procDir "300".toList] (key 'n')
      sessionOnSecondRow (key 'k')).1.selectedIndex = 0 ∧
    (handleInput insertionStdSort acceptingOs threePidFs
      [procDir "200".toList, procDir "300".toList] (key 'y')
      sessionOnSecondRow (key 'k')).2
      = [Effect.prompt (killQuestion 100), Effect.kill 100 SIGTERM] ∧
    killQuestion 100 = "Kill process 100? (y/n)".toList := by
  decide

/-- The kill keys through `handleInput`, in general. The key `K` asks for the pid of the
selected row and does not move the selection; with no selected row it asks for nothing.
The key `k` is first handled as the key up: the question is asked for the row that is
selected after that move. -/
theorem handleInput_kill_keys (S : StdSort) (os : Os) (fs : ProcFs)
    (entries : List DirEntry) (answer : Int) (st : ProcessTUI) :
    handleInput S os fs entries answer st (key 'K')
      = killSelectedProcess S os fs entries answer st ∧
    handleInput S os fs entries answer st (key 'k')
      = killSelectedProcess S os fs entries answer (handleNavigation st KEY_UP) ∧
    (selectedPid st = none → handleInput S os fs entries answer st (key 'K') = (st, [])) ∧
    (st.filteredProcesses = [] → st.selectedIndex = 0 →
      handleInput S os fs entries answer st (key 'k') = (st, [])) := by
  have hK := handleInput_kill_key S os fs entries answer st (key 'K') (Or.inr rfl)
  rw [handleNavigation_K] at hK
  have hk := handleInput_kill_key S os fs entries answer st (key 'k') (Or.inl rfl)
  have hnav : handleNavigation st (key 'k') = handleNavigation st KEY_UP := by
    unfold handleNavigation
    dsimp only
    rw [if_pos (Or.inr rfl), if_pos (Or.inl rfl)]
  refine ⟨hK, by rw [hk, hnav], ?_, ?_⟩
  · intro hnone
    rw [hK]
    unfold killSelectedProcess
    rw [killPrompt_none st hnone]
  · intro hempty hsel
    rw [hk]
    have hn : handleNavigation st (key 'k') = st := by
      unfold handleNavigation
      dsimp only
      rw [if_pos (Or.inr rfl), if_neg (by omega)]
    rw [hn]
    unfold killSelectedProcess killPrompt
    rw [if_neg (by rw [hempty, hsel]; simp)]

/-! ## The `--top` command -/

/-- C24 at the failing input. `/proc` holds process 1 with 50 kB and process 2 with 500 kB
of resident memory; both have CPU percentage 0, as every process read from `/proc` has.
`--top 1` prints the heading "by memory usage" and the row of process 2, the result of
`topByMemory`; `topByCPU` on the same list gives process 1. The usage text announces
"top N processes by CPU". With every implementation of `std::sort` the rows of
`showTopProcesses` are those of `topByMemory`. -/
theorem showTopProcesses_sorts_by_memory :
    (getAllProcesses twoMemFs [procDir "1".toList, procDir "2".toList]).map
      (fun p => (p.pid, p.vmRSS, p.cpuPercent)) = [(1, 50, 0), (2, 500, 0)] ∧
    (showTopProcesses insertionStdSort twoMemFs [procDir "1".toList, procDir "2".toList]
      1).2.map Process.pid = [2] ∧
    (showTopProcesses insertionStdSort twoMemFs [procDir "1".toList, procDir "2".toList]
      1).1 = "Top 1 processes by memory usage:\n\n".toList ∧
    (topByCPU insertionStdSort
      (getAllProcesses twoMemFs [procDir "1".toList, procDir "2".toList]) 1).map Process.pid
      = [1] ∧
    usageTop = " --top [N]              Show top N processes by CPU\n".toList ∧
    (∀ S : StdSort,
      (showTopProcesses S twoMemFs [procDir "1".toList, procDir "2".toList] 1).2.map
        Process.vmRSS = [500]) ∧
    (∀ (S : StdSort) (fs : ProcFs) (entries : List DirEntry) (count : Int),
      (showTopProcesses S fs entries count).2
        = topByMemory S (getAllProcesses fs entries) (sizeOfInt count)) := by
  refine ⟨by decide, by decide, by decide, by decide, rfl, fun S => ?_, fun _ _ _ _ => rfl⟩
  have hps : (getAllProcesses twoMemFs [procDir "1".toList, procDir "2".toList]).map
      Process.vmRSS = [50, 500] := by decide
  have hperm := sort_perm S (getAllProcesses twoMemFs [procDir "1".toList, procDir "2".toList])
    .BY_MEMORY false
  have hpw := sort_pairwise S
    (getAllProcesses twoMemFs [procDir "1".toList, procDir "2".toList]) .BY_MEMORY false
  have h1 : ((ProcessSorter.sort S
      (getAllProcesses twoMemFs [procDir "1".toList, procDir "2".toList])
      .BY_MEMORY false).map Process.vmRSS).Perm [500, 50] := by
    refine (hperm.map Process.vmRSS).trans ?_
    rw [hps]
    decide
  have h2 : ((ProcessSorter.sort S
      (getAllProcesses twoMemFs [procDir "1".toList, procDir "2".toList])
      .BY_MEMORY false).map Process.vmRSS).Sorted (· ≥ ·) := by
    rw [List.Sorted, List.pairwise_map]
    exact hpw.imp (fun h => h)
  have h3 := List.eq_of_perm_of_sorted h1 h2 (by decide)
  have hlen : (ProcessSorter.sort S
      (getAllProcesses twoMemFs [procDir "1".toList, procDir "2".toList])
      .BY_MEMORY false).length = 2 := by
    have := congrArg List.length h3
    simpa using this
  show (topByMemory S (getAllProcesses twoMemFs [procDir "1".toList, procDir "2".toList])
    (sizeOfInt 1)).map Process.vmRSS = [500]
  unfold topByMemory
  dsimp only
  rw [if_pos (by rw [hlen]; decide), List.map_take, h3]
  decide

/-! ## Termination on every process list -/

theorem survivors_pids (ps : List Process) :
    (survivors ps).map Process.pid = NodeMap.keys (createNodes ps) := by
  unfold survivors NodeMap.keys
  rw [List.map_map]
  apply List.map_congr_left
  intro e he
  exact (createNodes_children ps e he).2

theorem survivors_nodup (ps : List Process) : ((survivors ps).map Process.pid).Nodup := by
  rw [survivors_pids]
  exact createNodes_nodup ps

theorem survivors_entries (ps : List Process) :
    (survivors ps).map (fun p => (p.pid, newNode p)) = createNodes ps := by
  unfold survivors
  rw [List.map_map]
  conv_rhs => rw [← List.map_id (createNodes ps)]
  apply List.map_congr_left
  intro e he
  obtain ⟨k, n⟩ := e
  obtain ⟨p, _, hk, hn⟩ := createNodes_entry ps k n he
  subst hn
  subst hk
  rfl

theorem survivors_length_le (ps : List Process) : (survivors ps).length ≤ ps.length := by
  unfold survivors
  rw [List.length_map]
  exact createNodes_length_le ps

theorem survivors_subset (ps : List Process) : ∀ p ∈ survivors ps, p ∈ ps := by
  intro p hp
  unfold survivors at hp
  obtain ⟨e, he, rfl⟩ := List.mem_map.mp hp
  obtain ⟨k, n⟩ := e
  obtain ⟨q, hq, _, hn⟩ := createNodes_entry ps k n he
  subst hn
  exact hq

/-- The first pass gives the same map on the list and on the processes it keeps. -/
theorem createNodes_survivors (ps : List Process) :
    createNodes (survivors ps) = createNodes ps := by
  have hp : (createNodes (survivors ps)).Perm (createNodes ps) := by
    have := createNodes_perm (survivors ps) (survivors_nodup ps)
    rw [survivors_entries] at this
    exact this
  have hanti : IsAntisymm (Int × ProcessTreeNode) (fun a b => a.1 < b.1 ∨ a = b) :=
    ⟨fun a b h1 h2 => by
      rcases h1 with h1 | h1
      · rcases h2 with h2 | h2
        · exact absurd (lt_trans h1 h2) (lt_irrefl _)
        · exact h2.symm
      · exact h1⟩
  have hs : ∀ qs : List Process,
      (createNodes qs).Sorted (fun a b => a.1 < b.1 ∨ a = b) := by
    intro qs
    have := createNodes_sorted qs
    unfold NodeMap.keys at this
    rw [List.Sorted, List.pairwise_map] at this
    exact this.imp (fun h => Or.inl h)
  exact @List.eq_of_perm_of_sorted _ _ hanti _ _ hp (hs _) (hs ps)

/-- The tree of a list is the tree of the processes the first pass keeps. -/
theorem buildTree_survivors (fuel : Nat) (ps : List Process) :
    buildTree fuel (survivors ps) = buildTree fuel ps := by
  unfold buildTree
  rw [createNodes_survivors]

theorem survivors_of_nodup (ps : List Process) (hnd : (ps.map Process.pid).Nodup) :
    (survivors ps).Perm ps := by
  have h1 := createNodes_perm ps hnd
  have h2 := h1.map (fun e : Int × ProcessTreeNode => e.2.process)
  rw [List.map_map] at h2
  have h3 : ps.map ((fun e : Int × ProcessTreeNode => e.2.process)
      ∘ (fun p => (p.pid, newNode p))) = ps := by
    conv_rhs => rw [← List.map_id ps]
    apply List.map_congr_left
    intro p _
    rfl
  rw [h3] at h2
  exact h2

theorem ancestor_none_add (m : NodeMap) (a b : Nat) (k : Int)
    (h : ancestor m a k = none) : ancestor m (a + b) k = none := by
  rw [ancestor_add, h]
  rfl

theorem ancestor_cycle_iter (m : NodeMap) (c : Int) (j : Nat)
    (h : ancestor m (j + 1) c = some c) : ∀ n, ancestor m (n * (j + 1)) c = some c := by
  intro n
  induction n with
  | zero =>
    obtain ⟨node, hnode⟩ := ancestor_find m (j + 1) c c h
    simp [ancestor, hnode]
  | succ n ih =>
    rw [Nat.succ_mul, ancestor_add, ih]
    exact h

/-- A node on a parent cycle, or with a node of a parent cycle among its ancestors, has no
root among its ancestors. -/
theorem not_atDepth_of_cycle (m : NodeMap) (k c : Int) (i j : Nat)
    (hk : ancestor m i k = some c) (hc : ancestor m (j + 1) c = some c) :
    ¬ ∃ d, AtDepth m k d := by
  rintro ⟨d, r, hr, hd⟩
  have hnone : ancestor m (d + 1) k = none := by
    rw [ancestor_add, hd]
    exact ancestor_root_succ m r hr 0
  have hsome : ancestor m (i + (d + 1) * (j + 1)) k = some c := by
    rw [ancestor_add, hk]
    exact ancestor_cycle_iter m c j hc (d + 1)
  have hge : i + (d + 1) * (j + 1) = (d + 1) + (i + (d + 1) * j) := by ring
  rw [hge, ancestor_none_add m (d + 1) _ k hnone] at hsome
  cases hsome

theorem ancestor_step_child (m : NodeMap) (hinv : LinkInv m) (v : Int)
    (node : ProcessTreeNode) (hv : NodeMap.find m v = some node) (c : Int)
    (hc : c ∈ node.children) (j : Nat) (k : Int) (h : ancestor m j k = some c) :
    ancestor m (j + 1) k = some v := by
  obtain ⟨cn, hcn, hpp⟩ := hinv v node hv c hc
  rw [ancestor_add, h]
  show ancestor m 1 c = some v
  simp [ancestor, hcn, hpp, hv]

/-- The depth pass started at a node writes to no node outside the nodes below it. -/
theorem buildTreeRecursive_frame (fuel : Nat) :
    ∀ (m : NodeMap) (v : Int) (depth : Int) (m2 : NodeMap) (k : Int), LinkInv m →
      buildTreeRecursive fuel m v depth = some m2 →
      (∀ j, ancestor m j k ≠ some v) → NodeMap.find m2 k = NodeMap.find m k := by
  induction fuel with
  | zero => intro m v depth m2 k _ h; simp [buildTreeRecursive] at h
  | succ fuel ih =>
    intro m v depth m2 k hinv h hk
    unfold buildTreeRecursive at h
    cases hf : NodeMap.find m v with
    | none =>
      rw [hf] at h
      injection h with h
      rw [← h]
    | some node =>
      rw [hf] at h
      dsimp only at h
      have hkv : k ≠ v := by
        intro e
        apply hk 0
        rw [e]
        simp [ancestor, hf]
      have hloop : ∀ (cs : List Int), (∀ c ∈ cs, c ∈ node.children) →
          ∀ (acc res : NodeMap), shape acc = shape m →
          cs.foldlM (fun acc child => buildTreeRecursive fuel acc child (depth + 1)) acc
            = some res →
          NodeMap.find res k = NodeMap.find acc k := by
        intro cs
        induction cs with
        | nil =>
          intro _ acc res _ hres
          simp at hres
          rw [hres]
        | cons c cs ihc =>
          intro hcs acc res hacc hres
          rw [List.foldlM_cons] at hres
          cases h1 : buildTreeRecursive fuel acc c (depth + 1) with
          | none => rw [h1] at hres; cases hres
          | some acc1 =>
            rw [h1] at hres
            have hs1 := buildTreeRecursive_shape fuel acc c (depth + 1) acc1 h1
            have hno : ∀ j, ancestor acc j k ≠ some c := by
              intro j hj
              rw [ancestor_of_shape hacc.symm] at hj
              exact hk (j + 1)
                (ancestor_step_child m hinv v node hf c (hcs c (by simp)) j k hj)
            have e1 := ih acc c (depth + 1) acc1 k (linkInv_of_shape hacc.symm hinv) h1 hno
            have e2 := ihc (fun x hx => hcs x (by simp [hx])) acc1 res (hs1.trans hacc) hres
            rw [e2, e1]
      have e := hloop node.children (fun c hc => hc) _ m2 (shape_modify_depth m v depth) h
      rw [e, NodeMap.find_modify, if_neg hkv]

theorem rootsLoop_frame (fuel : Nat) (m : NodeMap) (hinv : LinkInv m) (k : Int)
    (rs : List Int) (hk : ∀ r ∈ rs, ∀ j, ancestor m j k ≠ some r) :
    ∀ (acc res : NodeMap), shape acc = shape m →
      rs.foldlM (fun acc root => buildTreeRecursive fuel acc root 0) acc = some res →
      NodeMap.find res k = NodeMap.find acc k := by
  induction rs with
  | nil =>
    intro acc res _ hres
    simp at hres
    rw [hres]
  | cons r rs ih =>
    intro acc res hacc hres
    rw [List.foldlM_cons] at hres
    cases h1 : buildTreeRecursive fuel acc r 0 with
    | none => rw [h1] at hres; cases hres
    | some acc1 =>
      rw [h1] at hres
      have hs1 := buildTreeRecursive_shape fuel acc r 0 acc1 h1
      have hno : ∀ j, ancestor acc j k ≠ some r := by
        intro j hj
        rw [ancestor_of_shape hacc.symm] at hj
        exact hk r (by simp) j hj
      have e1 := buildTreeRecursive_frame fuel acc r 0 acc1 k
        (linkInv_of_shape hacc.symm hinv) h1 hno
      have e2 := ih (fun x hx => hk x (by simp [hx])) acc1 res (hs1.trans hacc) hres
      rw [e2, e1]

theorem ancestor_map_sortEntry (m : NodeMap) (i : Nat) (v : Int) :
    ancestor (m.map sortEntry) i v = ancestor m i v := by
  induction i generalizing v with
  | zero =>
    simp only [ancestor, find_map_sortEntry]
    cases NodeMap.find m v <;> rfl
  | succ i ih =>
    simp only [ancestor, find_map_sortEntry]
    cases NodeMap.find m v with
    | none => rfl
    | some n => exact ih _

theorem isRoot_map_sortEntry (m : NodeMap) (r : Int) (h : IsRoot m r) :
    IsRoot (m.map sortEntry) r := by
  obtain ⟨rn, h1, h2⟩ := h
  refine ⟨{ rn with children := sortChildren rn.children }, ?_, ?_⟩
  · rw [find_map_sortEntry, h1]
    rfl
  · rw [find_map_sortEntry]
    show Option.map _ (NodeMap.find m rn.process.ppid) = none
    rw [h2]
    rfl

/-- In the tree `buildTree` returns, a node with no root among its ancestors has the
depth 0 it was created with: the depth pass has not written to it. -/
theorem buildTree_depth_zero (fuel : Nat) (ps : List Process) (t : ProcessTree)
    (h : buildTree fuel ps = some t) (k : Int) (node : ProcessTreeNode)
    (hf : NodeMap.find t.nodeMap k = some node) (hno : ¬ ∃ d, AtDepth t.nodeMap k d) :
    node.depth = 0 := by
  unfold buildTree at h
  rw [linkNodes_closed] at h
  dsimp only at h
  split at h
  · cases h
  · rename_i m3 hm3
    injection h with h
    subst h
    have hnd := createNodes_nodup ps
    have hnew : ∀ e ∈ createNodes ps, e.2.children = [] :=
      fun e he => (createNodes_children ps e he).1
    have hinv := linkInv_linkedMap (createNodes ps) hnd hnew
    have hshape := rootsLoop_shape fuel _ _ _ hm3
    have hk : ∀ r ∈ linkedRoots (createNodes ps), ∀ j,
        ancestor (linkedMap (createNodes ps)) j k ≠ some r := by
      intro r hr j hj
      apply hno
      refine ⟨j, r, isRoot_map_sortEntry _ r
        (isRoot_of_shape hshape.symm (isRoot_linkedRoots _ hnd r hr)), ?_⟩
      show ancestor (m3.map sortEntry) j k = some r
      rw [ancestor_map_sortEntry, ancestor_of_shape hshape.symm]
      exact hj
    have hfr := rootsLoop_frame fuel (linkedMap (createNodes ps)) hinv k
      (linkedRoots (createNodes ps)) hk (linkedMap (createNodes ps)) m3 rfl hm3
    have hf2 : NodeMap.find (m3.map sortEntry) k = some node := hf
    rw [find_map_sortEntry, hfr, find_linkedMap] at hf2
    cases h0 : NodeMap.find (createNodes ps) k with
    | none => rw [h0] at hf2; cases hf2
    | some n0 =>
      rw [h0] at hf2
      simp only [Option.map_some', Option.some.injEq] at hf2
      obtain ⟨p, _, _, hn⟩ := createNodes_entry ps k n0 (NodeMap.mem_of_find h0)
      rw [← hf2, hn]
      rfl

/-- C26. On every process list, lists with parent cycles, self-parents or repeated pids
included, `buildTree` returns a tree, and on that tree `getTreeLines` returns, with the
same lines for every bound on the recursion depth above the number of processes. The roots
of the tree are exactly the nodes whose parent id is not in the map, and the lines are
those of the nodes that are a root or have a root among their ancestors, in depth-first
order. A node on a parent cycle, or with a node of a parent cycle among its ancestors, has
no root among its ancestors; every node without a root among its ancestors gets no line
and has depth 0. -/
theorem buildTree_getTreeLines_terminate (ps : List Process) :
    (∃ t, buildTree (ps.length + 1) ps = some t) ∧
    ∀ fuel t, buildTree fuel ps = some t →
      (∀ r, r ∈ t.roots ↔ IsRoot t.nodeMap r) ∧
      (∀ showThreads : Bool, ∃ lines,
        (∀ fuel2, ps.length + 1 ≤ fuel2 → getTreeLines fuel2 t showThreads = some lines) ∧
        List.Forall₂ (LineOf (survivors ps) showThreads) lines
          (displayOrder (survivors ps) t.roots) ∧
        ∀ x, x ∈ displayOrder (survivors ps) t.roots ↔ ∃ d, AtDepth t.nodeMap x d) ∧
      (∀ k c i j, ancestor t.nodeMap i k = some c → ancestor t.nodeMap (j + 1) c = some c →
        ¬ ∃ d, AtDepth t.nodeMap k d) ∧
      (∀ k node, NodeMap.find t.nodeMap k = some node → (¬ ∃ d, AtDepth t.nodeMap k d) →
        node.depth = 0) := by
  refine ⟨buildTree_some _ ps (le_refl _), ?_⟩
  intro fuel t hbuild
  have hbuild2 : buildTree fuel (survivors ps) = some t := by
    rw [buildTree_survivors]
    exact hbuild
  have ht := buildTree_treeOf fuel (survivors ps) (survivors_nodup ps) t hbuild2
  have hlen := ht.length_eq
  have hle := survivors_length_le ps
  obtain ⟨_, hroots⟩ := buildTree_roots_isRoot fuel (survivors ps) (survivors_nodup ps) t hbuild2
  refine ⟨hroots, ?_, fun k c i j hk hc => not_atDepth_of_cycle t.nodeMap k c i j hk hc,
    fun k node hf hno => buildTree_depth_zero fuel ps t hbuild k node hf hno⟩
  intro showThreads
  obtain ⟨lines, hlines, hrel⟩ := getTreeLines_order ht t.roots
    (fun r hr => (hroots r).mp hr) showThreads ((survivors ps).length + 1) (by omega)
  refine ⟨lines, ?_, hrel, ?_⟩
  · intro fuel2 hfuel2
    exact getTreeLines_mono _ _ (by omega) t showThreads lines hlines
  · intro x
    exact ht.mem_rootsOrder t.roots hroots ((survivors ps).length + 1) (by omega) x

/-- A root beside two processes that name each other as parent: the tree is built, the
cycle nodes 2 and 3 have depth 0, and the lines are returned. -/
theorem buildTree_getTreeLines_terminate_witness :
    buildTree 4 [procOf 1 0, procOf 2 3, procOf 3 2] = some rootAndCycleTree ∧
    (∃ lines, ∀ fuel2, 4 ≤ fuel2 → getTreeLines fuel2 rootAndCycleTree false = some lines) ∧
    (∀ node, NodeMap.find rootAndCycleTree.nodeMap 2 = some node → node.depth = 0) :=
  have h := (buildTree_getTreeLines_terminate [procOf 1 0, procOf 2 3, procOf 3 2]).2 4
    rootAndCycleTree (by decide)
  ⟨by decide,
    (h.2.1 false).elim (fun lines hl => ⟨lines, hl.1⟩),
    fun node hnode => h.2.2.2 2 node hnode
      (h.2.2.1 2 2 0 1 (by decide) (by decide))⟩

end Lpm
